import Mathlib

/-!
Verification development for the FileScopeMCP dependency-graph engine.

The definitions below are a shallow embedding of the TypeScript source
(`src/file-utils.ts` and its later snapshot containing the incremental
update functions).  JavaScript strings are modelled as `List Char`
(wrapped in `String` at the boundaries), JavaScript numbers as `Rat`
(all arithmetic performed by the embedded functions stays in a range
where IEEE doubles are exact), and in-place mutation of the node tree is
modelled by explicit state passing.
-/

/- The rational arithmetic used to model JavaScript numbers must reduce
definitionally so that concrete runs of the embedded functions can be
checked by `decide`/`rfl`. -/
unseal Rat.add Rat.mul Rat.sub Rat.inv

namespace FileScope

/-! ## Character-list string utilities (models of the JS string methods) -/

/-- Model of `a.startsWith(b)` on character lists: does `l` start with `p`? -/
def startsWithL : List Char → List Char → Bool
  | _, [] => true
  | [], _ :: _ => false
  | a :: as, b :: bs => a == b && startsWithL as bs

/-- Model of `a.includes(b)` (substring containment). -/
def containsSub : List Char → List Char → Bool
  | [], pat => pat.isEmpty
  | a :: rest, pat => startsWithL (a :: rest) pat || containsSub rest pat

/-- Model of `a.endsWith(b)`. -/
def endsWithL (l p : List Char) : Bool :=
  startsWithL l.reverse p.reverse

/-- Model of `s.split(c)` (JavaScript `String.prototype.split` with a
single-character separator): `"".split(c) = [""]`. -/
def splitOnCharAux (c : Char) : List Char → List Char → List (List Char)
  | [], acc => [acc.reverse]
  | x :: xs, acc =>
    if x == c then acc.reverse :: splitOnCharAux c xs []
    else splitOnCharAux c xs (x :: acc)

def splitOnChar (c : Char) (l : List Char) : List (List Char) :=
  splitOnCharAux c l []

/-- Join segments with `/` (inverse of `splitOnChar '/'`). -/
def joinSegs (segs : List (List Char)) : List Char :=
  List.intercalate ['/'] segs

/-- Model of `path.split('/').pop() || ''`: the last `/`-separated segment. -/
def lastSeg (l : List Char) : List Char :=
  ((splitOnChar '/' l).reverse).headD []

/-- Model of POSIX `path.basename` for paths without a trailing slash
(the inputs the engine feeds it are `path.normalize`d). -/
def basenameL (l : List Char) : List Char :=
  lastSeg l

/-- Model of POSIX `path.dirname` for paths without a trailing slash. -/
def dirnameL (l : List Char) : List Char :=
  let segs := splitOnChar '/' l
  let init := segs.dropLast
  if init.isEmpty then ['.']
  else if init = [[]] then ['/']
  else joinSegs init

/-- Model of POSIX `path.extname`: suffix of the basename from its last
dot, empty for dotfiles and extensionless names. -/
def extnameL (l : List Char) : List Char :=
  let b := basenameL l
  match (b.reverse.takeWhile (fun c => c ≠ '.')).length, b.contains '.' with
  | _, false => []
  | n, true => if b.length - n - 1 = 0 then [] else b.drop (b.length - n - 1)

/-- Model of `s.toLowerCase()` (ASCII case folding suffices for the
comparisons the engine performs). -/
def toLowerL (l : List Char) : List Char :=
  l.map Char.toLower

/-- Model of the regex replacement `replace(/\/+/g, '/')`: collapse runs
of slashes to a single slash. -/
def dedupSlashes : List Char → List Char
  | [] => []
  | a :: rest =>
    if a == '/' && rest.headD ' ' == '/' then dedupSlashes rest
    else a :: dedupSlashes rest

/-- Model of POSIX `path.relative(base, file)` on the shared-prefix
segment lists, assuming both arguments are clean absolute paths (the
engine always passes `path.normalize`d absolute directories). -/
def relSegs : List (List Char) → List (List Char) → List (List Char)
  | a :: as, b :: bs =>
    if a = b then relSegs as bs
    else List.replicate (as.length + 1) ['.', '.'] ++ (b :: bs)
  | [], bs => bs
  | as, [] => List.replicate as.length ['.', '.']

def relativeL (base file : List Char) : List Char :=
  joinSegs (relSegs (splitOnChar '/' base) (splitOnChar '/' file))

/-! ## Model of `decodeURIComponent`

`decodeURIComponent` percent-decodes `%XX` escape groups into bytes and
UTF-8-decodes each maximal run of escaped bytes; any malformed escape or
invalid byte sequence raises `URIError`, modelled by `none`. -/

def hexVal (c : Char) : Option Nat :=
  if '0' ≤ c ∧ c ≤ '9' then some (c.toNat - '0'.toNat)
  else if 'a' ≤ c ∧ c ≤ 'f' then some (c.toNat - 'a'.toNat + 10)
  else if 'A' ≤ c ∧ c ≤ 'F' then some (c.toNat - 'A'.toNat + 10)
  else none

def isUtf8Cont (b : Nat) : Bool :=
  0x80 ≤ b ∧ b < 0xC0

/-- Decode a byte list as UTF-8, rejecting truncated, overlong and
out-of-range sequences. -/
def utf8DecodeL : List Nat → Option (List Char)
  | [] => some []
  | b :: rest =>
    if b < 0x80 then
      (utf8DecodeL rest).map (Char.ofNat b :: ·)
    else if 0xC0 ≤ b ∧ b < 0xE0 then
      match rest with
      | b2 :: rest2 =>
        if isUtf8Cont b2 then
          let cp := (b - 0xC0) * 64 + (b2 - 0x80)
          if 0x80 ≤ cp then (utf8DecodeL rest2).map (Char.ofNat cp :: ·) else none
        else none
      | [] => none
    else if 0xE0 ≤ b ∧ b < 0xF0 then
      match rest with
      | b2 :: b3 :: rest3 =>
        if isUtf8Cont b2 && isUtf8Cont b3 then
          let cp := (b - 0xE0) * 4096 + (b2 - 0x80) * 64 + (b3 - 0x80)
          if 0x800 ≤ cp ∧ ¬(0xD800 ≤ cp ∧ cp ≤ 0xDFFF) then
            (utf8DecodeL rest3).map (Char.ofNat cp :: ·)
          else none
        else none
      | _ => none
    else if 0xF0 ≤ b ∧ b < 0xF5 then
      match rest with
      | b2 :: b3 :: b4 :: rest4 =>
        if isUtf8Cont b2 && isUtf8Cont b3 && isUtf8Cont b4 then
          let cp := (b - 0xF0) * 262144 + (b2 - 0x80) * 4096 + (b3 - 0x80) * 64 + (b4 - 0x80)
          if 0x10000 ≤ cp ∧ cp < 0x110000 then
            (utf8DecodeL rest4).map (Char.ofNat cp :: ·)
          else none
        else none
      | _ => none
    else none
termination_by l => l.length

/-- Tokenize: each `%XX` escape becomes a byte token, every other
character passes through; a `%` not followed by two hex digits is
malformed. -/
def pctTokens : List Char → Option (List (Sum Char Nat))
  | [] => some []
  | '%' :: h1 :: h2 :: rest =>
    match hexVal h1, hexVal h2 with
    | some a, some b => (pctTokens rest).map (Sum.inr (16 * a + b) :: ·)
    | _, _ => none
  | '%' :: _ => none
  | c :: rest => (pctTokens rest).map (Sum.inl c :: ·)
termination_by l => l.length

/-- Split a token list into its maximal leading run of byte tokens and
the remainder. -/
def splitBytes : List (Sum Char Nat) → List Nat × List (Sum Char Nat)
  | Sum.inr b :: rest => let r := splitBytes rest; (b :: r.1, r.2)
  | l => ([], l)

def decodeTokens : List (Sum Char Nat) → Option (List Char)
  | [] => some []
  | Sum.inl c :: rest => (decodeTokens rest).map (c :: ·)
  | Sum.inr b :: rest =>
    let r := splitBytes rest
    match utf8DecodeL (b :: r.1), decodeTokens r.2 with
    | some cs, some ds => some (cs ++ ds)
    | _, _ => none
termination_by l => l.length
decreasing_by
  all_goals first
  | (simp only [List.length_cons]; omega)
  | (have hsb : ∀ l : List (Sum Char Nat), (splitBytes l).2.length ≤ l.length := by
       intro l
       induction l with
       | nil => simp [splitBytes]
       | cons a rest2 ih =>
         cases a with
         | inl c => simp [splitBytes]
         | inr b => simpa [splitBytes] using Nat.le_succ_of_le ih
     have h := hsb rest
     simp only [r, List.length_cons] at h ⊢
     omega)

/-- Model of `decodeURIComponent`; `none` models a thrown `URIError`. -/
def decodeURIComponentModel (l : List Char) : Option (List Char) := do
  decodeTokens (← pctTokens l)

/-! ## `normalizePath` (file-utils snapshot, lines 14–41) -/

/-- The regex test `decoded.match(/^\/[a-zA-Z]:/)`. -/
def driveMatch : List Char → Bool
  | '/' :: c :: ':' :: _ => ('a' ≤ c ∧ c ≤ 'z') ∨ ('A' ≤ c ∧ c ≤ 'Z')
  | _ => false

/-- The backslash-to-forward-slash replacement `replace(/\\/g, '/')`. -/
def slashify (c : Char) : Char := if c == '\\' then '/' else c

/-- The post-decode stages of `normalizePath`: strip the slash before a
drive letter, convert backslashes, drop double quotes, collapse
duplicate slashes, drop a trailing slash. -/
def normalizeStages (decoded : List Char) : List Char :=
  let cleanPath := if driveMatch decoded then decoded.drop 1 else decoded
  let forwardSlashed := cleanPath.map slashify
  let noQuotes := forwardSlashed.filter (fun c => c ≠ '\"')
  let deduped := dedupSlashes noQuotes
  if deduped.getLast? = some '/' then deduped.dropLast else deduped

/-- Shallow embedding of `normalizePath`.  The `try`/`catch` around
`decodeURIComponent` is modelled by the `Option`: a failed decode
returns the original input unchanged. -/
def normalizePath (s : String) : String :=
  if s = "" then ""
  else
    match (if s.data.contains '%' then decodeURIComponentModel s.data else some s.data) with
    | none => s
    | some decoded => ⟨normalizeStages decoded⟩

/-! ## Data model (`types.ts`: `FileNode`, `PackageDependency`) -/

structure PackageDependency where
  name : String
  version : Option String
  path : String
  scope : Option String
  isDevDependency : Bool
deriving DecidableEq, Repr, Inhabited

/-- The scalar fields of a `FileNode`; `importance` is `none` while unset
(directories are never scored). -/
structure FileMeta where
  path : String
  name : String
  isDirectory : Bool
  dependencies : List String
  packageDependencies : List PackageDependency
  dependents : List String
  importance : Option Rat
deriving DecidableEq, Repr, Inhabited

inductive FileNode : Type where
  | mk (meta : FileMeta) (children : List FileNode) : FileNode

def FileNode.meta : FileNode → FileMeta
  | .mk m _ => m

def FileNode.children : FileNode → List FileNode
  | .mk _ ch => ch

def FileNode.path (n : FileNode) : String := n.meta.path

def FileNode.name (n : FileNode) : String := n.meta.name

def FileNode.isDirectory (n : FileNode) : Bool := n.meta.isDirectory

def FileNode.dependencies (n : FileNode) : List String := n.meta.dependencies

def FileNode.packageDependencies (n : FileNode) : List PackageDependency :=
  n.meta.packageDependencies

def FileNode.dependents (n : FileNode) : List String := n.meta.dependents

def FileNode.importance (n : FileNode) : Option Rat := n.meta.importance

instance : Inhabited FileNode := ⟨.mk default []⟩

/-- Well-founded induction on the node tree. -/
def FileNode.inductionOn {P : FileNode → Prop} (t : FileNode)
    (ind : ∀ m ch, (∀ c ∈ ch, P c) → P (.mk m ch)) : P t :=
  match t with
  | .mk m ch => ind m ch (fun c hc => FileNode.inductionOn c ind)
termination_by t
decreasing_by
  have h := List.sizeOf_lt_of_mem hc
  simp only [FileNode.mk.sizeOf_spec]
  omega

/-! ## Tree traversal (`getAllFileNodes`, snapshot lines 537–551) -/

mutual

/-- All nodes of the tree in the traversal order of `getAllFileNodes`
(node first, then its children left to right). -/
def getAllNodes : FileNode → List FileNode
  | .mk m ch => .mk m ch :: getAllNodesList ch

def getAllNodesList : List FileNode → List FileNode
  | [] => []
  | c :: cs => getAllNodes c ++ getAllNodesList cs

end

/-- `getAllFileNodes`: the file (non-directory) nodes in traversal order. -/
def getAllFileNodes (root : FileNode) : List FileNode :=
  (getAllNodes root).filter (fun n => !n.isDirectory)

/-! ## Importance scoring -/

/-- `Math.round` on the exact rational value (JavaScript rounds half
toward positive infinity). -/
def jsRound (q : Rat) : Rat := ((⌊q + 1 / 2⌋ : Int) : Rat)

/-- `Math.min` on two exact rational values. -/
def jsMin (a b : Rat) : Rat := if a ≤ b then a else b

/-- `Math.max` on two exact rational values. -/
def jsMax (a b : Rat) : Rat := if b ≤ a then a else b

/-- `Math.min(10, Math.max(0, v))`, the clamp used by `setFileImportance`. -/
def clampImp (v : Rat) : Rat := jsMin 10 (jsMax 0 v)

def significantNames : List (List Char) :=
  ["index".data, "main".data, "server".data, "app".data, "config".data,
   "types".data, "utils".data]

/-- `path.basename(filePath, ext)`: the basename with a trailing `ext`
stripped when it is a proper suffix. -/
def basenameNoExt (l ext : List Char) : List Char :=
  let b := basenameL l
  if endsWithL b ext ∧ b ≠ ext then b.take (b.length - ext.length) else b

/-- `calculateInitialImportance` (incremental snapshot lines 93–143):
base points by extension, a location bonus for `src`/`test`/`tests`
top-level segments, a significant-name bonus, capped at 10. -/
def calculateInitialImportance (filePath baseDir : String) : Rat :=
  let ext := extnameL filePath.data
  let relativePath := relativeL baseDir.data filePath.data
  let parts := splitOnChar '/' relativePath
  let fileName := basenameNoExt filePath.data ext
  let base : Rat :=
    if ext = ".ts".data ∨ ext = ".tsx".data then 3
    else if ext = ".js".data ∨ ext = ".jsx".data then 2
    else if ext = ".json".data then
      (if fileName = "package".data ∨ fileName = "tsconfig".data then 3 else 1)
    else if ext = ".md".data then
      (if toLowerL fileName = "readme".data then 2 else 1)
    else 0
  let loc : Rat :=
    if parts.headD [] = "src".data then 2
    else if parts.headD [] = "test".data ∨ parts.headD [] = "tests".data then 1
    else 0
  let sig : Rat := if significantNames.contains (toLowerL fileName) then 2 else 0
  jsMin (base + loc + sig) 10

def sdkMarker : List Char := "@modelcontextprotocol/sdk".data

/-- The body of `calculateImportance` (snapshot lines 450–485) for a
single node: starts from the node's *current* importance when truthy
(non-zero), adds the graph bonuses, caps at 10. -/
def refineImportanceMeta (cwd : String) (m : FileMeta) : FileMeta :=
  if m.isDirectory then m
  else
    let base : Rat :=
      match m.importance with
      | some i => if i = 0 then calculateInitialImportance m.path cwd else i
      | none => calculateInitialImportance m.path cwd
    let s1 := if m.dependents.length > 0 then base + jsMin (m.dependents.length : Rat) 3 else base
    let s2 := if m.dependencies.length > 0 then s1 + jsMin (m.dependencies.length : Rat) 2 else s1
    let sdkDeps := m.packageDependencies.filter
      (fun d => d.name ≠ "" && containsSub d.name.data sdkMarker)
    let otherDeps := m.packageDependencies.filter
      (fun d => d.name ≠ "" && !containsSub d.name.data sdkMarker)
    let s3 :=
      if m.packageDependencies.length > 0 then
        s2 + jsMin (sdkDeps.length : Rat) 2 + jsMin (otherDeps.length : Rat) 1
      else s2
    { m with importance := some (jsMin s3 10) }

mutual

/-- `calculateImportance` recursing over the whole tree (the
`recalculate_importance` tool and the post-scan pass); `cwd` models
`process.cwd()`. -/
def calculateImportance (cwd : String) : FileNode → FileNode
  | .mk m ch => .mk (refineImportanceMeta cwd m) (calculateImportanceList cwd ch)

def calculateImportanceList (cwd : String) : List FileNode → List FileNode
  | [] => []
  | c :: cs => calculateImportance cwd c :: calculateImportanceList cwd cs

end

/-- `calculateNodeImportance` (incremental snapshot lines 968–995): the
corrected per-node score, recomputed from the initial importance. -/
def calculateNodeImportance (m : FileMeta) (projectRoot : String) : Rat :=
  let base := calculateInitialImportance m.path projectRoot
  let s1 := if m.dependents.length > 0 then base + jsMin (m.dependents.length : Rat) 3 else base
  let s2 := if m.dependencies.length > 0 then s1 + jsMin (m.dependencies.length : Rat) 2 else s1
  let sdkDeps := m.packageDependencies.filter (fun d => containsSub d.name.data sdkMarker)
  let otherDeps := m.packageDependencies.filter (fun d => !containsSub d.name.data sdkMarker)
  let s3 :=
    if m.packageDependencies.length > 0 then
      s2 + jsMin (sdkDeps.length : Rat) 2 + jsMin (otherDeps.length : Rat) 1
    else s2
  jsMin 10 (jsMax 0 (jsRound s3))

/-! ## `setFileImportance` (snapshot lines 488–539) -/

mutual

/-- `findAndSetImportance`: pre-order search applying the exact,
case-insensitive, suffix, and basename comparisons at each node; returns
whether a node was updated together with the updated tree. -/
def findAndSetImportance (inputNorm : String) (v : Rat) : FileNode → Bool × FileNode
  | .mk m ch =>
    let nodeNorm := normalizePath m.path
    if nodeNorm = inputNorm then
      (true, .mk { m with importance := some (clampImp v) } ch)
    else if toLowerL nodeNorm.data = toLowerL inputNorm.data then
      (true, .mk { m with importance := some (clampImp v) } ch)
    else if endsWithL inputNorm.data nodeNorm.data ∨ endsWithL nodeNorm.data inputNorm.data then
      (true, .mk { m with importance := some (clampImp v) } ch)
    else if lastSeg nodeNorm.data = lastSeg inputNorm.data ∧ lastSeg nodeNorm.data ≠ [] then
      (true, .mk { m with importance := some (clampImp v) } ch)
    else if m.isDirectory then
      let r := findAndSetImportanceList inputNorm v ch
      (r.1, .mk m r.2)
    else (false, .mk m ch)

def findAndSetImportanceList (inputNorm : String) (v : Rat) :
    List FileNode → Bool × List FileNode
  | [] => (false, [])
  | c :: cs =>
    let r := findAndSetImportance inputNorm v c
    if r.1 then (true, r.2 :: cs)
    else
      let rs := findAndSetImportanceList inputNorm v cs
      (rs.1, r.2 :: rs.2)

end

def setFileImportance (fileTree : FileNode) (filePath : String) (v : Rat) :
    Bool × FileNode :=
  findAndSetImportance (normalizePath filePath) v fileTree

/-! ## `buildDependentMap` (snapshot lines 554–579)

The source flattens the tree to the file-node list, builds a `Map` from
path to node (later entries override earlier ones), and pushes each
file's path onto the `dependents` of every dependency target found in
the map, skipping paths already present.  The mutation is modelled by a
state holding the `dependents` list of each file node (parallel to the
flattened list); the reachable file nodes after the call are exactly the
flattened nodes with the final state installed. -/

def pushIfAbsent (l : List String) (x : String) : List String :=
  if l.contains x then l else l ++ [x]

/-- Index of the node `pathToNodeMap.get p` denotes: the last file node
with path `p`. -/
def lastIdxOfPath (files : List FileNode) (p : String) : Option Nat :=
  match files.reverse.findIdx? (fun n => n.path = p) with
  | none => none
  | some i => some (files.length - 1 - i)

def modifyIdx (l : List (List String)) (i : Nat) (f : List String → List String) :
    List (List String) :=
  l.set i (f (l.getD i []))

def bdmPushDep (files : List FileNode) (fpath : String)
    (st : List (List String)) (d : String) : List (List String) :=
  match lastIdxOfPath files d with
  | some i => modifyIdx st i (fun deps => pushIfAbsent deps fpath)
  | none => st

def bdmProcessFile (files : List FileNode) (st : List (List String))
    (F : FileNode) : List (List String) :=
  F.dependencies.foldl (bdmPushDep files F.path) st

def buildDependentState (files : List FileNode) : List (List String) :=
  files.foldl (bdmProcessFile files) (files.map (·.dependents))

def installDependents (files : List FileNode) (st : List (List String)) :
    List FileNode :=
  (files.zip st).map (fun p => FileNode.mk { p.1.meta with dependents := p.2 } p.1.children)

/-- The file nodes reachable from `root` after `buildDependentMap root`. -/
def buildDependentMap (root : FileNode) : List FileNode :=
  let allFiles := getAllFileNodes root
  installDependents allFiles (buildDependentState allFiles)

/-! ## `findNodeByPath` (incremental snapshot lines 731–754) and the
in-place updates performed through it -/

mutual

/-- Pre-order search by `normalizePath`-equality; recurses into children
only below directory nodes, exactly as the source. -/
def findNodeByPath (targetNorm : String) : FileNode → Option FileNode
  | .mk m ch =>
    if normalizePath m.path = targetNorm then some (.mk m ch)
    else if m.isDirectory then findNodeByPathList targetNorm ch
    else none

def findNodeByPathList (targetNorm : String) : List FileNode → Option FileNode
  | [] => none
  | c :: cs =>
    match findNodeByPath targetNorm c with
    | some n => some n
    | none => findNodeByPathList targetNorm cs

end

mutual

/-- Apply `f` to the first node `findNodeByPath` would return for
`target` (the node the source mutates through the returned reference);
the boolean reports whether a node was found. -/
def updFirst (targetNorm : String) (f : FileNode → FileNode) :
    FileNode → Bool × FileNode
  | .mk m ch =>
    if normalizePath m.path = targetNorm then (true, f (.mk m ch))
    else if m.isDirectory then
      let r := updFirstList targetNorm f ch
      (r.1, .mk m r.2)
    else (false, .mk m ch)

def updFirstList (targetNorm : String) (f : FileNode → FileNode) :
    List FileNode → Bool × List FileNode
  | [] => (false, [])
  | c :: cs =>
    let r := updFirst targetNorm f c
    if r.1 then (true, r.2 :: cs)
    else
      let rs := updFirstList targetNorm f cs
      (r.2 :: rs.2) |> fun l => (rs.1, l)

end

/-- `updateDependentsForNewNode` (incremental snapshot lines 1002–1023):
push the new node's path onto the `dependents` of each (non-directory)
dependency target. -/
def updateDependentsForNewNode (newPath : String) (deps : List String)
    (tree : FileNode) : FileNode :=
  deps.foldl
    (fun t d =>
      (updFirst (normalizePath d)
        (fun n =>
          if n.isDirectory then n
          else .mk { n.meta with dependents := pushIfAbsent n.dependents newPath } n.children)
        t).2)
    tree

/-- `updateDependentsAfterRemoval` (lines 1030–1048): drop the removed
path (first exact occurrence, `indexOf`/`splice`) from the `dependents`
of each former dependency target. -/
def removeFirstEq (l : List String) (x : String) : List String :=
  match l.indexOf? x with
  | none => l
  | some i => l.eraseIdx i

def updateDependentsAfterRemoval (removedPath : String) (deps : List String)
    (tree : FileNode) : FileNode :=
  deps.foldl
    (fun t d =>
      (updFirst (normalizePath d)
        (fun n =>
          if n.isDirectory then n
          else .mk { n.meta with dependents := removeFirstEq n.dependents removedPath } n.children)
        t).2)
    tree

/-- `updateDependersAfterRemoval` (lines 1055–1074): drop the first
dependency entry that normalizes to the removed path (`findIndex` with
`normalizePath` comparison) from each former dependent. -/
def removeFirstNormEq (l : List String) (normTarget : String) : List String :=
  match l.findIdx? (fun d => normalizePath d = normTarget) with
  | none => l
  | some i => l.eraseIdx i

def updateDependersAfterRemoval (removedPath : String) (dependents : List String)
    (tree : FileNode) : FileNode :=
  dependents.foldl
    (fun t p =>
      (updFirst (normalizePath p)
        (fun n =>
          if n.isDirectory then n
          else .mk { n.meta with dependencies := removeFirstNormEq n.dependencies (normalizePath removedPath) } n.children)
        t).2)
    tree

/-- `[...new Set(l)]`: deduplicate keeping first occurrences. -/
def dedupKeepFirst (l : List String) : List String :=
  l.foldl (fun acc x => if acc.contains x then acc else acc ++ [x]) []

/-- `recalculateImportanceForAffected` (lines 1083–1107): recompute the
importance of every (non-directory) affected node in place. -/
def recalculateImportanceForAffected (affectedPaths : List String)
    (tree : FileNode) (projectRoot : String) : FileNode :=
  (dedupKeepFirst affectedPaths).foldl
    (fun t p =>
      (updFirst (normalizePath p)
        (fun n =>
          if n.isDirectory then n
          else .mk { n.meta with importance := some (calculateNodeImportance n.meta projectRoot) } n.children)
        t).2)
    tree

/-- Insertion sort by node name, modelling
`children.sort((a, b) => a.name.localeCompare(b.name))` (any total order
on names produces some sorted permutation; string order stands in for
the locale order). -/
def insertByName (n : FileNode) : List FileNode → List FileNode
  | [] => [n]
  | c :: cs => if n.name ≤ c.name then n :: c :: cs else c :: insertByName n cs

def sortByName : List FileNode → List FileNode
  | [] => []
  | c :: cs => insertByName c (sortByName cs)

/-- `addFileNode` (incremental snapshot lines 817–892).  The result of
`analyzeNewFile` — the one piece of the operation that reads the disk —
is passed in as `deps`/`pkgs` (already `normalizePath`d by the source). -/
def addFileNode (filePath : String) (tree : FileNode)
    (deps : List String) (pkgs : List PackageDependency)
    (projectRoot : String) : FileNode :=
  let normalized := normalizePath filePath
  let parentDir := ⟨dirnameL normalized.data⟩
  match findNodeByPath (normalizePath parentDir) tree with
  | none => tree
  | some parent =>
    if ¬parent.isDirectory then tree
    else if parent.children.any (fun c => normalizePath c.path = normalized) then tree
    else
      let newMeta : FileMeta :=
        { path := normalized
          name := ⟨basenameL normalized.data⟩
          isDirectory := false
          dependencies := deps
          packageDependencies := pkgs
          dependents := []
          importance := some (calculateInitialImportance normalized projectRoot) }
      let t1 := (updFirst (normalizePath parentDir)
        (fun p =>
          if p.isDirectory then
            .mk p.meta (sortByName (p.children ++ [FileNode.mk newMeta []]))
          else p) tree).2
      let t2 := updateDependentsForNewNode normalized deps t1
      recalculateImportanceForAffected (normalized :: deps.map normalizePath) t2 projectRoot

/-- Drop the first child whose path normalizes to `normTarget`
(`findIndex`/`splice` in step 4 of `removeFileNode`). -/
def removeFirstChild (ch : List FileNode) (normTarget : String) : List FileNode :=
  match ch.findIdx? (fun c => normalizePath c.path = normTarget) with
  | none => ch
  | some i => ch.eraseIdx i

/-- `removeFileNode` (incremental snapshot lines 902–959). -/
def removeFileNode (filePath : String) (tree : FileNode)
    (projectRoot : String) : FileNode :=
  let normalized := normalizePath filePath
  match findNodeByPath normalized tree with
  | none => tree
  | some node =>
    if node.isDirectory then tree
    else
      let parentDir := ⟨dirnameL normalized.data⟩
      match findNodeByPath (normalizePath parentDir) tree with
      | none => tree
      | some parent =>
        if ¬parent.isDirectory then tree
        else
          let depsSnapshot := node.dependencies
          let depntsSnapshot := node.dependents
          let t1 := (updFirst (normalizePath parentDir)
            (fun p =>
              if p.isDirectory then .mk p.meta (removeFirstChild p.children normalized)
              else p) tree).2
          let t2 := updateDependentsAfterRemoval node.path depsSnapshot t1
          let t3 := updateDependersAfterRemoval node.path depntsSnapshot t2
          recalculateImportanceForAffected
            (depsSnapshot.map normalizePath ++ depntsSnapshot.map normalizePath)
            t3 projectRoot

/-! ## Exclusion filter (`isExcluded`, incremental snapshot lines 212–307)

The user-pattern loop compiles glob patterns to regexes; the regex test
is abstracted as the parameter `globTest pattern candidate` (the claims
below hold for every such test), while the hard-coded failsafes and the
relative-path special cases are embedded concretely. -/

structure ScanConfig where
  excludePatterns : List String
deriving Repr

/-- Does `pattern` look like a file-extension pattern
(`pattern.startsWith('**/*.') || pattern.includes('/*.')`)? -/
def isExtensionPattern (pattern : String) : Bool :=
  startsWithL pattern.data "**/*.".data || containsSub pattern.data "/*.".data

def isExcluded (globTest : String → String → Bool) (config : Option ScanConfig)
    (filePath baseDir : String) : Bool :=
  if containsSub filePath.data ".git".data ∨ basenameL filePath.data = ".git".data then true
  else if containsSub filePath.data "node_modules".data
      ∨ basenameL filePath.data = "node_modules".data then true
  else if containsSub filePath.data "test_excluded".data
      ∨ startsWithL (basenameL filePath.data) "test_excluded".data then true
  else
    match config with
    | none => false
    | some cfg =>
      if cfg.excludePatterns.isEmpty then false
      else
        let relativePath : String :=
          ⟨(relativeL baseDir.data filePath.data).map (fun c => if c == '\\' then '/' else c)⟩
        let fileName : String := ⟨basenameL filePath.data⟩
        if containsSub relativePath.data "/.git/".data ∨ relativePath = ".git"
            ∨ fileName = ".git" ∨ startsWithL relativePath.data ".git/".data then true
        else if containsSub relativePath.data "/node_modules/".data
            ∨ relativePath = "node_modules" ∨ fileName = "node_modules"
            ∨ startsWithL relativePath.data "node_modules/".data then true
        else
          cfg.excludePatterns.any (fun pattern =>
            globTest pattern relativePath
            || (isExtensionPattern pattern && globTest pattern fileName))

/-! ## Directory scanners

The filesystem is modelled as a finite entry tree (`none` children =
unreadable directory), and the per-file import extraction — the read of
the file contents together with `IMPORT_PATTERNS` matching and path
resolution — is abstracted as `analyze : path → (dependencies,
packageDependencies)`; the walk, the exclusion checks and the node
construction are embedded concretely. -/

/-- A filesystem entry: `unreadable` models a directory whose `readdir`
throws during recursion. -/
inductive FSTree : Type where
  | file (name : String)
  | dir (name : String) (entries : List FSTree)
  | unreadable (name : String)

def FSTree.entryName : FSTree → String
  | .file n => n
  | .dir n _ => n
  | .unreadable n => n

/-- `path.join(dir, name)` for a normalized `dir` without trailing slash. -/
def joinPath (d name : String) : String := d ++ "/" ++ name

/-- The node built for a directory path (the `rootNode` literal of both
scanners). -/
def mkDirNode (p : String) (ch : List FileNode) : FileNode :=
  .mk { path := p, name := ⟨basenameL p.data⟩, isDirectory := true,
        dependencies := [], packageDependencies := [], dependents := [],
        importance := none } ch

/-- The node built for a scanned file. -/
def mkScannedFile (analyze : String → List String × List PackageDependency)
    (baseDir fullPath entryName : String) : FileNode :=
  .mk { path := fullPath, name := entryName, isDirectory := false,
        dependencies := (analyze fullPath).1,
        packageDependencies := (analyze fullPath).2,
        dependents := [],
        importance := some (calculateInitialImportance fullPath baseDir) } []

mutual

/-- One loop iteration of `scanDirectory` of the incremental snapshot
(lines 385–522): the entry goes through `isExcluded`; a surviving
directory recurses (an unreadable one yields an empty directory node), a
surviving file gets its dependencies from the import extractor and an
initial importance. -/
def scanEntry (analyze : String → List String × List PackageDependency)
    (globTest : String → String → Bool) (config : Option ScanConfig)
    (baseDir currentDir : String) : FSTree → List FileNode
  | .file n =>
    if isExcluded globTest config (joinPath currentDir n) baseDir then []
    else [mkScannedFile analyze baseDir (joinPath currentDir n) n]
  | .unreadable n =>
    if isExcluded globTest config (joinPath currentDir n) baseDir then []
    else [mkDirNode (joinPath currentDir n) []]
  | .dir n sub =>
    if isExcluded globTest config (joinPath currentDir n) baseDir then []
    else [mkDirNode (joinPath currentDir n)
      (scanEntries analyze globTest config baseDir (joinPath currentDir n) sub)]

def scanEntries (analyze : String → List String × List PackageDependency)
    (globTest : String → String → Bool) (config : Option ScanConfig)
    (baseDir currentDir : String) : List FSTree → List FileNode
  | [] => []
  | e :: es =>
    scanEntry analyze globTest config baseDir currentDir e ++
      scanEntries analyze globTest config baseDir currentDir es

end

/-- `scanDirectory` of the incremental snapshot (lines 336–534);
`entries? = none` models a missing/unreadable root (`readdir` threw), in
which case the bare directory node is returned. -/
def scanDirectory (analyze : String → List String × List PackageDependency)
    (globTest : String → String → Bool) (config : Option ScanConfig)
    (baseDir currentDir : String) (entries? : Option (List FSTree)) : FileNode :=
  match entries? with
  | none => mkDirNode currentDir []
  | some entries =>
    mkDirNode currentDir (scanEntries analyze globTest config baseDir currentDir entries)

mutual

/-- One loop iteration of `scanDirectory` of the first `file-utils.ts`
snapshot (lines 278–399): no `isExcluded`; directories named
`node_modules` or `.git` are skipped by name, every other entry is
processed. -/
def scanEntryV1 (analyze : String → List String × List PackageDependency)
    (baseDir currentDir : String) : FSTree → List FileNode
  | .file n => [mkScannedFile analyze baseDir (joinPath currentDir n) n]
  | .unreadable n =>
    if n = "node_modules" ∨ n = ".git" then []
    else [mkDirNode (joinPath currentDir n) []]
  | .dir n sub =>
    if n = "node_modules" ∨ n = ".git" then []
    else [mkDirNode (joinPath currentDir n)
      (scanEntriesV1 analyze baseDir (joinPath currentDir n) sub)]

def scanEntriesV1 (analyze : String → List String × List PackageDependency)
    (baseDir currentDir : String) : List FSTree → List FileNode
  | [] => []
  | e :: es =>
    scanEntryV1 analyze baseDir currentDir e ++
      scanEntriesV1 analyze baseDir currentDir es

end

/-- `scanDirectory` of the first snapshot (lines 244–403). -/
def scanDirectoryV1 (analyze : String → List String × List PackageDependency)
    (baseDir currentDir : String) (entries? : Option (List FSTree)) : FileNode :=
  match entries? with
  | none => mkDirNode currentDir []
  | some entries =>
    mkDirNode currentDir (scanEntriesV1 analyze baseDir currentDir entries)

/-! ## Extension probing (snapshot lines 364–376) -/

def possibleExtensions : List String := [".ts", ".tsx", ".js", ".jsx", ""]

/-- The probing loop: try each suffix in order against the filesystem
(`fsx q` models a successful `fsPromises.access(q)`), record the first
existing candidate, drop the import if none exists. -/
def probeExtensions (fsx : String → Bool) (resolvedPath : String) : Option String :=
  (possibleExtensions.find? (fun ext => fsx (resolvedPath ++ ext))).map
    (fun ext => resolvedPath ++ ext)

/-! ## Flattened meta view and tree well-formedness

The dependency-graph claims quantify over the `FileMeta` records of all
reachable nodes; each in-place node update of the incremental snapshot
acts on this flattened view as a `List.map` of a per-meta function. -/

def metaRewrite (g : FileMeta → FileMeta) (n : FileNode) : FileNode :=
  .mk (g n.meta) n.children

/-- The per-meta effect of `updFirst tgt (metaRewrite g)` on a tree whose
normalized paths are distinct. -/
def applyAtM (tgt : String) (g : FileMeta → FileMeta) (m : FileMeta) : FileMeta :=
  if normalizePath m.path = tgt then g m else m

mutual

def flatMetas : FileNode → List FileMeta
  | .mk m ch => m :: flatMetasList ch

def flatMetasList : List FileNode → List FileMeta
  | [] => []
  | c :: cs => flatMetas c ++ flatMetasList cs

end

mutual

/-- Well-formedness: file (non-directory) nodes carry no children, as in
every tree the scanners produce. -/
def wfNode : FileNode → Bool
  | .mk m ch => (m.isDirectory || ch.isEmpty) && wfNodeList ch

def wfNodeList : List FileNode → Bool
  | [] => true
  | c :: cs => wfNode c && wfNodeList cs

end

/-- Graph symmetry over a list of nodes: among the non-directory nodes,
`B.path ∈ A.dependents` iff `A.path ∈ B.dependencies`. -/
def SymNodes (l : List FileNode) : Prop :=
  ∀ a ∈ l, a.isDirectory = false → ∀ b ∈ l, b.isDirectory = false →
    (b.path ∈ a.dependents ↔ a.path ∈ b.dependencies)

/-- Graph symmetry over the flattened meta view. -/
def SymMetas (l : List FileMeta) : Prop :=
  ∀ a ∈ l, a.isDirectory = false → ∀ b ∈ l, b.isDirectory = false →
    (b.path ∈ a.dependents ↔ a.path ∈ b.dependencies)

/-- Per-meta model of one `updateDependentsForNewNode` step. -/
def pushDepM (newPath : String) (m : FileMeta) : FileMeta :=
  if m.isDirectory then m
  else { m with dependents := pushIfAbsent m.dependents newPath }

/-- Per-meta model of one `updateDependentsAfterRemoval` step. -/
def remDependentM (removedPath : String) (m : FileMeta) : FileMeta :=
  if m.isDirectory then m
  else { m with dependents := removeFirstEq m.dependents removedPath }

/-- Per-meta model of one `updateDependersAfterRemoval` step. -/
def remDependencyM (normRemoved : String) (m : FileMeta) : FileMeta :=
  if m.isDirectory then m
  else { m with dependencies := removeFirstNormEq m.dependencies normRemoved }

/-- Per-meta model of one `recalculateImportanceForAffected` step. -/
def recalcM (projectRoot : String) (m : FileMeta) : FileMeta :=
  if m.isDirectory then m
  else { m with importance := some (calculateNodeImportance m projectRoot) }

/-- Composite per-meta effect of folding guarded single-target updates
over a list of (to-be-normalized) target paths. -/
def foldUpdM (g : FileMeta → FileMeta) (ps : List String) (m : FileMeta) : FileMeta :=
  ps.foldl (fun mm p => applyAtM (normalizePath p) g mm) m

/-- The child-insertion rewrite `addFileNode` applies at the parent. -/
def insertChildF (c p : FileNode) : FileNode :=
  if p.isDirectory then .mk p.meta (sortByName (p.children ++ [c])) else p

/-- The child-splice rewrite `removeFileNode` applies at the parent. -/
def removeChildF (normTarget : String) (p : FileNode) : FileNode :=
  if p.isDirectory then .mk p.meta (removeFirstChild p.children normTarget) else p

/-! ## Witness fixtures and auxiliary predicates -/

/-- No two adjacent characters are both slashes (the state after
duplicate-slash collapsing). -/
def NoAdjSlash (a b : Char) : Prop := ¬(a = '/' ∧ b = '/')

/-- An admissible stored score: in `[0, 10]` and integral (`none` is the
unscored state of directory nodes). -/
def ScoreAdmissible : Option Rat → Prop
  | none => True
  | some q => 0 ≤ q ∧ q ≤ 10 ∧ q.den = 1

/-- A stored score within bounds (without the integrality requirement). -/
def ScoreInRange : Option Rat → Prop
  | none => True
  | some q => 0 ≤ q ∧ q ≤ 10

instance : DecidablePred ScoreAdmissible := by
  intro o
  cases o with
  | none => exact .isTrue trivial
  | some q => exact inferInstanceAs (Decidable (_ ∧ _ ∧ _))

instance : DecidablePred ScoreInRange := by
  intro o
  cases o with
  | none => exact .isTrue trivial
  | some q => exact inferInstanceAs (Decidable (_ ∧ _))

/-- Nonnegative integral rationals, closed under the scorer's sums. -/
def NonnegInt (q : Rat) : Prop := 0 ≤ q ∧ q.den = 1

/-- The admissibility predicate on a node's stored fields. -/
def AdmissibleMeta (md : FileMeta) : Prop := ScoreAdmissible md.importance

/-- Well-founded induction on filesystem entry trees. -/
def FSTree.inductionOn {P : FSTree → Prop} (t : FSTree)
    (hf : ∀ n, P (.file n)) (hu : ∀ n, P (.unreadable n))
    (hd : ∀ n es, (∀ e ∈ es, P e) → P (.dir n es)) : P t :=
  match t with
  | .file n => hf n
  | .unreadable n => hu n
  | .dir n es => hd n es (fun e he => FSTree.inductionOn e hf hu hd)
termination_by t
decreasing_by
  have h := List.sizeOf_lt_of_mem he
  simp only [FSTree.dir.sizeOf_spec]
  omega

/- Clean filesystem entry names: no `/` inside any name. -/
mutual

/-- Does every entry name in this subtree avoid `/`? -/
def cleanNames : FSTree → Bool
  | .file n => !(n.data.contains '/')
  | .unreadable n => !(n.data.contains '/')
  | .dir n es => !(n.data.contains '/') && cleanNamesList es

def cleanNamesList : List FSTree → Bool
  | [] => true
  | e :: es => cleanNames e && cleanNamesList es

end

def c9FileMeta (p deps : String) : FileMeta :=
  { path := p, name := ⟨basenameL p.data⟩, isDirectory := false,
    dependencies := [], packageDependencies := [], dependents := [],
    importance := some 1 }

def c9DirMeta (p : String) : FileMeta :=
  { path := p, name := ⟨basenameL p.data⟩, isDirectory := true,
    dependencies := [], packageDependencies := [], dependents := [],
    importance := none }

def c9TreeA : FileNode :=
  .mk (c9DirMeta "/r")
    [.mk (c9DirMeta "/r/x") [.mk (c9FileMeta "/r/x/a.ts" "") []],
     .mk (c9FileMeta "/r/other/a.ts" "") []]

def c9TreeB : FileNode :=
  .mk (c9DirMeta "/r")
    [.mk (c9DirMeta "/r/a.ts") [],
     .mk (c9FileMeta "/r/sub/a.ts" "") []]

def c2Meta : FileMeta :=
  { path := "/p/x.ts", name := "x.ts", isDirectory := false,
    dependencies := [], packageDependencies := [],
    dependents := ["/p/a.ts", "/p/b.ts"], importance := some 3 }

def c2Node : FileNode := .mk c2Meta []

def c1FileMeta (p : String) (deps : List String) : FileMeta :=
  { path := p, name := p, isDirectory := false, dependencies := deps,
    packageDependencies := [], dependents := [], importance := none }

def c1DirMeta (p : String) : FileMeta :=
  { path := p, name := p, isDirectory := true, dependencies := [],
    packageDependencies := [], dependents := [], importance := none }

def c1Root : FileNode :=
  .mk (c1DirMeta "/r")
    [.mk (c1FileMeta "/r/a.ts" ["/r/b.ts"]) [], .mk (c1FileMeta "/r/b.ts" []) []]

def c1Tree : FileNode := .mk (c1DirMeta "/r") [.mk (c1FileMeta "/r/a.ts" []) []]

def c1FileA2 : FileNode := .mk (c1FileMeta "/r/a.ts" []) []

def c1Tree2 : FileNode := .mk (c1DirMeta "/r") [c1FileA2]

def c5Tree : FileNode := .mk (c1DirMeta "/p") [.mk (c1FileMeta "/p/a.ts" []) []]

/-! ## Basic traversal lemmas -/

theorem mem_getAllNodesList {n : FileNode} :
    ∀ {l : List FileNode}, n ∈ getAllNodesList l ↔ ∃ c ∈ l, n ∈ getAllNodes c := by
  intro l
  induction l with
  | nil => simp [getAllNodesList]
  | cons c cs ih => simp [getAllNodesList, ih]

theorem self_mem_getAllNodes (t : FileNode) : t ∈ getAllNodes t := by
  cases t with
  | mk m ch => simp [getAllNodes]

/-! ## Claim C6: extension probing -/

/-- Claim C6: a local import candidate becomes a dependency edge only if
a file exists at the resolved path extended by a suffix from the fixed
probe list `.ts`, `.tsx`, `.js`, `.jsx`, exact; the first existing
candidate wins (so `./util` with both `util.ts` and `util.js` present
resolves to `util.ts`), and if no candidate exists the import is
dropped. -/
theorem extension_probing_correct (fsx : String → Bool) (p : String) :
    (∀ q, probeExtensions fsx p = some q → fsx q = true) ∧
    (fsx (p ++ ".ts") = true → probeExtensions fsx p = some (p ++ ".ts")) ∧
    ((∀ ext ∈ possibleExtensions, fsx (p ++ ext) = false) →
      probeExtensions fsx p = none) := by
  refine ⟨?_, ?_, ?_⟩
  · intro q hq
    simp only [probeExtensions, Option.map_eq_some'] at hq
    obtain ⟨ext, hfind, rfl⟩ := hq
    simpa using List.find?_some hfind
  · intro h
    simp [probeExtensions, possibleExtensions, List.find?, h]
  · intro h
    simp only [probeExtensions, possibleExtensions, List.find?]
    simp only [possibleExtensions] at h
    rw [h ".ts" (by simp), h ".tsx" (by simp), h ".js" (by simp),
      h ".jsx" (by simp), h "" (by simp)]
    rfl

theorem extension_probing_correct_witness :
    probeExtensions (fun q => q == "util.ts" || q == "util.js") "util" = some "util.ts" :=
  (extension_probing_correct (fun q => q == "util.ts" || q == "util.js") "util").2.1
    (by decide)

/-! ## Claim C10: the hard-coded exclusion failsafe tests substring containment -/

/-- Claim C10: every path containing the substring `.git` or
`node_modules` anywhere is excluded, for every configuration (the
failsafe fires before any configured pattern is consulted, so the result
does not depend on `globTest` or `config` at all). -/
theorem exclusion_failsafe_substring (globTest : String → String → Bool)
    (config : Option ScanConfig) (filePath baseDir : String)
    (h : containsSub filePath.data ".git".data = true ∨
         containsSub filePath.data "node_modules".data = true) :
    isExcluded globTest config filePath baseDir = true := by
  unfold isExcluded
  rcases h with h | h
  · simp [h]
  · by_cases hg : (containsSub filePath.data ".git".data
        ∨ basenameL filePath.data = ".git".data)
    · simp [hg]
    · simp [hg, h]

theorem exclusion_failsafe_substring_witness :
    isExcluded (fun _ _ => false) (some ⟨["**/*.md"]⟩) "/repo/widget.github.ts" "/repo" = true :=
  exclusion_failsafe_substring (fun _ _ => false) (some ⟨["**/*.md"]⟩)
    "/repo/widget.github.ts" "/repo" (Or.inl (by decide))

/-! ## Claim C9: `setFileImportance` basename fallback

Concrete trees exercising the fallback: in `c9TreeA` the first pre-order
node whose basename matches the addressed path is a *different file*; in
`c9TreeB` it is a *directory*. -/


/-- Claim C9 (implicit): `SetImportance` falls back to bare-basename
matching, so addressing `/q/other/a.ts` in a tree with two distinct
nodes whose basename is `a.ts` returns `true` and sets the first
pre-order basename match — a different file than the one addressed — and
in a tree whose first basename match is a directory it sets the
directory node. -/
theorem setImportance_basename_fallback :
    ((setFileImportance c9TreeA "/q/other/a.ts" 7).1 = true ∧
      ((getAllNodes (setFileImportance c9TreeA "/q/other/a.ts" 7).2).map
        (fun n => (n.path, n.importance))) =
        [("/r", none), ("/r/x", none), ("/r/x/a.ts", some 7),
         ("/r/other/a.ts", some 1)]) ∧
    ((setFileImportance c9TreeB "/q/other/a.ts" 7).1 = true ∧
      ((getAllNodes (setFileImportance c9TreeB "/q/other/a.ts" 7).2).map
        (fun n => (n.path, n.importance))) =
        [("/r", none), ("/r/a.ts", some 7), ("/r/sub/a.ts", some 1)]) :=
  ⟨⟨rfl, rfl⟩, rfl, rfl⟩

/-! ## Claim C8: missing-root soft-fail -/

/-- Claim C8: scanning a root whose directory cannot be read returns a
directory node for that path with no children and no dependency data —
there is no exceptional outcome in the return type.  This holds for
both scanner snapshots. -/
theorem missing_root_soft_fail
    (analyze : String → List String × List PackageDependency)
    (globTest : String → String → Bool) (config : Option ScanConfig)
    (baseDir root : String) :
    scanDirectory analyze globTest config baseDir root none =
      .mk { path := root, name := ⟨basenameL root.data⟩, isDirectory := true,
            dependencies := [], packageDependencies := [], dependents := [],
            importance := none } [] ∧
    scanDirectoryV1 analyze baseDir root none =
      .mk { path := root, name := ⟨basenameL root.data⟩, isDirectory := true,
            dependencies := [], packageDependencies := [], dependents := [],
            importance := none } [] :=
  ⟨rfl, rfl⟩

/-! ## Claim C2: the refinement pass and recomputation from the initial score -/


/-- Claim C2 evaluated at the failing input: a file node whose initial
importance is 3 (which `calculateInitialImportance` indeed assigns it)
with two dependents.  One refinement pass yields 5 — the value the claim
prescribes — but a second pass yields 7: `calculateImportance` starts
from the node's previous refined score instead of recomputing from the
initial score.  The incremental `calculateNodeImportance` (which the
source itself calls "the corrected importance calculation function")
yields 5 no matter how often it is applied. -/
theorem refinement_accumulates_at_failing_input :
    calculateInitialImportance "/p/x.ts" "/" = 3 ∧
    (calculateImportance "/" c2Node).importance = some 5 ∧
    (calculateImportance "/" (calculateImportance "/" c2Node)).importance = some 7 ∧
    calculateNodeImportance c2Meta "/" = 5 ∧
    calculateNodeImportance { c2Meta with importance := some (calculateNodeImportance c2Meta "/") } "/" = 5 := by
  refine ⟨by decide, by decide, by decide, by decide, by decide⟩

/-! ## Claim C3: normalizer idempotence -/


theorem head?_dedupSlashes (l : List Char) : (dedupSlashes l).head? = l.head? := by
  induction l with
  | nil => rfl
  | cons a rest ih =>
    by_cases h : (a == '/' && rest.headD ' ' == '/') = true
    · rw [dedupSlashes, if_pos h, ih]
      rcases rest with _ | ⟨b, rest2⟩
      · simp at h
      · simp only [Bool.and_eq_true, beq_iff_eq, List.headD_cons] at h
        simp [h.1, h.2]
    · rw [dedupSlashes, if_neg h]
      rfl

theorem chain'_dedupSlashes (l : List Char) :
    List.Chain' NoAdjSlash (dedupSlashes l) := by
  induction l with
  | nil => simp [dedupSlashes]
  | cons a rest ih =>
    by_cases h : (a == '/' && rest.headD ' ' == '/') = true
    · rw [dedupSlashes, if_pos h]; exact ih
    · rw [dedupSlashes, if_neg h, List.chain'_cons']
      refine ⟨?_, ih⟩
      intro y hy hcon
      rw [head?_dedupSlashes] at hy
      apply h
      rcases rest with _ | ⟨b, rest2⟩
      · simp at hy
      · have hb : b = y := by simpa [Option.mem_def] using hy
        subst hb
        simp [hcon.1, hcon.2]

theorem dedupSlashes_eq_self {l : List Char}
    (h : List.Chain' NoAdjSlash l) : dedupSlashes l = l := by
  induction l with
  | nil => rfl
  | cons a rest ih =>
    rw [List.chain'_cons'] at h
    have hcond : (a == '/' && rest.headD ' ' == '/') ≠ true := by
      rcases rest with _ | ⟨b, rest2⟩
      · simp
      · intro hb
        simp only [Bool.and_eq_true, beq_iff_eq, List.headD_cons] at hb
        exact h.1 b (by simp) ⟨hb.1, hb.2⟩
    rw [dedupSlashes, if_neg hcond, ih h.2]

theorem mem_of_mem_dedupSlashes {c : Char} :
    ∀ {l : List Char}, c ∈ dedupSlashes l → c ∈ l := by
  intro l
  induction l with
  | nil => simp [dedupSlashes]
  | cons a rest ih =>
    by_cases h : (a == '/' && rest.headD ' ' == '/') = true
    · rw [dedupSlashes, if_pos h]
      intro hm
      exact List.mem_cons_of_mem a (ih hm)
    · rw [dedupSlashes, if_neg h]
      intro hm
      rcases List.mem_cons.mp hm with rfl | hm
      · exact List.mem_cons_self _ _
      · exact List.mem_cons_of_mem a (ih hm)

theorem exists_concat_of_getLast? {α : Type} {l : List α} {c : α}
    (h : l.getLast? = some c) : ∃ t, l = t ++ [c] := by
  rw [List.getLast?_eq_head?_reverse] at h
  cases hr : l.reverse with
  | nil => rw [hr] at h; simp at h
  | cons x t =>
    rw [hr] at h
    simp only [List.head?_cons, Option.some.injEq] at h
    subst h
    refine ⟨t.reverse, ?_⟩
    have h2 := congrArg List.reverse hr
    simpa using h2

/-- The four facts about a `normalizeStages` output needed for
re-normalization to be the identity. -/
theorem normalizeStages_props (decoded : List Char) :
    ('\\' ∉ normalizeStages decoded) ∧ ('\"' ∉ normalizeStages decoded) ∧
    List.Chain' NoAdjSlash (normalizeStages decoded) ∧
    (normalizeStages decoded).getLast? ≠ some '/' := by
  unfold normalizeStages
  set cleanPath := if driveMatch decoded then decoded.drop 1 else decoded with hclean
  set fwd := cleanPath.map slashify with hfwd
  set noQ := fwd.filter (fun c => c ≠ '\"') with hnoQ
  set ded := dedupSlashes noQ with hded
  have hmem : ∀ c, c ∈ ded → c ∈ fwd := by
    intro c hc
    have h2 := mem_of_mem_dedupSlashes hc
    rw [hnoQ] at h2
    exact List.mem_of_mem_filter h2
  have hnb : '\\' ∉ ded := by
    intro hc
    have h2 := hmem _ hc
    rw [hfwd] at h2
    obtain ⟨d, _, hdc⟩ := List.mem_map.mp h2
    by_cases hd : d = '\\'
    · rw [hd] at hdc; simp [slashify] at hdc
    · rw [show slashify d = d by simp [slashify, hd]] at hdc
      exact hd hdc
  have hnq : '\"' ∉ ded := by
    intro hc
    have h2 := mem_of_mem_dedupSlashes hc
    rw [hnoQ] at h2
    have := List.of_mem_filter h2
    simp at this
  have hch : List.Chain' NoAdjSlash ded := chain'_dedupSlashes noQ
  by_cases hl : ded.getLast? = some '/'
  · rw [if_pos hl]
    obtain ⟨t, ht⟩ := exists_concat_of_getLast? hl
    have htd : ded.dropLast = t := by rw [ht]; exact List.dropLast_concat
    refine ⟨fun hc => hnb (htd ▸ hc |> fun hx => ht ▸ List.mem_append_left _ hx), ?_, ?_, ?_⟩
    · intro hc
      exact hnq (ht ▸ List.mem_append_left _ (htd ▸ hc))
    · exact hch.init
    · intro hlast
      rw [htd] at hlast
      rw [ht, List.chain'_append] at hch
      obtain ⟨t2, ht2⟩ := exists_concat_of_getLast? hlast
      exact hch.2.2 '/' (by simp [hlast]) '/' (by simp) ⟨rfl, rfl⟩
  · rw [if_neg hl]
    exact ⟨hnb, hnq, hch, hl⟩

/-- Characterization of `normalizePath` on nonempty input: either the
decode threw (and the input, which contains `%`, is returned unchanged)
or the result is the staged pipeline applied to the decoded text. -/
theorem normalizePath_spec (p : String) (hp : p ≠ "") :
    (p.data.contains '%' = true ∧ normalizePath p = p) ∨
    (∃ decoded, normalizePath p = ⟨normalizeStages decoded⟩) := by
  by_cases hc : p.data.contains '%' = true
  · cases hdec : decodeURIComponentModel p.data with
    | none =>
      left
      exact ⟨hc, by rw [normalizePath, if_neg hp, if_pos hc, hdec]⟩
    | some decoded =>
      right
      exact ⟨decoded, by rw [normalizePath, if_neg hp, if_pos hc, hdec]⟩
  · right
    exact ⟨p.data, by rw [normalizePath, if_neg hp, if_neg hc]⟩

/-- A `normalizeStages` output whose characters are already in
normalized form is a fixed point of the stages. -/
theorem map_eq_self_of {α : Type} {f : α → α} {l : List α}
    (h : ∀ c ∈ l, f c = c) : l.map f = l := by
  induction l with
  | nil => rfl
  | cons a rest ih =>
    simp only [List.map_cons, h a (by simp), ih (fun c hc => h c (by simp [hc]))]

theorem normalizeStages_eq_self {l : List Char}
    (hdrive : driveMatch l = false)
    (hnb : '\\' ∉ l) (hnq : '\"' ∉ l)
    (hch : List.Chain' NoAdjSlash l)
    (hlast : l.getLast? ≠ some '/') :
    normalizeStages l = l := by
  unfold normalizeStages
  simp only [hdrive, Bool.false_eq_true, if_false]
  have hmap : l.map slashify = l := map_eq_self_of (fun c hc => by
    have hcc : c ≠ '\\' := fun hcc => hnb (hcc ▸ hc)
    simp [slashify, hcc])
  rw [hmap]
  have hfil : l.filter (fun c => c ≠ '\"') = l := List.filter_eq_self.mpr (fun c hc => by
    have hcc : c ≠ '\"' := fun hcc => hnq (hcc ▸ hc)
    simp [hcc])
  rw [hfil, dedupSlashes_eq_self hch, if_neg hlast]

/-- On input free of `%`, the normalizer is the bare staged pipeline. -/
theorem normalizePath_of_no_pct (q : String) (h : q.data.contains '%' = false) :
    normalizePath q = if q = "" then "" else ⟨normalizeStages q.data⟩ := by
  by_cases hq : q = ""
  · simp [hq, normalizePath]
  · rw [normalizePath, if_neg hq,
      if_neg (fun hcc => Bool.false_ne_true (h ▸ hcc)), if_neg hq]

/-- Claim C3, corrected: the normalizer is idempotent on every input
whose normalized form contains no `%` and does not start with a slash
followed by a drive letter and colon (the two re-entry points of the
pipeline that can fire a second time). -/
theorem normalizePath_idempotent_amended (p : String)
    (h1 : (normalizePath p).data.contains '%' = false)
    (h2 : driveMatch (normalizePath p).data = false) :
    normalizePath (normalizePath p) = normalizePath p := by
  by_cases hp : p = ""
  · subst hp; rfl
  rcases normalizePath_spec p hp with ⟨hc, hq⟩ | ⟨decoded, hq⟩
  · rw [hq] at h1 ⊢
    exact hq
  · obtain ⟨hnb, hnq, hch, hlast⟩ := normalizeStages_props decoded
    rw [normalizePath_of_no_pct _ h1]
    by_cases hq0 : normalizePath p = ""
    · rw [if_pos hq0, hq0]
    · rw [if_neg hq0]
      have hdata : (normalizePath p).data = normalizeStages decoded := by rw [hq]
      rw [hdata] at h2 ⊢
      rw [normalizeStages_eq_self h2 hnb hnq hch hlast]
      exact hq.symm

/-- Witness for the amended claim: a Windows-style path with backslashes
and a duplicate slash satisfies the side conditions and normalizes
idempotently. -/
theorem normalizePath_idempotent_amended_witness :
    (normalizePath "C:\\Users\\me//file.ts").data.contains '%' = false ∧
    driveMatch (normalizePath "C:\\Users\\me//file.ts").data = false ∧
    normalizePath (normalizePath "C:\\Users\\me//file.ts") =
      normalizePath "C:\\Users\\me//file.ts" :=
  ⟨by decide, by decide,
    normalizePath_idempotent_amended "C:\\Users\\me//file.ts" (by decide) (by decide)⟩

/-- Claim C3 as stated is false on the code: a path with duplicate
slashes in front of a drive letter normalizes to a string the normalizer
changes again (the drive-letter slash-stripping step fires only on the
second pass). -/
theorem normalizePath_not_idempotent :
    normalizePath (normalizePath "//C:/x") ≠ normalizePath "//C:/x" := by
  decide

/-! ## Claim C4: score bounds.  Arithmetic admissibility toolkit. -/


theorem den_one_add {a b : Rat} (ha : a.den = 1) (hb : b.den = 1) :
    (a + b).den = 1 := by
  rw [Rat.den_eq_one_iff] at ha hb
  rw [← ha, ← hb, ← Int.cast_add]
  exact Rat.den_intCast _

theorem NonnegInt.add {a b : Rat} (ha : NonnegInt a) (hb : NonnegInt b) :
    NonnegInt (a + b) :=
  ⟨add_nonneg ha.1 hb.1, den_one_add ha.2 hb.2⟩

theorem nonnegInt_jsMin {a b : Rat} (ha : NonnegInt a) (hb : NonnegInt b) :
    NonnegInt (jsMin a b) := by
  unfold FileScope.jsMin
  split <;> assumption

theorem NonnegInt.natCast (n : Nat) : NonnegInt (n : Rat) :=
  ⟨by positivity, Rat.den_natCast _⟩

theorem jsMin_le_right (a b : Rat) : jsMin a b ≤ b := by
  unfold jsMin
  split
  · assumption
  · exact le_refl b

/-- `Math.min(s, 10)` of a nonnegative integral running total is an
admissible score. -/
theorem scoreAdmissible_of_nonnegInt {s : Rat} (hs : NonnegInt s) :
    ScoreAdmissible (some (jsMin s 10)) :=
  ⟨(nonnegInt_jsMin hs ⟨by norm_num, rfl⟩).1, jsMin_le_right _ _,
    (nonnegInt_jsMin hs ⟨by norm_num, rfl⟩).2⟩

/-- `Math.min(10, Math.max(0, Math.round q))` is always an admissible
score. -/
theorem clampRound_admissible (q : Rat) :
    ScoreAdmissible (some (jsMin 10 (jsMax 0 (jsRound q)))) := by
  have hden : (jsRound q).den = 1 := Rat.den_intCast _
  unfold jsMin jsMax
  split_ifs <;>
    refine ⟨?_, ?_, ?_⟩ <;>
    first
    | rfl
    | exact hden
    | (push_neg at *; linarith)
    | norm_num

/-- `Math.min(10, Math.max(0, v))` is within bounds for every `v`, and
integral whenever `v` is. -/
theorem clampImp_in_range (v : Rat) : ScoreInRange (some (clampImp v)) := by
  unfold clampImp jsMin jsMax
  split_ifs <;> refine ⟨?_, ?_⟩ <;> first | (push_neg at *; linarith) | norm_num

theorem clampImp_admissible {v : Rat} (hv : v.den = 1) :
    ScoreAdmissible (some (clampImp v)) := by
  refine ⟨(clampImp_in_range v).1, (clampImp_in_range v).2, ?_⟩
  unfold clampImp jsMin jsMax
  split_ifs <;> first | rfl | exact hv

/-- The initial score is admissible for every path. -/
theorem calculateInitialImportance_admissible (fp bd : String) :
    ScoreAdmissible (some (calculateInitialImportance fp bd)) := by
  unfold calculateInitialImportance
  apply scoreAdmissible_of_nonnegInt
  refine NonnegInt.add (NonnegInt.add ?_ ?_) ?_ <;> split_ifs <;>
    first
    | exact ⟨by norm_num, rfl⟩
    | (refine ⟨by norm_num, ?_⟩; rfl)

/-- The corrected per-node score is always admissible, whatever the
node's current state. -/
theorem calculateNodeImportance_admissible (m : FileMeta) (root : String) :
    ScoreAdmissible (some (calculateNodeImportance m root)) := by
  unfold calculateNodeImportance
  exact clampRound_admissible _

/-- Adding a guarded bonus preserves nonnegative integrality. -/
theorem bonus_step {s : Rat} (hs : NonnegInt s) (cond : Prop) [Decidable cond]
    (b : Rat) (hb : NonnegInt b) : NonnegInt (if cond then s + b else s) := by
  split_ifs
  · exact hs.add hb
  · exact hs

theorem nonnegInt_bonus (n : Nat) {k : Rat} (hk : NonnegInt k) :
    NonnegInt (jsMin (n : Rat) k) :=
  nonnegInt_jsMin (NonnegInt.natCast n) hk

/-- The full-pass per-node refinement preserves admissibility. -/
theorem refineImportanceMeta_admissible (cwd : String) (m : FileMeta)
    (h : ScoreAdmissible m.importance) :
    ScoreAdmissible (refineImportanceMeta cwd m).importance := by
  unfold refineImportanceMeta
  split
  · exact h
  · have hbase : NonnegInt
        (match m.importance with
         | some i => if i = 0 then calculateInitialImportance m.path cwd else i
         | none => calculateInitialImportance m.path cwd) := by
      cases hm : m.importance with
      | none =>
        have h2 := calculateInitialImportance_admissible m.path cwd
        exact ⟨h2.1, h2.2.2⟩
      | some i =>
        rw [hm] at h
        show NonnegInt (if i = 0 then calculateInitialImportance m.path cwd else i)
        by_cases hi : i = 0
        · rw [if_pos hi]
          have h2 := calculateInitialImportance_admissible m.path cwd
          exact ⟨h2.1, h2.2.2⟩
        · rw [if_neg hi]
          exact ⟨h.1, h.2.2⟩
    apply scoreAdmissible_of_nonnegInt
    generalize hB : (match m.importance with
         | some i => if i = 0 then calculateInitialImportance m.path cwd else i
         | none => calculateInitialImportance m.path cwd) = B
    rw [hB] at hbase
    have h1 := bonus_step hbase (m.dependents.length > 0) _
      (nonnegInt_bonus m.dependents.length (k := 3) ⟨by norm_num, rfl⟩)
    generalize hS1 : (if m.dependents.length > 0
        then B + jsMin (m.dependents.length : Rat) 3 else B) = S1 at h1
    have h2 := bonus_step h1 (m.dependencies.length > 0) _
      (nonnegInt_bonus m.dependencies.length (k := 2) ⟨by norm_num, rfl⟩)
    generalize hS2 : (if m.dependencies.length > 0
        then S1 + jsMin (m.dependencies.length : Rat) 2 else S1) = S2 at h2
    split_ifs
    · exact (h2.add (nonnegInt_bonus _ (k := 2) ⟨by norm_num, rfl⟩)).add
        (nonnegInt_bonus _ (k := 1) ⟨by norm_num, rfl⟩)
    · exact h2

/-! ### Tree-level preservation lemmas -/

theorem calculateImportanceList_eq_map (cwd : String) (l : List FileNode) :
    calculateImportanceList cwd l = l.map (calculateImportance cwd) := by
  induction l with
  | nil => rfl
  | cons c cs ih => rw [calculateImportanceList, ih, List.map_cons]

/-- The full scorer pass preserves admissibility of every node. -/
theorem calculateImportance_admissible (cwd : String) (t : FileNode)
    (h : ∀ n ∈ getAllNodes t, ScoreAdmissible n.importance) :
    ∀ n ∈ getAllNodes (calculateImportance cwd t), ScoreAdmissible n.importance := by
  induction t using FileNode.inductionOn with
  | ind m ch ih =>
    intro n hn
    rw [calculateImportance, getAllNodes] at hn
    rcases List.mem_cons.mp hn with rfl | hn
    · show ScoreAdmissible (refineImportanceMeta cwd m).importance
      apply refineImportanceMeta_admissible
      exact h _ (self_mem_getAllNodes _)
    · rw [calculateImportanceList_eq_map] at hn
      obtain ⟨c2, hc2, hnc2⟩ := mem_getAllNodesList.mp hn
      obtain ⟨c, hc, rfl⟩ := List.mem_map.mp hc2
      refine ih c hc ?_ n hnc2
      intro x hx
      exact h x (by
        rw [getAllNodes]
        exact List.mem_cons_of_mem _ (mem_getAllNodesList.mpr ⟨c, hc, hx⟩))

/-- `findAndSetImportance` touches at most one node, setting its score to
`clampImp v`: any per-score predicate holding on the tree and on
`clampImp v` is preserved. -/
theorem findAndSetImportance_preserve (Q : Option Rat → Prop) (inp : String)
    (v : Rat) (hclamp : Q (some (clampImp v))) (t : FileNode)
    (h : ∀ n ∈ getAllNodes t, Q n.importance) :
    ∀ n ∈ getAllNodes (findAndSetImportance inp v t).2, Q n.importance := by
  induction t using FileNode.inductionOn with
  | ind m ch ih =>
    have hself : ∀ n ∈ getAllNodes
        (FileNode.mk { m with importance := some (clampImp v) } ch),
        Q n.importance := by
      intro n hn
      rw [getAllNodes] at hn
      rcases List.mem_cons.mp hn with rfl | hn
      · exact hclamp
      · exact h n (by rw [getAllNodes]; exact List.mem_cons_of_mem _ hn)
    rw [findAndSetImportance]
    split
    · exact hself
    · split
      · exact hself
      · split
        · exact hself
        · split
          · exact hself
          · split
            · -- directory: recurse into the children list
              intro n hn
              rw [getAllNodes] at hn
              rcases List.mem_cons.mp hn with rfl | hn
              · exact h (FileNode.mk m ch) (self_mem_getAllNodes (FileNode.mk m ch))
              · have hlist : ∀ l : List FileNode,
                    (∀ c ∈ l, ∀ x ∈ getAllNodes c, Q x.importance) →
                    (∀ c ∈ l, ∀ x ∈ getAllNodes (findAndSetImportance inp v c).2,
                      Q x.importance) →
                    ∀ x ∈ getAllNodesList (findAndSetImportanceList inp v l).2,
                      Q x.importance := by
                  intro l
                  induction l with
                  | nil => intro _ _ x hx; simp [findAndSetImportanceList,
                      getAllNodesList] at hx
                  | cons c cs ihl =>
                    intro hall hupd x hx
                    rw [findAndSetImportanceList] at hx
                    split at hx
                    · rw [getAllNodesList] at hx
                      rcases List.mem_append.mp hx with hx | hx
                      · exact hupd c (by simp) x hx
                      · obtain ⟨d, hd, hxd⟩ := mem_getAllNodesList.mp hx
                        exact hall d (by simp [hd]) x hxd
                    · rw [getAllNodesList] at hx
                      rcases List.mem_append.mp hx with hx | hx
                      · exact hupd c (by simp) x hx
                      · exact ihl (fun d hd => hall d (by simp [hd]))
                          (fun d hd => hupd d (by simp [hd])) x hx
                exact hlist ch
                  (fun c hc x hx => h x (by
                    rw [getAllNodes]
                    exact List.mem_cons_of_mem _ (mem_getAllNodesList.mpr ⟨c, hc, hx⟩)))
                  (fun c hc => ih c hc (fun x hx => h x (by
                    rw [getAllNodes]
                    exact List.mem_cons_of_mem _ (mem_getAllNodesList.mpr ⟨c, hc, hx⟩))))
                  n hn
            · intro n hn
              exact h n hn


theorem getAllNodesList_append (a b : List FileNode) :
    getAllNodesList (a ++ b) = getAllNodesList a ++ getAllNodesList b := by
  induction a with
  | nil => simp [getAllNodesList]
  | cons y ys ihy => simp [getAllNodesList, ihy, List.append_assoc]

/-- Every node produced by the scanner (either snapshot) carries an
admissible score: files get the initial score, directories are unscored. -/
theorem scanEntry_admissible
    (analyze : String → List String × List PackageDependency)
    (globTest : String → String → Bool) (config : Option ScanConfig)
    (baseDir : String) (e : FSTree) :
    ∀ currentDir, ∀ n ∈ getAllNodesList (scanEntry analyze globTest config baseDir currentDir e),
      ScoreAdmissible n.importance := by
  induction e using FSTree.inductionOn with
  | hf nm =>
    intro currentDir n hn
    rw [scanEntry] at hn
    split at hn
    · simp [getAllNodesList] at hn
    · obtain ⟨c, hc, hnc⟩ := mem_getAllNodesList.mp hn
      rcases List.mem_singleton.mp hc with rfl
      rw [mkScannedFile, getAllNodes] at hnc
      rcases List.mem_cons.mp hnc with rfl | hnc
      · exact calculateInitialImportance_admissible _ _
      · simp [getAllNodesList] at hnc
  | hu nm =>
    intro currentDir n hn
    rw [scanEntry] at hn
    split at hn
    · simp [getAllNodesList] at hn
    · obtain ⟨c, hc, hnc⟩ := mem_getAllNodesList.mp hn
      rcases List.mem_singleton.mp hc with rfl
      rw [mkDirNode, getAllNodes] at hnc
      rcases List.mem_cons.mp hnc with rfl | hnc
      · exact trivial
      · simp [getAllNodesList] at hnc
  | hd nm es ih =>
    intro currentDir n hn
    rw [scanEntry] at hn
    split at hn
    · simp [getAllNodesList] at hn
    · obtain ⟨c, hc, hnc⟩ := mem_getAllNodesList.mp hn
      rcases List.mem_singleton.mp hc with rfl
      rw [mkDirNode, getAllNodes] at hnc
      rcases List.mem_cons.mp hnc with rfl | hnc
      · exact trivial
      · have hlist : ∀ (l : List FSTree),
            (∀ e2 ∈ l, ∀ cd, ∀ x ∈ getAllNodesList
              (scanEntry analyze globTest config baseDir cd e2), ScoreAdmissible x.importance) →
            ∀ cd, ∀ x ∈ getAllNodesList (scanEntries analyze globTest config baseDir cd l),
              ScoreAdmissible x.importance := by
          intro l
          induction l with
          | nil => intro _ cd x hx; rw [scanEntries] at hx; simp [getAllNodesList] at hx
          | cons e2 es2 ihl =>
            intro hall cd x hx
            rw [scanEntries, getAllNodesList_append] at hx
            rcases List.mem_append.mp hx with hx | hx
            · exact hall e2 (by simp) cd x hx
            · exact ihl (fun d hd => hall d (by simp [hd])) cd x hx
        exact hlist es (fun e2 he2 cd => ih e2 he2 cd) _ n hnc

theorem scanEntries_admissible
    (analyze : String → List String × List PackageDependency)
    (globTest : String → String → Bool) (config : Option ScanConfig)
    (baseDir currentDir : String) (l : List FSTree) :
    ∀ n ∈ getAllNodesList (scanEntries analyze globTest config baseDir currentDir l),
      ScoreAdmissible n.importance := by
  induction l with
  | nil => intro n hn; rw [scanEntries] at hn; simp [getAllNodesList] at hn
  | cons e es ih =>
    intro n hn
    rw [scanEntries, getAllNodesList_append] at hn
    rcases List.mem_append.mp hn with hn | hn
    · exact scanEntry_admissible analyze globTest config baseDir e _ n hn
    · exact ih n hn

theorem scanDirectory_admissible
    (analyze : String → List String × List PackageDependency)
    (globTest : String → String → Bool) (config : Option ScanConfig)
    (baseDir currentDir : String) (entries? : Option (List FSTree)) :
    ∀ n ∈ getAllNodes (scanDirectory analyze globTest config baseDir currentDir entries?),
      ScoreAdmissible n.importance := by
  cases entries? with
  | none =>
    intro n hn
    rw [scanDirectory, mkDirNode, getAllNodes] at hn
    rcases List.mem_cons.mp hn with rfl | hn
    · exact trivial
    · simp [getAllNodesList] at hn
  | some es =>
    intro n hn
    rw [scanDirectory, mkDirNode, getAllNodes] at hn
    rcases List.mem_cons.mp hn with rfl | hn
    · exact trivial
    · exact scanEntries_admissible analyze globTest config baseDir currentDir es n hn

/-! ### Preservation through the incremental updater -/

theorem insertByName_perm (n : FileNode) (l : List FileNode) :
    (insertByName n l).Perm (n :: l) := by
  induction l with
  | nil => exact List.Perm.refl _
  | cons c cs ih =>
    rw [insertByName]
    split
    · exact List.Perm.refl _
    · exact (ih.cons c).trans (List.Perm.swap n c cs)

theorem sortByName_perm (l : List FileNode) : (sortByName l).Perm l := by
  induction l with
  | nil => exact List.Perm.refl _
  | cons c cs ih => exact (insertByName_perm c (sortByName cs)).trans (ih.cons c)

theorem mem_sortByName {n : FileNode} {l : List FileNode} :
    n ∈ sortByName l ↔ n ∈ l :=
  (sortByName_perm l).mem_iff

/-- `updFirst` applies `f` to one subtree: a per-meta predicate
preserved by `f` on any subtree is preserved on the whole tree. -/
theorem updFirst_preserve (target : String) (f : FileNode → FileNode)
    (Q : FileMeta → Prop)
    (hf : ∀ n, (∀ x ∈ getAllNodes n, Q x.meta) → ∀ x ∈ getAllNodes (f n), Q x.meta)
    (t : FileNode) (h : ∀ x ∈ getAllNodes t, Q x.meta) :
    ∀ x ∈ getAllNodes (updFirst target f t).2, Q x.meta := by
  induction t using FileNode.inductionOn with
  | ind m ch ih =>
    rw [updFirst]
    split
    · exact hf _ h
    · split
      · intro x hx
        rw [getAllNodes] at hx
        rcases List.mem_cons.mp hx with rfl | hx
        · exact h (FileNode.mk m ch) (self_mem_getAllNodes (FileNode.mk m ch))
        · have hlist : ∀ l : List FileNode,
              (∀ c ∈ l, ∀ x ∈ getAllNodes c, Q x.meta) →
              (∀ c ∈ l, ∀ x ∈ getAllNodes (updFirst target f c).2, Q x.meta) →
              ∀ x ∈ getAllNodesList (updFirstList target f l).2, Q x.meta := by
            intro l
            induction l with
            | nil => intro _ _ x hx; rw [updFirstList] at hx; simp [getAllNodesList] at hx
            | cons c cs ihl =>
              intro hall hupd x hx
              rw [updFirstList] at hx
              split at hx
              · rw [getAllNodesList] at hx
                rcases List.mem_append.mp hx with hx | hx
                · exact hupd c (by simp) x hx
                · obtain ⟨d, hd, hxd⟩ := mem_getAllNodesList.mp hx
                  exact hall d (by simp [hd]) x hxd
              · rw [getAllNodesList] at hx
                rcases List.mem_append.mp hx with hx | hx
                · exact hupd c (by simp) x hx
                · exact ihl (fun d hd => hall d (by simp [hd]))
                    (fun d hd => hupd d (by simp [hd])) x hx
          exact hlist ch
            (fun c hc x hx => h x (by
              rw [getAllNodes]
              exact List.mem_cons_of_mem _ (mem_getAllNodesList.mpr ⟨c, hc, hx⟩)))
            (fun c hc => ih c hc (fun x hx => h x (by
              rw [getAllNodes]
              exact List.mem_cons_of_mem _ (mem_getAllNodesList.mpr ⟨c, hc, hx⟩))))
            x hx
      · intro x hx
        exact h x hx

theorem foldl_preserve {α : Type} (P : FileNode → Prop)
    (step : FileNode → α → FileNode) (hstep : ∀ t a, P t → P (step t a)) :
    ∀ (l : List α) (t : FileNode), P t → P (l.foldl step t) := by
  intro l
  induction l with
  | nil => intro t ht; exact ht
  | cons a as ih => intro t ht; exact ih _ (hstep t a ht)

/-- A meta-only rewrite of one node (children untouched) preserving the
predicate pointwise preserves it on the subtree. -/
theorem metaRewrite_preserve (Q : FileMeta → Prop) (g : FileMeta → FileMeta)
    (hg : ∀ md, Q md → Q (g md)) (n : FileNode)
    (h : ∀ x ∈ getAllNodes n, Q x.meta) :
    ∀ x ∈ getAllNodes (FileNode.mk (g n.meta) n.children), Q x.meta := by
  intro x hx
  rw [getAllNodes] at hx
  rcases List.mem_cons.mp hx with rfl | hx
  · exact hg _ (h n (self_mem_getAllNodes n))
  · cases n with
    | mk m ch =>
      exact h x (by rw [getAllNodes]; exact List.mem_cons_of_mem _ hx)


theorem mem_of_mem_removeFirstChild {c : FileNode} {ch : List FileNode}
    {s : String} (h : c ∈ removeFirstChild ch s) : c ∈ ch := by
  unfold removeFirstChild at h
  split at h
  · exact h
  · exact (List.eraseIdx_sublist _ _).subset h

theorem recalculateImportanceForAffected_preserve (paths : List String)
    (t : FileNode) (root : String)
    (h : ∀ n ∈ getAllNodes t, AdmissibleMeta n.meta) :
    ∀ n ∈ getAllNodes (recalculateImportanceForAffected paths t root),
      AdmissibleMeta n.meta := by
  unfold recalculateImportanceForAffected
  refine foldl_preserve (fun t2 => ∀ n ∈ getAllNodes t2, AdmissibleMeta n.meta)
    _ ?_ _ t h
  intro t2 a ht2
  apply updFirst_preserve _ _ _ ?_ t2 ht2
  intro n hn x hx
  split at hx
  · exact hn x hx
  · exact metaRewrite_preserve _
      (fun md => { md with importance := some (calculateNodeImportance md root) })
      (fun md _ => calculateNodeImportance_admissible md root) n hn x hx

theorem updateDependentsForNewNode_preserve (newPath : String)
    (deps : List String) (t : FileNode)
    (h : ∀ n ∈ getAllNodes t, AdmissibleMeta n.meta) :
    ∀ n ∈ getAllNodes (updateDependentsForNewNode newPath deps t),
      AdmissibleMeta n.meta := by
  unfold updateDependentsForNewNode
  refine foldl_preserve (fun t2 => ∀ n ∈ getAllNodes t2, AdmissibleMeta n.meta)
    _ ?_ _ t h
  intro t2 d ht2
  apply updFirst_preserve _ _ _ ?_ t2 ht2
  intro n hn x hx
  split at hx
  · exact hn x hx
  · exact metaRewrite_preserve _
      (fun md => { md with dependents := pushIfAbsent md.dependents newPath })
      (fun md q => q) n hn x hx

theorem updateDependentsAfterRemoval_preserve (removedPath : String)
    (deps : List String) (t : FileNode)
    (h : ∀ n ∈ getAllNodes t, AdmissibleMeta n.meta) :
    ∀ n ∈ getAllNodes (updateDependentsAfterRemoval removedPath deps t),
      AdmissibleMeta n.meta := by
  unfold updateDependentsAfterRemoval
  refine foldl_preserve (fun t2 => ∀ n ∈ getAllNodes t2, AdmissibleMeta n.meta)
    _ ?_ _ t h
  intro t2 d ht2
  apply updFirst_preserve _ _ _ ?_ t2 ht2
  intro n hn x hx
  split at hx
  · exact hn x hx
  · exact metaRewrite_preserve _
      (fun md => { md with dependents := removeFirstEq md.dependents removedPath })
      (fun md q => q) n hn x hx

theorem updateDependersAfterRemoval_preserve (removedPath : String)
    (dependents : List String) (t : FileNode)
    (h : ∀ n ∈ getAllNodes t, AdmissibleMeta n.meta) :
    ∀ n ∈ getAllNodes (updateDependersAfterRemoval removedPath dependents t),
      AdmissibleMeta n.meta := by
  unfold updateDependersAfterRemoval
  refine foldl_preserve (fun t2 => ∀ n ∈ getAllNodes t2, AdmissibleMeta n.meta)
    _ ?_ _ t h
  intro t2 d ht2
  apply updFirst_preserve _ _ _ ?_ t2 ht2
  intro n hn x hx
  split at hx
  · exact hn x hx
  · exact metaRewrite_preserve _
      (fun md => { md with dependencies := removeFirstNormEq md.dependencies (normalizePath removedPath) })
      (fun md q => q) n hn x hx

theorem insertChild_preserve (newMeta : FileMeta) (hnew : AdmissibleMeta newMeta)
    (target : String) (t : FileNode)
    (h : ∀ n ∈ getAllNodes t, AdmissibleMeta n.meta) :
    ∀ n ∈ getAllNodes ((updFirst target
      (fun p2 => if p2.isDirectory then
        FileNode.mk p2.meta (sortByName (p2.children ++ [FileNode.mk newMeta []]))
      else p2) t).2), AdmissibleMeta n.meta := by
  apply updFirst_preserve _ _ _ ?_ t h
  intro n hn x hx
  split at hx
  · rw [getAllNodes] at hx
    rcases List.mem_cons.mp hx with rfl | hx
    · exact hn n (self_mem_getAllNodes n)
    · obtain ⟨c, hc, hxc⟩ := mem_getAllNodesList.mp hx
      rcases List.mem_append.mp (mem_sortByName.mp hc) with hc2 | hc2
      · refine hn x ?_
        cases n with
        | mk m ch =>
          rw [getAllNodes]
          exact List.mem_cons_of_mem _ (mem_getAllNodesList.mpr ⟨c, hc2, hxc⟩)
      · rcases List.mem_singleton.mp hc2 with rfl
        rw [getAllNodes] at hxc
        rcases List.mem_cons.mp hxc with rfl | hxc
        · exact hnew
        · simp [getAllNodesList] at hxc
  · exact hn x hx

theorem removeChild_preserve (target normTarget : String) (t : FileNode)
    (h : ∀ n ∈ getAllNodes t, AdmissibleMeta n.meta) :
    ∀ n ∈ getAllNodes ((updFirst target
      (fun p2 => if p2.isDirectory then
        FileNode.mk p2.meta (removeFirstChild p2.children normTarget)
      else p2) t).2), AdmissibleMeta n.meta := by
  apply updFirst_preserve _ _ _ ?_ t h
  intro n hn x hx
  split at hx
  · rw [getAllNodes] at hx
    rcases List.mem_cons.mp hx with rfl | hx
    · exact hn n (self_mem_getAllNodes n)
    · obtain ⟨c, hc, hxc⟩ := mem_getAllNodesList.mp hx
      refine hn x ?_
      cases n with
      | mk m ch =>
        rw [getAllNodes]
        exact List.mem_cons_of_mem _
          (mem_getAllNodesList.mpr ⟨c, mem_of_mem_removeFirstChild hc, hxc⟩)
  · exact hn x hx

theorem addFileNode_admissible (p : String) (t : FileNode)
    (deps : List String) (pkgs : List PackageDependency) (root : String)
    (h : ∀ n ∈ getAllNodes t, AdmissibleMeta n.meta) :
    ∀ n ∈ getAllNodes (addFileNode p t deps pkgs root), AdmissibleMeta n.meta := by
  unfold addFileNode
  dsimp only
  split
  · exact h
  · split
    · exact h
    · split
      · exact h
      · apply recalculateImportanceForAffected_preserve
        apply updateDependentsForNewNode_preserve
        apply insertChild_preserve
        · exact calculateInitialImportance_admissible _ _
        · exact h

theorem removeFileNode_admissible (p : String) (t : FileNode) (root : String)
    (h : ∀ n ∈ getAllNodes t, AdmissibleMeta n.meta) :
    ∀ n ∈ getAllNodes (removeFileNode p t root), AdmissibleMeta n.meta := by
  unfold removeFileNode
  dsimp only
  split
  · exact h
  · split
    · exact h
    · split
      · exact h
      · split
        · exact h
        · apply recalculateImportanceForAffected_preserve
          apply updateDependersAfterRemoval_preserve
          apply updateDependentsAfterRemoval_preserve
          exact removeChild_preserve _ _ t h

/-- Claim C4 as stated is false on the code: the `set_file_importance`
tool validates only `z.number().min(0).max(10)`, so a non-integer value
such as 5.5 reaches `setFileImportance`, whose clamp
`Math.min(10, Math.max(0, v))` stores it unchanged — the stored
importance is then not an integer. -/
theorem score_integrality_cex :
    ((getAllNodes (setFileImportance c9TreeA "/r/x/a.ts" (11 / 2)).2).map
      (fun n => (n.path, n.importance))) =
      [("/r", none), ("/r/x", none), ("/r/x/a.ts", some (11 / 2)),
       ("/r/other/a.ts", some 1)] ∧
    ((11 : Rat) / 2).den ≠ 1 :=
  ⟨by decide, by decide⟩

/-- Claim C4, corrected: after every operation every file node's
importance lies in `[0, 10]`; it is moreover an integer after scans,
scorer passes and incremental add/remove, and after `SetImportance`
whenever the supplied value is an integer (a non-integer supplied value
within bounds is stored as-is, see the counterexample). -/
theorem score_bounds_amended :
    (∀ fp bd, ScoreAdmissible (some (calculateInitialImportance fp bd))) ∧
    (∀ analyze globTest config baseDir currentDir entries?,
      ∀ n ∈ getAllNodes (scanDirectory analyze globTest config baseDir currentDir entries?),
        ScoreAdmissible n.importance) ∧
    (∀ md root, ScoreAdmissible (some (calculateNodeImportance md root))) ∧
    (∀ cwd t, (∀ n ∈ getAllNodes t, ScoreAdmissible n.importance) →
      ∀ n ∈ getAllNodes (calculateImportance cwd t), ScoreAdmissible n.importance) ∧
    (∀ t fp v, v.den = 1 → (∀ n ∈ getAllNodes t, ScoreAdmissible n.importance) →
      ∀ n ∈ getAllNodes (setFileImportance t fp v).2, ScoreAdmissible n.importance) ∧
    (∀ t fp v, (∀ n ∈ getAllNodes t, ScoreInRange n.importance) →
      ∀ n ∈ getAllNodes (setFileImportance t fp v).2, ScoreInRange n.importance) ∧
    (∀ p t deps pkgs root, (∀ n ∈ getAllNodes t, ScoreAdmissible n.importance) →
      ∀ n ∈ getAllNodes (addFileNode p t deps pkgs root), ScoreAdmissible n.importance) ∧
    (∀ p t root, (∀ n ∈ getAllNodes t, ScoreAdmissible n.importance) →
      ∀ n ∈ getAllNodes (removeFileNode p t root), ScoreAdmissible n.importance) := by
  refine ⟨calculateInitialImportance_admissible, scanDirectory_admissible,
    calculateNodeImportance_admissible, calculateImportance_admissible, ?_, ?_, ?_, ?_⟩
  · intro t fp v hv h
    exact findAndSetImportance_preserve ScoreAdmissible _ v (clampImp_admissible hv) t h
  · intro t fp v h
    exact findAndSetImportance_preserve ScoreInRange _ v (clampImp_in_range v) t h
  · intro p t deps pkgs root h
    exact addFileNode_admissible p t deps pkgs root h
  · intro p t root h
    exact removeFileNode_admissible p t root h

theorem score_bounds_amended_witness :
    (∀ n ∈ getAllNodes (setFileImportance c9TreeA "/r/x/a.ts" 7).2,
      ScoreAdmissible n.importance) ∧
    (∀ n ∈ getAllNodes (addFileNode "/r/c.ts" c9TreeA [] [] "/r"),
      ScoreAdmissible n.importance) ∧
    (∀ n ∈ getAllNodes (removeFileNode "/r/x/a.ts" c9TreeA "/r"),
      ScoreAdmissible n.importance) ∧
    (∀ n ∈ getAllNodes (calculateImportance "/r" c9TreeA),
      ScoreAdmissible n.importance) :=
  ⟨score_bounds_amended.2.2.2.2.1 c9TreeA "/r/x/a.ts" 7 (by decide) (by decide),
   score_bounds_amended.2.2.2.2.2.2.1 "/r/c.ts" c9TreeA [] [] "/r" (by decide),
   score_bounds_amended.2.2.2.2.2.2.2 "/r/x/a.ts" c9TreeA "/r" (by decide),
   score_bounds_amended.2.2.2.1 "/r" c9TreeA (by decide)⟩

/-! ## Claim C7: always-excluded names -/

theorem startsWithL_append_self : ∀ (p t : List Char), startsWithL (p ++ t) p = true := by
  intro p
  induction p with
  | nil =>
    intro t
    cases t <;> rfl
  | cons a as ih =>
    intro t
    simp [startsWithL, ih]

theorem containsSub_of_startsWith {l pat : List Char}
    (h : startsWithL l pat = true) : containsSub l pat = true := by
  cases l with
  | nil =>
    cases pat with
    | nil => rfl
    | cons b bs => simp [startsWithL] at h
  | cons a rest => simp [containsSub, h]

theorem containsSub_of_middle : ∀ (s pat t : List Char),
    containsSub (s ++ (pat ++ t)) pat = true := by
  intro s pat t
  induction s with
  | nil => exact containsSub_of_startsWith (startsWithL_append_self pat t)
  | cons a s2 ih => simp [containsSub, ih]

/-- The hard-coded failsafe of `isExcluded` fires on any path containing
`.git` or `node_modules` as a substring, independently of the pattern
configuration. -/
theorem isExcluded_of_contains (globTest : String → String → Bool)
    (config : Option ScanConfig) (filePath baseDir : String)
    (h : containsSub filePath.data ".git".data = true ∨
         containsSub filePath.data "node_modules".data = true) :
    isExcluded globTest config filePath baseDir = true := by
  unfold isExcluded
  rcases h with h | h
  · simp [h]
  · by_cases hg : (containsSub filePath.data ".git".data = true
        ∨ basenameL filePath.data = ".git".data)
    · simp [hg]
    · simp [hg, h]

/-! Basename of a joined path: the entry name, when it contains no
slash. -/

theorem splitOnCharAux_ne_nil (c : Char) :
    ∀ (l acc : List Char), splitOnCharAux c l acc ≠ [] := by
  intro l
  induction l with
  | nil => intro acc; simp [splitOnCharAux]
  | cons x xs ih =>
    intro acc
    rw [splitOnCharAux]
    split
    · simp
    · exact ih _

theorem headD_reverse_cons (S : List (List Char)) (a : List Char)
    (hS : S ≠ []) : ((a :: S).reverse).headD [] = (S.reverse).headD [] := by
  cases hrev : S.reverse with
  | nil => exact absurd (by simpa using hrev) hS
  | cons y ys => simp [hrev]

theorem lastSeg_append_slash (nm : List Char) :
    ∀ (l1 acc : List Char),
      ((splitOnCharAux '/' (l1 ++ '/' :: nm) acc).reverse).headD [] =
      ((splitOnCharAux '/' nm []).reverse).headD [] := by
  intro l1
  induction l1 with
  | nil =>
    intro acc
    rw [List.nil_append, splitOnCharAux]
    rw [if_pos (by simp)]
    exact headD_reverse_cons _ _ (splitOnCharAux_ne_nil '/' nm [])
  | cons x xs ih =>
    intro acc
    rw [List.cons_append, splitOnCharAux]
    split
    · rw [headD_reverse_cons _ _ (splitOnCharAux_ne_nil '/' _ [])]
      exact ih []
    · exact ih (x :: acc)

theorem splitOnCharAux_no_sep {c : Char} {nm : List Char}
    (h : ∀ ch ∈ nm, (ch == c) = false) :
    ∀ acc, splitOnCharAux c nm acc = [acc.reverse ++ nm] := by
  induction nm with
  | nil => intro acc; simp [splitOnCharAux]
  | cons x xs ih =>
    intro acc
    rw [splitOnCharAux, if_neg (by simp [h x (by simp)])]
    rw [ih (fun ch hch => h ch (by simp [hch])) (x :: acc)]
    simp

theorem basenameL_join {cur nm : List Char} (hclean : '/' ∉ nm) :
    basenameL (cur ++ '/' :: nm) = nm := by
  unfold basenameL lastSeg splitOnChar
  rw [lastSeg_append_slash nm cur []]
  rw [splitOnCharAux_no_sep (fun ch hch => by
    simp only [beq_eq_false_iff_ne, ne_eq]
    exact fun hc => hclean (hc ▸ hch)) []]
  simp

theorem joinPath_data (cur nm : String) :
    (joinPath cur nm).data = cur.data ++ '/' :: nm.data := by
  unfold joinPath
  rw [String.data_append, String.data_append]
  simp


theorem not_mem_of_cleanName {n : String} (h : !(n.data.contains '/') = true) :
    '/' ∉ n.data := by
  simp only [Bool.not_eq_eq_eq_not, Bool.not_true] at h
  simpa using h

/-- An entry whose name is `s` yields an excluded full path whenever `s`
contains `.git` or `node_modules`. -/
theorem isExcluded_join_of_name (globTest : String → String → Bool)
    (config : Option ScanConfig) (cur nm baseDir : String)
    (h : containsSub nm.data ".git".data = true ∨
         containsSub nm.data "node_modules".data = true) :
    isExcluded globTest config (joinPath cur nm) baseDir = true := by
  apply isExcluded_of_contains
  have hext : ∀ pat : List Char, containsSub nm.data pat = true →
      containsSub (joinPath cur nm).data pat = true := by
    intro pat hp
    rw [joinPath_data]
    -- nm.data contains pat, hence so does any extension on the left
    have : ∀ (pre suf : List Char), containsSub suf pat = true →
        containsSub (pre ++ suf) pat = true := by
      intro pre
      induction pre with
      | nil => intro suf hs; exact hs
      | cons a pre2 ih =>
        intro suf hs
        simp [containsSub, ih suf hs]
    have h2 := this (cur.data ++ ['/']) nm.data hp
    simpa [List.append_assoc] using h2
  rcases h with h | h
  · exact Or.inl (hext _ h)
  · exact Or.inr (hext _ h)

theorem containsSub_self (l : List Char) : containsSub l l = true := by
  have h := containsSub_of_middle [] l []
  simpa using h

/-- The name of the directory node built for a joined path is the entry
name, when the entry name is slash-free. -/
theorem mkDirNode_join_name (cur nm : String) (hclean : '/' ∉ nm.data)
    (ch : List FileNode) :
    (mkDirNode (joinPath cur nm) ch).name = nm := by
  show (⟨basenameL (joinPath cur nm).data⟩ : String) = nm
  apply String.ext
  show basenameL (joinPath cur nm).data = nm.data
  rw [joinPath_data]
  exact basenameL_join hclean

theorem getAllNodes_mkDirNode (p : String) (ch : List FileNode) :
    getAllNodes (mkDirNode p ch) = mkDirNode p ch :: getAllNodesList ch := by
  rw [mkDirNode, getAllNodes]

theorem name_contains_of_eq {nm : String} {pat : String} (h : nm = pat) :
    containsSub nm.data pat.data = true := by
  rw [h]
  exact containsSub_self _

/-- Scanner of the incremental snapshot: no node produced for an entry
forest with slash-free names is named `.git` or `node_modules` (such
entries are dropped by the failsafe before a node is built). -/
theorem scanEntry_names
    (analyze : String → List String × List PackageDependency)
    (globTest : String → String → Bool) (config : Option ScanConfig)
    (baseDir : String) (e : FSTree) :
    ∀ currentDir, cleanNames e = true →
      ∀ n ∈ getAllNodesList (scanEntry analyze globTest config baseDir currentDir e),
        n.name ≠ ".git" ∧ n.name ≠ "node_modules" := by
  induction e using FSTree.inductionOn with
  | hf nm =>
    intro cur hcl n hn
    rw [scanEntry] at hn
    split at hn
    · simp [getAllNodesList] at hn
    · rename_i hexc
      obtain ⟨c, hc, hnc⟩ := mem_getAllNodesList.mp hn
      rcases List.mem_singleton.mp hc with rfl
      rw [mkScannedFile, getAllNodes] at hnc
      rcases List.mem_cons.mp hnc with rfl | hnc
      · refine ⟨fun heq => hexc ?_, fun heq => hexc ?_⟩
        · exact isExcluded_join_of_name globTest config cur nm baseDir
            (Or.inl (name_contains_of_eq heq))
        · exact isExcluded_join_of_name globTest config cur nm baseDir
            (Or.inr (name_contains_of_eq heq))
      · simp [getAllNodesList] at hnc
  | hu nm =>
    intro cur hcl n hn
    rw [scanEntry] at hn
    split at hn
    · simp [getAllNodesList] at hn
    · rename_i hexc
      obtain ⟨c, hc, hnc⟩ := mem_getAllNodesList.mp hn
      rcases List.mem_singleton.mp hc with rfl
      rw [getAllNodes_mkDirNode] at hnc
      rcases List.mem_cons.mp hnc with rfl | hnc
      · have hname := mkDirNode_join_name cur nm
          (not_mem_of_cleanName (by simpa [cleanNames] using hcl)) []
        rw [hname]
        refine ⟨fun heq => hexc ?_, fun heq => hexc ?_⟩
        · exact isExcluded_join_of_name globTest config cur nm baseDir
            (Or.inl (name_contains_of_eq heq))
        · exact isExcluded_join_of_name globTest config cur nm baseDir
            (Or.inr (name_contains_of_eq heq))
      · simp [getAllNodesList] at hnc
  | hd nm es ih =>
    intro cur hcl n hn
    rw [scanEntry] at hn
    split at hn
    · simp [getAllNodesList] at hn
    · rename_i hexc
      obtain ⟨c, hc, hnc⟩ := mem_getAllNodesList.mp hn
      rcases List.mem_singleton.mp hc with rfl
      rw [getAllNodes_mkDirNode] at hnc
      have hcl2 : !(nm.data.contains '/') = true ∧ cleanNamesList es = true := by
        rw [cleanNames] at hcl
        exact ⟨by simp_all, by simp_all⟩
      rcases List.mem_cons.mp hnc with rfl | hnc
      · rw [mkDirNode_join_name cur nm (not_mem_of_cleanName hcl2.1)]
        refine ⟨fun heq => hexc ?_, fun heq => hexc ?_⟩
        · exact isExcluded_join_of_name globTest config cur nm baseDir
            (Or.inl (name_contains_of_eq heq))
        · exact isExcluded_join_of_name globTest config cur nm baseDir
            (Or.inr (name_contains_of_eq heq))
      · have hlist : ∀ (l : List FSTree), cleanNamesList l = true →
            (∀ e2 ∈ l, ∀ cd, cleanNames e2 = true →
              ∀ x ∈ getAllNodesList (scanEntry analyze globTest config baseDir cd e2),
                x.name ≠ ".git" ∧ x.name ≠ "node_modules") →
            ∀ cd, ∀ x ∈ getAllNodesList (scanEntries analyze globTest config baseDir cd l),
              x.name ≠ ".git" ∧ x.name ≠ "node_modules" := by
          intro l
          induction l with
          | nil => intro _ _ cd x hx; rw [scanEntries] at hx; simp [getAllNodesList] at hx
          | cons e2 es2 ihl =>
            intro hcll hall cd x hx
            rw [scanEntries, getAllNodesList_append] at hx
            rw [cleanNamesList] at hcll
            rcases List.mem_append.mp hx with hx | hx
            · exact hall e2 (by simp) cd (by simp_all) x hx
            · exact ihl (by simp_all) (fun d hd => hall d (by simp [hd])) cd x hx
        exact hlist es hcl2.2 (fun e2 he2 cd => ih e2 he2 cd) _ n hnc

/-- Scanner of the first snapshot: no directory node produced for an
entry forest with slash-free names is named `.git` or `node_modules`. -/
theorem scanEntryV1_names
    (analyze : String → List String × List PackageDependency)
    (baseDir : String) (e : FSTree) :
    ∀ currentDir, cleanNames e = true →
      ∀ n ∈ getAllNodesList (scanEntryV1 analyze baseDir currentDir e),
        n.isDirectory = true → n.name ≠ ".git" ∧ n.name ≠ "node_modules" := by
  induction e using FSTree.inductionOn with
  | hf nm =>
    intro cur hcl n hn hdir
    obtain ⟨c, hc, hnc⟩ := mem_getAllNodesList.mp hn
    rw [scanEntryV1] at hc
    rcases List.mem_singleton.mp hc with rfl
    rw [mkScannedFile, getAllNodes] at hnc
    rcases List.mem_cons.mp hnc with rfl | hnc
    · exact absurd hdir (by simp [FileNode.isDirectory, FileNode.meta])
    · simp [getAllNodesList] at hnc
  | hu nm =>
    intro cur hcl n hn hdir
    rw [scanEntryV1] at hn
    split at hn
    · simp [getAllNodesList] at hn
    · rename_i hname2
      obtain ⟨c, hc, hnc⟩ := mem_getAllNodesList.mp hn
      rcases List.mem_singleton.mp hc with rfl
      rw [getAllNodes_mkDirNode] at hnc
      rcases List.mem_cons.mp hnc with rfl | hnc
      · have hname := mkDirNode_join_name cur nm
          (not_mem_of_cleanName (by simpa [cleanNames] using hcl)) []
        rw [hname]
        push_neg at hname2
        exact ⟨fun heq => hname2.2 heq, fun heq => hname2.1 heq⟩
      · simp [getAllNodesList] at hnc
  | hd nm es ih =>
    intro cur hcl n hn hdir
    rw [scanEntryV1] at hn
    split at hn
    · simp [getAllNodesList] at hn
    · rename_i hname2
      obtain ⟨c, hc, hnc⟩ := mem_getAllNodesList.mp hn
      rcases List.mem_singleton.mp hc with rfl
      rw [getAllNodes_mkDirNode] at hnc
      have hcl2 : !(nm.data.contains '/') = true ∧ cleanNamesList es = true := by
        rw [cleanNames] at hcl
        exact ⟨by simp_all, by simp_all⟩
      rcases List.mem_cons.mp hnc with rfl | hnc
      · rw [mkDirNode_join_name cur nm (not_mem_of_cleanName hcl2.1)]
        push_neg at hname2
        exact ⟨fun heq => hname2.2 heq, fun heq => hname2.1 heq⟩
      · have hlist : ∀ (l : List FSTree), cleanNamesList l = true →
            (∀ e2 ∈ l, ∀ cd, cleanNames e2 = true →
              ∀ x ∈ getAllNodesList (scanEntryV1 analyze baseDir cd e2),
                x.isDirectory = true → x.name ≠ ".git" ∧ x.name ≠ "node_modules") →
            ∀ cd, ∀ x ∈ getAllNodesList (scanEntriesV1 analyze baseDir cd l),
              x.isDirectory = true → x.name ≠ ".git" ∧ x.name ≠ "node_modules" := by
          intro l
          induction l with
          | nil => intro _ _ cd x hx; rw [scanEntriesV1] at hx; simp [getAllNodesList] at hx
          | cons e2 es2 ihl =>
            intro hcll hall cd x hx
            rw [scanEntriesV1, getAllNodesList_append] at hx
            rw [cleanNamesList] at hcll
            rcases List.mem_append.mp hx with hx | hx
            · exact hall e2 (by simp) cd (by simp_all) x hx
            · exact ihl (by simp_all) (fun d hd => hall d (by simp [hd])) cd x hx
        exact hlist es hcl2.2 (fun e2 he2 cd => ih e2 he2 cd) _ n hnc hdir

/-- Claim C7: in both scanner snapshots, for an entry forest whose names
are slash-free, no directory named `.git` or `node_modules` survives
into the scanned tree — whatever the configured pattern list (including
an empty one, and whatever the glob matcher does).  The two
`getAllNodesList` terms are exactly the proper descendants of the
returned root node. -/
theorem always_excluded_names
    (analyze : String → List String × List PackageDependency)
    (globTest : String → String → Bool) (config : Option ScanConfig)
    (baseDir currentDir : String) (entries : List FSTree)
    (hclean : cleanNamesList entries = true) :
    (∀ n ∈ getAllNodesList
        ((scanDirectory analyze globTest config baseDir currentDir (some entries)).children),
      n.name ≠ ".git" ∧ n.name ≠ "node_modules") ∧
    (∀ n ∈ getAllNodesList
        ((scanDirectoryV1 analyze baseDir currentDir (some entries)).children),
      n.isDirectory = true → n.name ≠ ".git" ∧ n.name ≠ "node_modules") := by
  constructor
  · intro n hn
    have hlist : ∀ (l : List FSTree), cleanNamesList l = true →
        ∀ x ∈ getAllNodesList (scanEntries analyze globTest config baseDir currentDir l),
          x.name ≠ ".git" ∧ x.name ≠ "node_modules" := by
      intro l
      induction l with
      | nil => intro _ x hx; rw [scanEntries] at hx; simp [getAllNodesList] at hx
      | cons e2 es2 ihl =>
        intro hcll x hx
        rw [scanEntries, getAllNodesList_append] at hx
        rw [cleanNamesList] at hcll
        rcases List.mem_append.mp hx with hx | hx
        · exact scanEntry_names analyze globTest config baseDir e2 currentDir
            (by simp_all) x hx
        · exact ihl (by simp_all) x hx
    exact hlist entries hclean n hn
  · intro n hn hdir
    have hlist : ∀ (l : List FSTree), cleanNamesList l = true →
        ∀ x ∈ getAllNodesList (scanEntriesV1 analyze baseDir currentDir l),
          x.isDirectory = true → x.name ≠ ".git" ∧ x.name ≠ "node_modules" := by
      intro l
      induction l with
      | nil => intro _ x hx; rw [scanEntriesV1] at hx; simp [getAllNodesList] at hx
      | cons e2 es2 ihl =>
        intro hcll x hx
        rw [scanEntriesV1, getAllNodesList_append] at hx
        rw [cleanNamesList] at hcll
        rcases List.mem_append.mp hx with hx | hx
        · exact scanEntryV1_names analyze baseDir e2 currentDir (by simp_all) x hx
        · exact ihl (by simp_all) x hx
    exact hlist entries hclean n hn hdir

theorem always_excluded_names_witness :
    cleanNamesList [FSTree.dir ".git" [FSTree.file "x.ts"], FSTree.file "a.ts",
      FSTree.dir "src" [FSTree.file "b.ts"]] = true ∧
    (∀ n ∈ getAllNodesList
        ((scanDirectory (fun _ => ([], [])) (fun _ _ => false) none "/r" "/r"
          (some [FSTree.dir ".git" [FSTree.file "x.ts"], FSTree.file "a.ts",
            FSTree.dir "src" [FSTree.file "b.ts"]])).children),
      n.name ≠ ".git" ∧ n.name ≠ "node_modules") :=
  ⟨by decide,
    (always_excluded_names (fun _ => ([], [])) (fun _ _ => false) none "/r" "/r"
      [FSTree.dir ".git" [FSTree.file "x.ts"], FSTree.file "a.ts",
        FSTree.dir "src" [FSTree.file "b.ts"]] (by decide)).1⟩

/-! ## Flat meta view: basic lemmas -/

theorem FileNode.eta (n : FileNode) : FileNode.mk n.meta n.children = n := by
  cases n
  rfl

theorem flatMetasList_append (a b : List FileNode) :
    flatMetasList (a ++ b) = flatMetasList a ++ flatMetasList b := by
  induction a with
  | nil => simp [flatMetasList]
  | cons c cs ih =>
    rw [List.cons_append, flatMetasList, flatMetasList, ih, List.append_assoc]

theorem flatMetas_eq (t : FileNode) :
    flatMetas t = (getAllNodes t).map FileNode.meta := by
  induction t using FileNode.inductionOn with
  | ind m ch ihc =>
    rw [flatMetas, getAllNodes, List.map_cons]
    have hlist : ∀ l : List FileNode,
        (∀ c ∈ l, flatMetas c = (getAllNodes c).map FileNode.meta) →
        flatMetasList l = (getAllNodesList l).map FileNode.meta := by
      intro l
      induction l with
      | nil => intro _; rfl
      | cons c cs ihl =>
        intro hall
        rw [flatMetasList, getAllNodesList, List.map_append, hall c (by simp),
          ihl (fun d hd => hall d (by simp [hd]))]
    rw [hlist ch ihc]
    rfl

theorem flatMetasList_eq (l : List FileNode) :
    flatMetasList l = (getAllNodesList l).map FileNode.meta := by
  induction l with
  | nil => rfl
  | cons c cs ih =>
    rw [flatMetasList, getAllNodesList, List.map_append, flatMetas_eq, ih]

theorem flatMetasList_eq_join (l : List FileNode) :
    flatMetasList l = (l.map flatMetas).flatten := by
  induction l with
  | nil => rfl
  | cons c cs ih => rw [flatMetasList, List.map_cons, List.flatten_cons, ih]

theorem flatMetasList_perm {a b : List FileNode} (h : a.Perm b) :
    (flatMetasList a).Perm (flatMetasList b) := by
  rw [flatMetasList_eq_join, flatMetasList_eq_join]
  exact (h.map flatMetas).flatten

theorem symNodes_iff (l : List FileNode) :
    SymNodes l ↔ SymMetas (l.map FileNode.meta) := by
  constructor
  · intro h a ha hda b hb hdb
    obtain ⟨a0, ha0, rfl⟩ := List.mem_map.mp ha
    obtain ⟨b0, hb0, rfl⟩ := List.mem_map.mp hb
    exact h a0 ha0 hda b0 hb0 hdb
  · intro h a ha hda b hb hdb
    exact h a.meta (List.mem_map.mpr ⟨a, ha, rfl⟩) hda
      b.meta (List.mem_map.mpr ⟨b, hb, rfl⟩) hdb

theorem symMetas_perm {a b : List FileMeta} (h : a.Perm b) :
    SymMetas a ↔ SymMetas b := by
  constructor <;> intro hs x hx hdx y hy hdy
  · exact hs x (h.symm.subset hx) hdx y (h.symm.subset hy) hdy
  · exact hs x (h.subset hx) hdx y (h.subset hy) hdy

theorem pushIfAbsent_mem (l : List String) (x y : String) :
    y ∈ pushIfAbsent l x ↔ y ∈ l ∨ y = x := by
  rw [pushIfAbsent]
  split
  · rename_i hc
    have hx : x ∈ l := by simpa using hc
    constructor
    · exact Or.inl
    · rintro (h | rfl)
      · exact h
      · exact hx
  · simp

/-! ## First-occurrence removal: recursive characterizations -/

theorem indexOf?_cons (a x : String) (l : List String) :
    (a :: l).indexOf? x = if a = x then some 0 else (l.indexOf? x).map (· + 1) := by
  show List.findIdx? (· == x) (a :: l) = _
  rw [List.findIdx?_cons, List.findIdx?_succ]
  by_cases hax : a = x
  · simp [hax]
  · simp only [hax, if_false, beq_iff_eq, if_neg hax]
    rfl

theorem removeFirstEq_cons (a x : String) (l : List String) :
    removeFirstEq (a :: l) x = if a = x then l else a :: removeFirstEq l x := by
  rw [removeFirstEq, removeFirstEq, indexOf?_cons]
  by_cases hax : a = x
  · simp [hax]
  · rw [if_neg hax, if_neg hax]
    cases hfi : l.indexOf? x with
    | none => simp
    | some i => simp [List.eraseIdx_cons_succ]

theorem removeFirst_findIdx_cons {α : Type} (p : α → Bool) (a : α) (l : List α) :
    (match List.findIdx? p (a :: l) with
      | none => a :: l
      | some i => (a :: l).eraseIdx i) =
    (if p a then l else a :: (match List.findIdx? p l with
      | none => l
      | some i => l.eraseIdx i)) := by
  rw [List.findIdx?_cons, List.findIdx?_succ]
  by_cases hpa : p a = true
  · simp [hpa]
  · simp only [hpa, Bool.false_eq_true, if_false]
    cases hfi : List.findIdx? p l with
    | none => simp
    | some i => simp [List.eraseIdx_cons_succ]

theorem removeFirstNormEq_cons (a tgt : String) (l : List String) :
    removeFirstNormEq (a :: l) tgt =
      if normalizePath a = tgt then l else a :: removeFirstNormEq l tgt := by
  rw [removeFirstNormEq, removeFirstNormEq]
  have h := removeFirst_findIdx_cons (fun d => decide (normalizePath d = tgt)) a l
  simpa using h

theorem removeFirstChild_cons (c : FileNode) (cs : List FileNode) (tgt : String) :
    removeFirstChild (c :: cs) tgt =
      if normalizePath c.path = tgt then cs else c :: removeFirstChild cs tgt := by
  rw [removeFirstChild, removeFirstChild]
  have h := removeFirst_findIdx_cons (fun x => decide (normalizePath x.path = tgt)) c cs
  simpa using h

theorem removeFirstEq_mem_ne {x y : String} (hxy : x ≠ y) (l : List String) :
    x ∈ removeFirstEq l y ↔ x ∈ l := by
  induction l with
  | nil => exact Iff.rfl
  | cons a as ih =>
    rw [removeFirstEq_cons]
    split
    · rename_i ha
      rw [List.mem_cons]
      constructor
      · exact Or.inr
      · rintro (rfl | h)
        · exact absurd ha hxy
        · exact h
    · rw [List.mem_cons, List.mem_cons, ih]

theorem removeFirstNormEq_mem_ne {x tgt : String} (hx : normalizePath x ≠ tgt)
    (l : List String) : x ∈ removeFirstNormEq l tgt ↔ x ∈ l := by
  induction l with
  | nil => exact Iff.rfl
  | cons a as ih =>
    rw [removeFirstNormEq_cons]
    split
    · rename_i ha
      rw [List.mem_cons]
      constructor
      · exact Or.inr
      · rintro (rfl | h)
        · exact absurd ha hx
        · exact h
    · rw [List.mem_cons, List.mem_cons, ih]

theorem removeFirstChild_perm {nt : String} {l : List FileNode}
    (hex : ∃ x ∈ l, normalizePath x.path = nt) :
    ∃ x ∈ l, normalizePath x.path = nt ∧ l.Perm (x :: removeFirstChild l nt) := by
  induction l with
  | nil =>
    obtain ⟨x, hx, _⟩ := hex
    simp at hx
  | cons c cs ih =>
    rw [removeFirstChild_cons]
    by_cases hc : normalizePath c.path = nt
    · exact ⟨c, by simp, hc, by rw [if_pos hc]⟩
    · rw [if_neg hc]
      have hex2 : ∃ x ∈ cs, normalizePath x.path = nt := by
        obtain ⟨x, hx, hxn⟩ := hex
        rcases List.mem_cons.mp hx with rfl | hx
        · exact absurd hxn hc
        · exact ⟨x, hx, hxn⟩
      obtain ⟨x, hx, hxn, hperm⟩ := ih hex2
      refine ⟨x, by simp [hx], hxn, ?_⟩
      exact (hperm.cons c).trans (List.Perm.swap x c (removeFirstChild cs nt))

/-! ## `updFirst` and `findNodeByPath`: basic structure -/

/-- `updFirst` reports success exactly when `findNodeByPath` finds a
node (the two walk the tree identically). -/
theorem updFirst_found_iff (tgt : String) (f : FileNode → FileNode) (t : FileNode) :
    (updFirst tgt f t).1 = true ↔ (findNodeByPath tgt t).isSome = true := by
  induction t using FileNode.inductionOn with
  | ind m ch ih =>
    rw [updFirst, findNodeByPath]
    split
    · simp
    · split
      · have hlist : ∀ l : List FileNode,
            (∀ c ∈ l, ((updFirst tgt f c).1 = true ↔ (findNodeByPath tgt c).isSome = true)) →
            ((updFirstList tgt f l).1 = true ↔ (findNodeByPathList tgt l).isSome = true) := by
          intro l
          induction l with
          | nil => intro _; rw [updFirstList, findNodeByPathList]; simp
          | cons c cs ihl =>
            intro hall
            rw [updFirstList, findNodeByPathList]
            cases hfc : findNodeByPath tgt c with
            | some r =>
              have : (updFirst tgt f c).1 = true := (hall c (by simp)).mpr (by rw [hfc]; rfl)
              simp only [this, if_true]
              simp
            | none =>
              have : (updFirst tgt f c).1 = false := by
                cases hu : (updFirst tgt f c).1 with
                | false => rfl
                | true => exact absurd ((hall c (by simp)).mp hu) (by rw [hfc]; simp)
              simp only [this, Bool.false_eq_true, if_false]
              exact ihl (fun d hd => hall d (by simp [hd]))
        exact hlist ch ih
      · simp

/-- A failed `updFirst` leaves the tree unchanged. -/
theorem updFirst_not_found_eq (tgt : String) (f : FileNode → FileNode) (t : FileNode)
    (h : (updFirst tgt f t).1 = false) : (updFirst tgt f t).2 = t := by
  induction t using FileNode.inductionOn with
  | ind m ch ih =>
    rw [updFirst] at h ⊢
    split at h
    · simp at h
    · split at h
      · rename_i hdir
        rw [if_neg (by simp_all), if_pos hdir]
        have hlist : ∀ l : List FileNode,
            (∀ c ∈ l, (updFirst tgt f c).1 = false → (updFirst tgt f c).2 = c) →
            (updFirstList tgt f l).1 = false → (updFirstList tgt f l).2 = l := by
          intro l
          induction l with
          | nil => intro _ _; rw [updFirstList]
          | cons c cs ihl =>
            intro hall hl
            rw [updFirstList] at hl ⊢
            split at hl
            · simp at hl
            · rename_i hc1
              simp only at hl ⊢
              rw [hall c (by simp) (by simpa using hc1),
                ihl (fun d hd => hall d (by simp [hd])) hl, if_neg hc1]
        simp only at h ⊢
        rw [hlist ch (fun c hc => ih c hc) h]
      · rename_i hdir
        rw [if_neg (by simp_all), if_neg hdir]

theorem findNodeByPath_sound {tgt : String} {t r : FileNode}
    (h : findNodeByPath tgt t = some r) :
    r ∈ getAllNodes t ∧ normalizePath r.path = tgt := by
  induction t using FileNode.inductionOn with
  | ind m ch ih =>
    rw [findNodeByPath] at h
    split at h
    · rename_i hm
      cases h
      exact ⟨self_mem_getAllNodes _, hm⟩
    · split at h
      · have hlist : ∀ l : List FileNode,
            (∀ c ∈ l, findNodeByPath tgt c = some r →
              r ∈ getAllNodes c ∧ normalizePath r.path = tgt) →
            findNodeByPathList tgt l = some r →
            (∃ c ∈ l, r ∈ getAllNodes c) ∧ normalizePath r.path = tgt := by
          intro l
          induction l with
          | nil => intro _ h2; rw [findNodeByPathList] at h2; cases h2
          | cons c cs ihl =>
            intro hall h2
            rw [findNodeByPathList] at h2
            cases hfc : findNodeByPath tgt c with
            | some n =>
              rw [hfc] at h2
              cases h2
              obtain ⟨hmem, hnorm⟩ := hall c (by simp) hfc
              exact ⟨⟨c, by simp, hmem⟩, hnorm⟩
            | none =>
              rw [hfc] at h2
              obtain ⟨⟨c2, hc2, hmem⟩, hnorm⟩ :=
                ihl (fun d hd => hall d (by simp [hd])) h2
              exact ⟨⟨c2, by simp [hc2], hmem⟩, hnorm⟩
        obtain ⟨⟨c, hc, hmem⟩, hnorm⟩ := hlist ch (fun c hc h2 => ih c hc h2) h
        refine ⟨?_, hnorm⟩
        rw [getAllNodes]
        exact List.mem_cons_of_mem _ (mem_getAllNodesList.mpr ⟨c, hc, hmem⟩)
      · cases h

theorem wfNodeList_iff {l : List FileNode} :
    wfNodeList l = true ↔ ∀ c ∈ l, wfNode c = true := by
  induction l with
  | nil => simp [wfNodeList]
  | cons c cs ih =>
    rw [wfNodeList, Bool.and_eq_true, ih]
    simp

theorem wfNode_children {m : FileMeta} {ch : List FileNode}
    (h : wfNode (.mk m ch) = true) :
    (m.isDirectory = true ∨ ch = []) ∧ wfNodeList ch = true := by
  rw [wfNode, Bool.and_eq_true] at h
  refine ⟨?_, h.2⟩
  have h1 := h.1
  rw [Bool.or_eq_true] at h1
  rcases h1 with h1 | h1
  · exact Or.inl h1
  · exact Or.inr (List.isEmpty_iff.mp h1)

theorem child_mem_getAllNodes {c n : FileNode} (hc : c ∈ n.children) :
    c ∈ getAllNodes n := by
  cases n with
  | mk m ch =>
    rw [getAllNodes]
    exact List.mem_cons_of_mem _ (mem_getAllNodesList.mpr ⟨c, hc, self_mem_getAllNodes c⟩)

theorem getAllNodes_trans {x n t : FileNode} (hn : n ∈ getAllNodes t)
    (hx : x ∈ getAllNodes n) : x ∈ getAllNodes t := by
  induction t using FileNode.inductionOn with
  | ind m ch ih =>
    rw [getAllNodes] at hn ⊢
    rcases List.mem_cons.mp hn with rfl | hn
    · rw [getAllNodes] at hx
      exact hx
    · obtain ⟨c, hc, hnc⟩ := mem_getAllNodesList.mp hn
      exact List.mem_cons_of_mem _ (mem_getAllNodesList.mpr ⟨c, hc, ih c hc hnc⟩)

theorem wfNode_mem {t n : FileNode} (hwf : wfNode t = true) (hn : n ∈ getAllNodes t)
    (hfile : n.isDirectory = false) : n.children = [] := by
  induction t using FileNode.inductionOn with
  | ind m ch ih =>
    obtain ⟨h1, h2⟩ := wfNode_children hwf
    rw [getAllNodes] at hn
    rcases List.mem_cons.mp hn with rfl | hn
    · rcases h1 with hdir | hnil
      · exact absurd (show m.isDirectory = false from hfile) (by simp [hdir])
      · exact hnil
    · obtain ⟨c, hc, hnc⟩ := mem_getAllNodesList.mp hn
      exact ih c hc (wfNodeList_iff.mp h2 c hc) hnc

theorem findNodeByPath_complete {tgt : String} {t n : FileNode} (hwf : wfNode t = true)
    (hn : n ∈ getAllNodes t) (hmatch : normalizePath n.path = tgt) :
    (findNodeByPath tgt t).isSome = true := by
  induction t using FileNode.inductionOn with
  | ind m ch ih =>
    obtain ⟨h1, h2⟩ := wfNode_children hwf
    rw [findNodeByPath]
    split
    · simp
    · rename_i hm
      rw [getAllNodes] at hn
      rcases List.mem_cons.mp hn with rfl | hn
      · exact absurd hmatch hm
      · obtain ⟨c, hc, hnc⟩ := mem_getAllNodesList.mp hn
        have hdir : m.isDirectory = true := by
          rcases h1 with hdir | hnil
          · exact hdir
          · subst hnil
            simp at hc
        rw [if_pos hdir]
        have hlist : ∀ l : List FileNode,
            (∀ c2 ∈ l, wfNode c2 = true → n ∈ getAllNodes c2 →
              (findNodeByPath tgt c2).isSome = true) →
            wfNodeList l = true → (∃ c2 ∈ l, n ∈ getAllNodes c2) →
            (findNodeByPathList tgt l).isSome = true := by
          intro l
          induction l with
          | nil =>
            rintro _ _ ⟨c2, hc2, _⟩
            simp at hc2
          | cons c0 cs ihl =>
            rintro hall hwl ⟨c2, hc2, hnc2⟩
            rw [findNodeByPathList]
            cases hfc : findNodeByPath tgt c0 with
            | some r => simp
            | none =>
              rcases List.mem_cons.mp hc2 with rfl | hc2
              · exact absurd
                  (hall c2 (by simp) (wfNodeList_iff.mp hwl c2 (by simp)) hnc2)
                  (by rw [hfc]; simp)
              · exact ihl (fun d hd => hall d (by simp [hd]))
                  (wfNodeList_iff.mpr
                    (fun d hd => wfNodeList_iff.mp hwl d (by simp [hd])))
                  ⟨c2, hc2, hnc2⟩
        exact hlist ch (fun c2 hc2 => ih c2 hc2) h2 ⟨c, hc, hnc⟩

theorem updFirst_wf (tgt : String) (f : FileNode → FileNode)
    (hf : ∀ n, wfNode n = true → wfNode (f n) = true) (t : FileNode)
    (hwf : wfNode t = true) : wfNode (updFirst tgt f t).2 = true := by
  induction t using FileNode.inductionOn with
  | ind m ch ih =>
    rw [updFirst]
    split
    · exact hf _ hwf
    · split
      · rename_i hdir
        obtain ⟨h1, h2⟩ := wfNode_children hwf
        simp only
        rw [wfNode]
        rw [Bool.and_eq_true]
        refine ⟨by simp [hdir], ?_⟩
        have hlist : ∀ l : List FileNode,
            (∀ c ∈ l, wfNode c = true → wfNode (updFirst tgt f c).2 = true) →
            wfNodeList l = true → wfNodeList (updFirstList tgt f l).2 = true := by
          intro l
          induction l with
          | nil => intro _ _; rw [updFirstList]; rfl
          | cons c cs ihl =>
            intro hall hwl
            rw [updFirstList]
            have hwc := wfNodeList_iff.mp hwl c (by simp)
            have hwcs : wfNodeList cs = true :=
              wfNodeList_iff.mpr (fun d hd => wfNodeList_iff.mp hwl d (by simp [hd]))
            split
            · simp only
              rw [wfNodeList, Bool.and_eq_true]
              exact ⟨hall c (by simp) hwc, hwcs⟩
            · simp only
              rw [wfNodeList, Bool.and_eq_true]
              exact ⟨hall c (by simp) hwc, ihl (fun d hd => hall d (by simp [hd])) hwcs⟩
        exact hlist ch (fun c hc => ih c hc) h2
      · exact hwf

theorem wf_metaRewrite (g : FileMeta → FileMeta)
    (hgd : ∀ m, (g m).isDirectory = m.isDirectory) (n : FileNode)
    (h : wfNode n = true) : wfNode (metaRewrite g n) = true := by
  cases n with
  | mk m ch =>
    rw [metaRewrite]
    show wfNode (.mk (g m) ch) = true
    rw [wfNode] at h ⊢
    simpa [hgd] using h

theorem wf_insertChildF (c : FileNode) (hc : wfNode c = true) (p : FileNode)
    (h : wfNode p = true) : wfNode (insertChildF c p) = true := by
  cases p with
  | mk m ch =>
    rw [insertChildF]
    split
    · rename_i hdir
      obtain ⟨h1, h2⟩ := wfNode_children h
      show wfNode (.mk m (sortByName (ch ++ [c]))) = true
      rw [wfNode, Bool.and_eq_true]
      refine ⟨?_, ?_⟩
      · have : m.isDirectory = true := hdir
        simp [this]
      · rw [wfNodeList_iff]
        intro d hd
        rcases List.mem_append.mp (mem_sortByName.mp hd) with hd | hd
        · exact wfNodeList_iff.mp h2 d hd
        · rcases List.mem_singleton.mp hd with rfl
          exact hc
    · exact h

theorem wf_removeChildF (nt : String) (p : FileNode) (h : wfNode p = true) :
    wfNode (removeChildF nt p) = true := by
  cases p with
  | mk m ch =>
    rw [removeChildF]
    split
    · rename_i hdir
      obtain ⟨h1, h2⟩ := wfNode_children h
      show wfNode (.mk m (removeFirstChild ch nt)) = true
      rw [wfNode, Bool.and_eq_true]
      refine ⟨?_, ?_⟩
      · have : m.isDirectory = true := hdir
        simp [this]
      · rw [wfNodeList_iff]
        intro d hd
        exact wfNodeList_iff.mp h2 d (mem_of_mem_removeFirstChild hd)
    · exact h

/-! ## Single-target meta updates act as `map` on the flattened view -/

theorem countP_le_one_of_nodup_paths {l : List FileMeta}
    (hnd : (l.map FileMeta.path).Nodup) (tgt : String) :
    l.countP (fun m => m.path = tgt) ≤ 1 := by
  induction l with
  | nil => simp
  | cons m ms ih =>
    rw [List.map_cons, List.nodup_cons] at hnd
    rw [List.countP_cons]
    by_cases hm : m.path = tgt
    · have hz : ms.countP (fun m2 => m2.path = tgt) = 0 := by
        rw [List.countP_eq_zero]
        intro a ha
        simp only [decide_eq_true_eq]
        intro h2
        exact hnd.1 (List.mem_map.mpr ⟨a, ha, by rw [h2, hm]⟩)
      simp [hm, hz]
    · have hle : ms.countP (fun m2 => m2.path = tgt) ≤ 1 := ih hnd.2
      rw [if_neg (by simpa using hm)]
      omega

theorem countP_norm_le_one {l : List FileMeta}
    (hfix : ∀ m ∈ l, normalizePath m.path = m.path)
    (hnd : (l.map FileMeta.path).Nodup) (tgt : String) :
    l.countP (fun m => normalizePath m.path = tgt) ≤ 1 := by
  have he : l.countP (fun m => normalizePath m.path = tgt) =
      l.countP (fun m => m.path = tgt) := by
    apply List.countP_congr
    intro m hm
    rw [hfix m hm]
  rw [he]
  exact countP_le_one_of_nodup_paths hnd tgt

theorem countP_pos_of_found {tgt : String} {c : FileNode} {f : FileNode → FileNode}
    (h : (updFirst tgt f c).1 = true) :
    1 ≤ (flatMetas c).countP (fun m => normalizePath m.path = tgt) := by
  have hs := (updFirst_found_iff tgt f c).mp h
  cases hfind : findNodeByPath tgt c with
  | none => rw [hfind] at hs; simp at hs
  | some r =>
    obtain ⟨hmem, hnorm⟩ := findNodeByPath_sound hfind
    have : 0 < (flatMetas c).countP (fun m => normalizePath m.path = tgt) := by
      rw [List.countP_pos]
      exact ⟨r.meta, by rw [flatMetas_eq]; exact List.mem_map.mpr ⟨r, hmem, rfl⟩,
        by simpa using hnorm⟩
    omega

theorem updFirst_flatMetas (tgt : String) (g : FileMeta → FileMeta) (t : FileNode)
    (hwf : wfNode t = true)
    (huniq : (flatMetas t).countP (fun m => normalizePath m.path = tgt) ≤ 1) :
    flatMetas (updFirst tgt (metaRewrite g) t).2 = (flatMetas t).map (applyAtM tgt g) := by
  induction t using FileNode.inductionOn with
  | ind m ch ih =>
    obtain ⟨h1, h2⟩ := wfNode_children hwf
    rw [updFirst]
    split
    · rename_i hm
      show flatMetas (.mk (g m) ch) = _
      rw [flatMetas, flatMetas, List.map_cons]
      congr 1
      · rw [applyAtM, if_pos hm]
      · have hz : (flatMetasList ch).countP (fun m2 => normalizePath m2.path = tgt) = 0 := by
          rw [flatMetas, List.countP_cons] at huniq
          simp only [decide_eq_true_eq, hm, if_pos] at huniq
          omega
        rw [List.countP_eq_zero] at hz
        symm
        apply map_eq_self_of
        intro x hx
        rw [applyAtM, if_neg (by simpa using hz x hx)]
    · split
      · rename_i hm hdir
        simp only
        rw [flatMetas, flatMetas, List.map_cons]
        congr 1
        · rw [applyAtM, if_neg hm]
        · have huniq2 : (flatMetasList ch).countP
              (fun m2 => normalizePath m2.path = tgt) ≤ 1 := by
            rw [flatMetas, List.countP_cons] at huniq
            omega
          have hlist : ∀ l : List FileNode,
              (∀ c ∈ l, wfNode c = true →
                (flatMetas c).countP (fun m2 => normalizePath m2.path = tgt) ≤ 1 →
                flatMetas (updFirst tgt (metaRewrite g) c).2 =
                  (flatMetas c).map (applyAtM tgt g)) →
              wfNodeList l = true →
              (flatMetasList l).countP (fun m2 => normalizePath m2.path = tgt) ≤ 1 →
              flatMetasList (updFirstList tgt (metaRewrite g) l).2 =
                (flatMetasList l).map (applyAtM tgt g) := by
            intro l
            induction l with
            | nil => intro _ _ _; rw [updFirstList]; rfl
            | cons c cs ihl =>
              intro hall hwl hu
              rw [flatMetasList, List.countP_append] at hu
              have hwc := wfNodeList_iff.mp hwl c (by simp)
              have hwcs : wfNodeList cs = true :=
                wfNodeList_iff.mpr (fun d hd => wfNodeList_iff.mp hwl d (by simp [hd]))
              rw [updFirstList]
              split
              · rename_i hc1
                simp only
                rw [flatMetasList, flatMetasList, List.map_append]
                congr 1
                · exact hall c (by simp) hwc (by omega)
                · have hpos := countP_pos_of_found hc1
                  have hz : (flatMetasList cs).countP
                      (fun m2 => normalizePath m2.path = tgt) = 0 := by omega
                  rw [List.countP_eq_zero] at hz
                  symm
                  apply map_eq_self_of
                  intro x hx
                  rw [applyAtM, if_neg (by simpa using hz x hx)]
              · rename_i hc1
                simp only
                rw [flatMetasList, flatMetasList, List.map_append]
                congr 1
                · exact hall c (by simp) hwc (by omega)
                · exact ihl (fun d hd => hall d (by simp [hd])) hwcs (by omega)
          exact hlist ch (fun c hc => ih c hc) h2 huniq2
      · rename_i hm hdir
        have hch : ch = [] := by
          rcases h1 with hd | hn
          · exact absurd hd (by simpa using hdir)
          · exact hn
        subst hch
        show flatMetas (.mk m []) = _
        rw [flatMetas, flatMetasList, List.map_cons, List.map_nil, applyAtM, if_neg hm]

theorem perm_shuffle {α : Type} (A B C : List α) :
    (A ++ (B ++ C)).Perm (B ++ (A ++ C)) := by
  rw [← List.append_assoc, ← List.append_assoc]
  exact List.Perm.append_right C List.perm_append_comm

/-- Inserting a child at the node `findNodeByPath` locates: the flat
meta view gains exactly the new subtree's metas, and the parent is still
found at the same target with the new child among its children. -/
theorem updFirst_insert_char (tgt : String) (c0 : FileNode) {t P : FileNode}
    (hfound : findNodeByPath tgt t = some P) (hPdir : P.isDirectory = true) :
    (flatMetas (updFirst tgt (insertChildF c0) t).2).Perm
      (flatMetas c0 ++ flatMetas t) ∧
    ∃ ch2, findNodeByPath tgt (updFirst tgt (insertChildF c0) t).2 =
      some (.mk P.meta ch2) ∧ c0 ∈ ch2 := by
  induction t using FileNode.inductionOn with
  | ind m ch ih =>
    rw [findNodeByPath] at hfound
    rw [updFirst]
    split
    · rename_i hm
      rw [if_pos hm] at hfound
      cases hfound
      rw [insertChildF, if_pos hPdir]
      constructor
      · show (flatMetas (.mk m (sortByName (ch ++ [c0])))).Perm _
        rw [flatMetas, flatMetas]
        have hl : (flatMetasList (sortByName (ch ++ [c0]))).Perm
            (flatMetasList ch ++ flatMetas c0) := by
          have h1 := flatMetasList_perm (sortByName_perm (ch ++ [c0]))
          rw [flatMetasList_append, flatMetasList, flatMetasList,
            List.append_nil] at h1
          exact h1
        refine (hl.cons m).trans ?_
        exact (List.Perm.cons m List.perm_append_comm).trans
          (@List.perm_middle _ m (flatMetas c0) (flatMetasList ch)).symm
      · refine ⟨sortByName (ch ++ [c0]), ?_, ?_⟩
        · show findNodeByPath tgt (.mk m (sortByName (ch ++ [c0]))) = _
          rw [findNodeByPath, if_pos hm]
          rfl
        · exact mem_sortByName.mpr (List.mem_append.mpr (Or.inr (by simp)))
    · rename_i hm
      rw [if_neg hm] at hfound
      split
      · rename_i hdir
        rw [if_pos hdir] at hfound
        have hlist : ∀ l : List FileNode,
            (∀ c ∈ l, findNodeByPath tgt c = some P →
              (flatMetas (updFirst tgt (insertChildF c0) c).2).Perm
                (flatMetas c0 ++ flatMetas c) ∧
              ∃ ch2, findNodeByPath tgt (updFirst tgt (insertChildF c0) c).2 =
                some (.mk P.meta ch2) ∧ c0 ∈ ch2) →
            findNodeByPathList tgt l = some P →
            (flatMetasList (updFirstList tgt (insertChildF c0) l).2).Perm
              (flatMetas c0 ++ flatMetasList l) ∧
            ∃ ch2, findNodeByPathList tgt (updFirstList tgt (insertChildF c0) l).2 =
              some (.mk P.meta ch2) ∧ c0 ∈ ch2 := by
          intro l
          induction l with
          | nil => intro _ h2; rw [findNodeByPathList] at h2; cases h2
          | cons c cs ihl =>
            intro hall h2
            rw [findNodeByPathList] at h2
            rw [updFirstList]
            cases hfc : findNodeByPath tgt c with
            | some n =>
              rw [hfc] at h2
              cases h2
              obtain ⟨hperm, ch2, hfind2, hmem2⟩ := hall c (by simp) hfc
              have h1 : (updFirst tgt (insertChildF c0) c).1 = true := by
                rw [updFirst_found_iff, hfc]
                rfl
              rw [if_pos h1]
              constructor
              · simp only
                rw [flatMetasList, flatMetasList]
                refine (hperm.append_right _).trans ?_
                rw [List.append_assoc]
              · refine ⟨ch2, ?_, hmem2⟩
                show findNodeByPathList tgt ((updFirst tgt (insertChildF c0) c).2 :: cs) = _
                rw [findNodeByPathList, hfind2]
            | none =>
              rw [hfc] at h2
              have h1 : (updFirst tgt (insertChildF c0) c).1 = false := by
                cases hu : (updFirst tgt (insertChildF c0) c).1 with
                | false => rfl
                | true =>
                  have := (updFirst_found_iff tgt (insertChildF c0) c).mp hu
                  rw [hfc] at this
                  simp at this
              rw [if_neg (by simp [h1])]
              have hr2 : (updFirst tgt (insertChildF c0) c).2 = c :=
                updFirst_not_found_eq _ _ _ h1
              obtain ⟨hperm, ch2, hfind2, hmem2⟩ :=
                ihl (fun d hd => hall d (by simp [hd])) h2
              constructor
              · show (flatMetasList ((updFirst tgt (insertChildF c0) c).2 ::
                    (updFirstList tgt (insertChildF c0) cs).2)).Perm
                  (flatMetas c0 ++ flatMetasList (c :: cs))
                rw [flatMetasList, hr2, flatMetasList]
                exact (hperm.append_left (flatMetas c)).trans
                  (perm_shuffle (flatMetas c) (flatMetas c0) (flatMetasList cs))
              · refine ⟨ch2, ?_, hmem2⟩
                show findNodeByPathList tgt ((updFirst tgt (insertChildF c0) c).2 ::
                  (updFirstList tgt (insertChildF c0) cs).2) = _
                rw [findNodeByPathList, hr2, hfc]
                exact hfind2
        obtain ⟨hperm, ch2, hfind2, hmem2⟩ :=
          hlist ch (fun c hc h2 => ih c hc h2) hfound
        constructor
        · simp only
          rw [flatMetas, flatMetas]
          refine (hperm.cons m).trans ?_
          exact (@List.perm_middle _ m (flatMetas c0) (flatMetasList ch)).symm
        · refine ⟨ch2, ?_, hmem2⟩
          simp only
          rw [findNodeByPath, if_neg hm, if_pos hdir, hfind2]
      · rename_i hdir
        rw [if_neg hdir] at hfound
        cases hfound

/-- Splicing out the first child matching `nt` below the node
`findNodeByPath` locates: the flat meta view loses exactly that child's
subtree metas. -/
theorem updFirst_removeChild_char (tgt nt : String) {t P : FileNode}
    (hfound : findNodeByPath tgt t = some P) (hPdir : P.isDirectory = true)
    (hex : ∃ x ∈ P.children, normalizePath x.path = nt) :
    ∃ x ∈ P.children, normalizePath x.path = nt ∧
      (flatMetas t).Perm
        (flatMetas x ++ flatMetas (updFirst tgt (removeChildF nt) t).2) := by
  induction t using FileNode.inductionOn with
  | ind m ch ih =>
    rw [findNodeByPath] at hfound
    rw [updFirst]
    split
    · rename_i hm
      rw [if_pos hm] at hfound
      cases hfound
      obtain ⟨x, hx, hxn, hperm⟩ := removeFirstChild_perm hex
      refine ⟨x, hx, hxn, ?_⟩
      rw [removeChildF, if_pos hPdir]
      show (flatMetas (.mk m ch)).Perm
        (flatMetas x ++ flatMetas (.mk m (removeFirstChild ch nt)))
      rw [flatMetas, flatMetas]
      have h1 : (flatMetasList ch).Perm
          (flatMetas x ++ flatMetasList (removeFirstChild ch nt)) := by
        have h2 := flatMetasList_perm hperm
        rw [flatMetasList] at h2
        exact h2
      exact (h1.cons m).trans
        (@List.perm_middle _ m (flatMetas x)
          (flatMetasList (removeFirstChild ch nt))).symm
    · rename_i hm
      rw [if_neg hm] at hfound
      split
      · rename_i hdir
        rw [if_pos hdir] at hfound
        have hlist : ∀ l : List FileNode,
            (∀ c ∈ l, findNodeByPath tgt c = some P →
              ∃ x ∈ P.children, normalizePath x.path = nt ∧
                (flatMetas c).Perm
                  (flatMetas x ++ flatMetas (updFirst tgt (removeChildF nt) c).2)) →
            findNodeByPathList tgt l = some P →
            ∃ x ∈ P.children, normalizePath x.path = nt ∧
              (flatMetasList l).Perm
                (flatMetas x ++ flatMetasList (updFirstList tgt (removeChildF nt) l).2) := by
          intro l
          induction l with
          | nil => intro _ h2; rw [findNodeByPathList] at h2; cases h2
          | cons c cs ihl =>
            intro hall h2
            rw [findNodeByPathList] at h2
            rw [updFirstList]
            cases hfc : findNodeByPath tgt c with
            | some n =>
              rw [hfc] at h2
              cases h2
              obtain ⟨x, hx, hxn, hperm⟩ := hall c (by simp) hfc
              have h1 : (updFirst tgt (removeChildF nt) c).1 = true := by
                rw [updFirst_found_iff, hfc]
                rfl
              rw [if_pos h1]
              refine ⟨x, hx, hxn, ?_⟩
              simp only
              rw [flatMetasList, flatMetasList]
              refine (hperm.append_right _).trans ?_
              rw [List.append_assoc]
            | none =>
              rw [hfc] at h2
              have h1 : (updFirst tgt (removeChildF nt) c).1 = false := by
                cases hu : (updFirst tgt (removeChildF nt) c).1 with
                | false => rfl
                | true =>
                  have := (updFirst_found_iff tgt (removeChildF nt) c).mp hu
                  rw [hfc] at this
                  simp at this
              rw [if_neg (by simp [h1])]
              have hr2 : (updFirst tgt (removeChildF nt) c).2 = c :=
                updFirst_not_found_eq _ _ _ h1
              obtain ⟨x, hx, hxn, hperm⟩ := ihl (fun d hd => hall d (by simp [hd])) h2
              refine ⟨x, hx, hxn, ?_⟩
              show (flatMetasList (c :: cs)).Perm
                (flatMetas x ++ flatMetasList ((updFirst tgt (removeChildF nt) c).2 ::
                  (updFirstList tgt (removeChildF nt) cs).2))
              rw [flatMetasList, flatMetasList, hr2]
              exact (hperm.append_left (flatMetas c)).trans
                (perm_shuffle (flatMetas c) (flatMetas x)
                  (flatMetasList (updFirstList tgt (removeChildF nt) cs).2))
        obtain ⟨x, hx, hxn, hperm⟩ := hlist ch (fun c hc h2 => ih c hc h2) hfound
        refine ⟨x, hx, hxn, ?_⟩
        simp only
        rw [flatMetas, flatMetas]
        exact (hperm.cons m).trans
          (@List.perm_middle _ m (flatMetas x)
            (flatMetasList (updFirstList tgt (removeChildF nt) ch).2)).symm
      · rename_i hdir
        rw [if_neg hdir] at hfound
        cases hfound

theorem updFirst_meta_path (tgt : String) (g : FileMeta → FileMeta)
    (hgp : ∀ m, (g m).path = m.path) (c : FileNode) :
    ((updFirst tgt (metaRewrite g) c).2).path = c.path := by
  cases c with
  | mk m ch =>
    rw [updFirst]
    split
    · show (g m).path = m.path
      exact hgp m
    · split
      · rfl
      · rfl

theorem updFirstList_meta_paths (tgt : String) (g : FileMeta → FileMeta)
    (hgp : ∀ m, (g m).path = m.path) (l : List FileNode) :
    ((updFirstList tgt (metaRewrite g) l).2).map (fun c => normalizePath c.path) =
      l.map (fun c => normalizePath c.path) := by
  induction l with
  | nil => rw [updFirstList]
  | cons c cs ih =>
    rw [updFirstList]
    split
    · show ((updFirst tgt (metaRewrite g) c).2 :: cs).map _ = _
      rw [List.map_cons, List.map_cons, updFirst_meta_path tgt g hgp]
    · show ((updFirst tgt (metaRewrite g) c).2 ::
        (updFirstList tgt (metaRewrite g) cs).2).map _ = _
      rw [List.map_cons, List.map_cons, updFirst_meta_path tgt g hgp, ih]

/-- A single-target meta rewrite (path- and kind-preserving) does not
change which node `findNodeByPath` finds: the search fails on the new
tree iff it failed before, and otherwise returns the node at the same
position, with its meta either untouched or rewritten by `g`, and with
children at the same normalized paths. -/
theorem findNodeByPath_updFirst_meta (tgt tgt2 : String) (g : FileMeta → FileMeta)
    (hgp : ∀ m, (g m).path = m.path) (hgd : ∀ m, (g m).isDirectory = m.isDirectory)
    (t : FileNode) :
    (findNodeByPath tgt2 ((updFirst tgt (metaRewrite g) t).2) = none ∧
      findNodeByPath tgt2 t = none) ∨
    (∃ r r2, findNodeByPath tgt2 t = some r ∧
      findNodeByPath tgt2 ((updFirst tgt (metaRewrite g) t).2) = some r2 ∧
      (r2.meta = r.meta ∨ r2.meta = g r.meta) ∧
      r2.children.map (fun c => normalizePath c.path) =
        r.children.map (fun c => normalizePath c.path)) := by
  induction t using FileNode.inductionOn with
  | ind m ch ih =>
    rw [updFirst]
    split
    · rename_i hm
      rw [show ((true : Bool), metaRewrite g (FileNode.mk m ch)).2 =
        FileNode.mk (g m) ch from rfl]
      rw [findNodeByPath, findNodeByPath]
      by_cases h2 : normalizePath m.path = tgt2
      · rw [if_pos h2, if_pos (show normalizePath (g m).path = tgt2 by rw [hgp]; exact h2)]
        exact Or.inr ⟨.mk m ch, .mk (g m) ch, rfl, rfl, Or.inr rfl, rfl⟩
      · rw [if_neg h2,
          if_neg (show ¬normalizePath (g m).path = tgt2 by rw [hgp]; exact h2)]
        by_cases hd : m.isDirectory = true
        · rw [if_pos hd, if_pos (show (g m).isDirectory = true by rw [hgd]; exact hd)]
          cases hfl : findNodeByPathList tgt2 ch with
          | none => exact Or.inl ⟨rfl, rfl⟩
          | some r => exact Or.inr ⟨r, r, rfl, rfl, Or.inl rfl, rfl⟩
        · rw [if_neg hd,
            if_neg (show ¬(g m).isDirectory = true by rw [hgd]; exact hd)]
          exact Or.inl ⟨rfl, rfl⟩
    · rename_i hm
      split
      · rename_i hdir
        rw [show (let r := updFirstList tgt (metaRewrite g) ch;
          ((r.1 : Bool), FileNode.mk m r.2)).2 =
          FileNode.mk m (updFirstList tgt (metaRewrite g) ch).2 from rfl]
        rw [findNodeByPath, findNodeByPath]
        by_cases h2 : normalizePath m.path = tgt2
        · rw [if_pos h2, if_pos h2]
          exact Or.inr ⟨.mk m ch, .mk m (updFirstList tgt (metaRewrite g) ch).2,
            rfl, rfl, Or.inl rfl, updFirstList_meta_paths tgt g hgp ch⟩
        · rw [if_neg h2, if_neg h2, if_pos hdir, if_pos hdir]
          have hlist : ∀ l : List FileNode,
              (∀ c ∈ l,
                (findNodeByPath tgt2 ((updFirst tgt (metaRewrite g) c).2) = none ∧
                  findNodeByPath tgt2 c = none) ∨
                (∃ r r2, findNodeByPath tgt2 c = some r ∧
                  findNodeByPath tgt2 ((updFirst tgt (metaRewrite g) c).2) = some r2 ∧
                  (r2.meta = r.meta ∨ r2.meta = g r.meta) ∧
                  r2.children.map (fun c2 => normalizePath c2.path) =
                    r.children.map (fun c2 => normalizePath c2.path))) →
              (findNodeByPathList tgt2 ((updFirstList tgt (metaRewrite g) l).2) = none ∧
                findNodeByPathList tgt2 l = none) ∨
              (∃ r r2, findNodeByPathList tgt2 l = some r ∧
                findNodeByPathList tgt2 ((updFirstList tgt (metaRewrite g) l).2) = some r2 ∧
                (r2.meta = r.meta ∨ r2.meta = g r.meta) ∧
                r2.children.map (fun c2 => normalizePath c2.path) =
                  r.children.map (fun c2 => normalizePath c2.path)) := by
            intro l
            induction l with
            | nil =>
              intro _
              rw [updFirstList]
              exact Or.inl ⟨rfl, rfl⟩
            | cons c cs ihl =>
              intro hall
              rw [updFirstList]
              split
              · rcases hall c (by simp) with ⟨hn2, hn⟩ | ⟨r, r2, hr, hr2, hm12, hch⟩
                · show (findNodeByPathList tgt2 ((updFirst tgt (metaRewrite g) c).2 :: cs) = none ∧ _) ∨ _
                  rw [findNodeByPathList, findNodeByPathList, hn, hn2]
                  cases hfl : findNodeByPathList tgt2 cs with
                  | none => exact Or.inl ⟨rfl, rfl⟩
                  | some r => exact Or.inr ⟨r, r, rfl, rfl, Or.inl rfl, rfl⟩
                · show (findNodeByPathList tgt2 ((updFirst tgt (metaRewrite g) c).2 :: cs) = none ∧ _) ∨ _
                  rw [findNodeByPathList, findNodeByPathList, hr, hr2]
                  exact Or.inr ⟨r, r2, rfl, rfl, hm12, hch⟩
              · rename_i hc1
                have hr2eq : (updFirst tgt (metaRewrite g) c).2 = c :=
                  updFirst_not_found_eq _ _ _ (by simpa using hc1)
                show (findNodeByPathList tgt2 ((updFirst tgt (metaRewrite g) c).2 ::
                    (updFirstList tgt (metaRewrite g) cs).2) = none ∧ _) ∨ _
                rw [findNodeByPathList, findNodeByPathList, hr2eq]
                cases hfc : findNodeByPath tgt2 c with
                | some r =>
                  exact Or.inr ⟨r, r, rfl, rfl, Or.inl rfl, rfl⟩
                | none =>
                  rcases ihl (fun d hd => hall d (by simp [hd])) with ⟨hn2, hn⟩ |
                    ⟨r, r2, hr, hr2, hm12, hch⟩
                  · rw [hn, hn2]
                    exact Or.inl ⟨rfl, rfl⟩
                  · rw [hr, hr2]
                    exact Or.inr ⟨r, r2, rfl, rfl, hm12, hch⟩
          exact hlist ch (fun c hc => ih c hc)
      · rename_i hdir
        rw [show ((false : Bool), FileNode.mk m ch).2 = FileNode.mk m ch from rfl]
        cases hf : findNodeByPath tgt2 (.mk m ch) with
        | none => exact Or.inl ⟨rfl, rfl⟩
        | some r => exact Or.inr ⟨r, r, rfl, rfl, Or.inl rfl, rfl⟩

theorem applyAtM_path {g : FileMeta → FileMeta} (hgp : ∀ m, (g m).path = m.path)
    (tgt : String) (m : FileMeta) : (applyAtM tgt g m).path = m.path := by
  rw [applyAtM]
  split
  · exact hgp m
  · rfl

theorem applyAtM_isDir {g : FileMeta → FileMeta}
    (hgd : ∀ m, (g m).isDirectory = m.isDirectory) (tgt : String) (m : FileMeta) :
    (applyAtM tgt g m).isDirectory = m.isDirectory := by
  rw [applyAtM]
  split
  · exact hgd m
  · rfl

theorem map_map_eq {α β : Type} (h : α → α) (f : α → β) (l : List α)
    (hh : ∀ x ∈ l, f (h x) = f x) : (l.map h).map f = l.map f := by
  induction l with
  | nil => rfl
  | cons a as ih =>
    rw [List.map_cons, List.map_cons, List.map_cons, hh a (by simp),
      ih (fun x hx => hh x (by simp [hx]))]

/-- Folding path-targeted meta rewrites over a well-formed tree with
distinct normalize-fixed paths acts on the flat meta view as one `map`
of the composed per-meta function. -/
theorem flatMetas_foldUpd (g : FileMeta → FileMeta)
    (hgp : ∀ m, (g m).path = m.path) (hgd : ∀ m, (g m).isDirectory = m.isDirectory)
    (ps : List String) (t : FileNode) (hwf : wfNode t = true)
    (hnd : ((flatMetas t).map FileMeta.path).Nodup)
    (hfix : ∀ m ∈ flatMetas t, normalizePath m.path = m.path) :
    flatMetas (ps.foldl
      (fun t2 p => (updFirst (normalizePath p) (metaRewrite g) t2).2) t) =
    (flatMetas t).map (foldUpdM g ps) := by
  induction ps generalizing t with
  | nil =>
    rw [List.foldl_nil]
    symm
    apply map_eq_self_of
    intro x hx
    rfl
  | cons p ps ih =>
    rw [List.foldl_cons]
    have hA := updFirst_flatMetas (normalizePath p) g t hwf
      (countP_norm_le_one hfix hnd _)
    have hpaths : (flatMetas ((updFirst (normalizePath p) (metaRewrite g) t).2)).map
        FileMeta.path = (flatMetas t).map FileMeta.path := by
      rw [hA]
      exact map_map_eq _ _ _ (fun x hx => applyAtM_path hgp (normalizePath p) x)
    have hwf2 := updFirst_wf (normalizePath p) (metaRewrite g)
      (fun n => wf_metaRewrite g hgd n) t hwf
    have hnd2 : ((flatMetas ((updFirst (normalizePath p) (metaRewrite g) t).2)).map
        FileMeta.path).Nodup := by
      rw [hpaths]
      exact hnd
    have hfix2 : ∀ m ∈ flatMetas ((updFirst (normalizePath p) (metaRewrite g) t).2),
        normalizePath m.path = m.path := by
      intro m hm
      rw [hA] at hm
      obtain ⟨m0, hm0, rfl⟩ := List.mem_map.mp hm
      rw [applyAtM_path hgp]
      exact hfix m0 hm0
    rw [ih _ hwf2 hnd2 hfix2, hA, List.map_map]
    rfl

theorem pushDepM_path (np : String) (m : FileMeta) : (pushDepM np m).path = m.path := by
  rw [pushDepM]
  split
  · rfl
  · rfl

theorem pushDepM_isDir (np : String) (m : FileMeta) :
    (pushDepM np m).isDirectory = m.isDirectory := by
  rw [pushDepM]
  split
  · rfl
  · rfl

theorem remDependentM_path (rp : String) (m : FileMeta) :
    (remDependentM rp m).path = m.path := by
  rw [remDependentM]
  split
  · rfl
  · rfl

theorem remDependentM_isDir (rp : String) (m : FileMeta) :
    (remDependentM rp m).isDirectory = m.isDirectory := by
  rw [remDependentM]
  split
  · rfl
  · rfl

theorem remDependencyM_path (nr : String) (m : FileMeta) :
    (remDependencyM nr m).path = m.path := by
  rw [remDependencyM]
  split
  · rfl
  · rfl

theorem remDependencyM_isDir (nr : String) (m : FileMeta) :
    (remDependencyM nr m).isDirectory = m.isDirectory := by
  rw [remDependencyM]
  split
  · rfl
  · rfl

theorem recalcM_path (root : String) (m : FileMeta) : (recalcM root m).path = m.path := by
  rw [recalcM]
  split
  · rfl
  · rfl

theorem recalcM_isDir (root : String) (m : FileMeta) :
    (recalcM root m).isDirectory = m.isDirectory := by
  rw [recalcM]
  split
  · rfl
  · rfl

theorem pushDep_f_eq (np : String) :
    (fun n : FileNode => if n.isDirectory then n
      else FileNode.mk { n.meta with dependents := pushIfAbsent n.dependents np }
        n.children)
    = metaRewrite (pushDepM np) := by
  funext n
  cases n with
  | mk m ch =>
    show (if m.isDirectory then FileNode.mk m ch else _) = FileNode.mk (pushDepM np m) ch
    rw [pushDepM]
    by_cases hd : m.isDirectory
    · rw [if_pos hd, if_pos hd]
    · rw [if_neg hd, if_neg hd]
      rfl

theorem remDependent_f_eq (rp : String) :
    (fun n : FileNode => if n.isDirectory then n
      else FileNode.mk { n.meta with dependents := removeFirstEq n.dependents rp }
        n.children)
    = metaRewrite (remDependentM rp) := by
  funext n
  cases n with
  | mk m ch =>
    show (if m.isDirectory then FileNode.mk m ch else _) =
      FileNode.mk (remDependentM rp m) ch
    rw [remDependentM]
    by_cases hd : m.isDirectory
    · rw [if_pos hd, if_pos hd]
    · rw [if_neg hd, if_neg hd]
      rfl

theorem remDependency_f_eq (nr : String) :
    (fun n : FileNode => if n.isDirectory then n
      else FileNode.mk { n.meta with dependencies := removeFirstNormEq n.dependencies nr }
        n.children)
    = metaRewrite (remDependencyM nr) := by
  funext n
  cases n with
  | mk m ch =>
    show (if m.isDirectory then FileNode.mk m ch else _) =
      FileNode.mk (remDependencyM nr m) ch
    rw [remDependencyM]
    by_cases hd : m.isDirectory
    · rw [if_pos hd, if_pos hd]
    · rw [if_neg hd, if_neg hd]
      rfl

theorem recalc_f_eq (root : String) :
    (fun n : FileNode => if n.isDirectory then n
      else FileNode.mk
        { n.meta with importance := some (calculateNodeImportance n.meta root) }
        n.children)
    = metaRewrite (recalcM root) := by
  funext n
  cases n with
  | mk m ch =>
    show (if m.isDirectory then FileNode.mk m ch else _) =
      FileNode.mk (recalcM root m) ch
    rw [recalcM]
    by_cases hd : m.isDirectory
    · rw [if_pos hd, if_pos hd]
    · rw [if_neg hd, if_neg hd]
      rfl

theorem flatMetas_updateDependentsForNewNode (np : String) (deps : List String)
    (t : FileNode) (hwf : wfNode t = true)
    (hnd : ((flatMetas t).map FileMeta.path).Nodup)
    (hfix : ∀ m ∈ flatMetas t, normalizePath m.path = m.path) :
    flatMetas (updateDependentsForNewNode np deps t) =
      (flatMetas t).map (foldUpdM (pushDepM np) deps) := by
  rw [updateDependentsForNewNode, pushDep_f_eq np]
  exact flatMetas_foldUpd (pushDepM np) (pushDepM_path np) (pushDepM_isDir np)
    deps t hwf hnd hfix

theorem flatMetas_updateDependentsAfterRemoval (rp : String) (deps : List String)
    (t : FileNode) (hwf : wfNode t = true)
    (hnd : ((flatMetas t).map FileMeta.path).Nodup)
    (hfix : ∀ m ∈ flatMetas t, normalizePath m.path = m.path) :
    flatMetas (updateDependentsAfterRemoval rp deps t) =
      (flatMetas t).map (foldUpdM (remDependentM rp) deps) := by
  rw [updateDependentsAfterRemoval, remDependent_f_eq rp]
  exact flatMetas_foldUpd (remDependentM rp) (remDependentM_path rp)
    (remDependentM_isDir rp) deps t hwf hnd hfix

theorem flatMetas_updateDependersAfterRemoval (rp : String) (depnts : List String)
    (t : FileNode) (hwf : wfNode t = true)
    (hnd : ((flatMetas t).map FileMeta.path).Nodup)
    (hfix : ∀ m ∈ flatMetas t, normalizePath m.path = m.path) :
    flatMetas (updateDependersAfterRemoval rp depnts t) =
      (flatMetas t).map (foldUpdM (remDependencyM (normalizePath rp)) depnts) := by
  rw [updateDependersAfterRemoval, remDependency_f_eq (normalizePath rp)]
  exact flatMetas_foldUpd (remDependencyM (normalizePath rp))
    (remDependencyM_path _) (remDependencyM_isDir _) depnts t hwf hnd hfix

theorem flatMetas_recalculateImportanceForAffected (paths : List String)
    (t : FileNode) (root : String) (hwf : wfNode t = true)
    (hnd : ((flatMetas t).map FileMeta.path).Nodup)
    (hfix : ∀ m ∈ flatMetas t, normalizePath m.path = m.path) :
    flatMetas (recalculateImportanceForAffected paths t root) =
      (flatMetas t).map (foldUpdM (recalcM root) (dedupKeepFirst paths)) := by
  rw [recalculateImportanceForAffected, recalc_f_eq root]
  exact flatMetas_foldUpd (recalcM root) (recalcM_path root) (recalcM_isDir root)
    (dedupKeepFirst paths) t hwf hnd hfix

theorem pushDepM_dependencies (np : String) (m : FileMeta) :
    (pushDepM np m).dependencies = m.dependencies := by
  rw [pushDepM]
  split
  · rfl
  · rfl

theorem remDependentM_dependencies (rp : String) (m : FileMeta) :
    (remDependentM rp m).dependencies = m.dependencies := by
  rw [remDependentM]
  split
  · rfl
  · rfl

theorem remDependencyM_dependents (nr : String) (m : FileMeta) :
    (remDependencyM nr m).dependents = m.dependents := by
  rw [remDependencyM]
  split
  · rfl
  · rfl

theorem recalcM_dependencies (root : String) (m : FileMeta) :
    (recalcM root m).dependencies = m.dependencies := by
  rw [recalcM]
  split
  · rfl
  · rfl

theorem recalcM_dependents (root : String) (m : FileMeta) :
    (recalcM root m).dependents = m.dependents := by
  rw [recalcM]
  split
  · rfl
  · rfl

theorem applyAtM_dependencies {g : FileMeta → FileMeta}
    (hg : ∀ m, (g m).dependencies = m.dependencies) (tgt : String) (m : FileMeta) :
    (applyAtM tgt g m).dependencies = m.dependencies := by
  rw [applyAtM]
  split
  · exact hg m
  · rfl

theorem applyAtM_dependents {g : FileMeta → FileMeta}
    (hg : ∀ m, (g m).dependents = m.dependents) (tgt : String) (m : FileMeta) :
    (applyAtM tgt g m).dependents = m.dependents := by
  rw [applyAtM]
  split
  · exact hg m
  · rfl

theorem applyAtM_pushDep_dependents (tgt np : String) (m : FileMeta) (x : String) :
    x ∈ (applyAtM tgt (pushDepM np) m).dependents ↔
      x ∈ m.dependents ∨
        (x = np ∧ m.isDirectory = false ∧ normalizePath m.path = tgt) := by
  rw [applyAtM]
  split
  · rename_i hm
    rw [pushDepM]
    split
    · rename_i hd
      simp [hd]
    · rename_i hd
      have hd2 : m.isDirectory = false := by simpa using hd
      show x ∈ pushIfAbsent m.dependents np ↔ _
      rw [pushIfAbsent_mem]
      simp [hd2, hm]
  · rename_i hm
    simp [hm]

theorem foldUpdM_pushDep_char (np : String) (ds : List String) (m : FileMeta) :
    (foldUpdM (pushDepM np) ds m).path = m.path ∧
    (foldUpdM (pushDepM np) ds m).isDirectory = m.isDirectory ∧
    (foldUpdM (pushDepM np) ds m).dependencies = m.dependencies ∧
    ∀ x, (x ∈ (foldUpdM (pushDepM np) ds m).dependents ↔
      x ∈ m.dependents ∨ (x = np ∧ m.isDirectory = false ∧
        ∃ d ∈ ds, normalizePath m.path = normalizePath d)) := by
  induction ds generalizing m with
  | nil =>
    refine ⟨rfl, rfl, rfl, fun x => ?_⟩
    simp [foldUpdM]
  | cons d ds ih =>
    have hstep_path := applyAtM_path (pushDepM_path np) (normalizePath d) m
    have hstep_dir := applyAtM_isDir (pushDepM_isDir np) (normalizePath d) m
    have hstep_deps :=
      applyAtM_dependencies (pushDepM_dependencies np) (normalizePath d) m
    obtain ⟨h1, h2, h3, h4⟩ := ih (applyAtM (normalizePath d) (pushDepM np) m)
    have hfold : foldUpdM (pushDepM np) (d :: ds) m =
        foldUpdM (pushDepM np) ds (applyAtM (normalizePath d) (pushDepM np) m) := rfl
    refine ⟨?_, ?_, ?_, fun x => ?_⟩
    · rw [hfold, h1, hstep_path]
    · rw [hfold, h2, hstep_dir]
    · rw [hfold, h3, hstep_deps]
    · rw [hfold, h4 x, applyAtM_pushDep_dependents, hstep_dir, hstep_path]
      constructor
      · rintro ((hx | ⟨rfl, hdir, hd⟩) | ⟨rfl, hdir, d2, hd2, hnd2⟩)
        · exact Or.inl hx
        · exact Or.inr ⟨rfl, hdir, d, by simp, hd⟩
        · exact Or.inr ⟨rfl, hdir, d2, by simp [hd2], hnd2⟩
      · rintro (hx | ⟨rfl, hdir, d2, hd2, hnd2⟩)
        · exact Or.inl (Or.inl hx)
        · rcases List.mem_cons.mp hd2 with rfl | hd2
          · exact Or.inl (Or.inr ⟨rfl, hdir, hnd2⟩)
          · exact Or.inr ⟨rfl, hdir, d2, hd2, hnd2⟩

theorem applyAtM_remDependent_dependents (tgt rp : String) {x : String} (hx : x ≠ rp)
    (m : FileMeta) :
    x ∈ (applyAtM tgt (remDependentM rp) m).dependents ↔ x ∈ m.dependents := by
  rw [applyAtM]
  split
  · rw [remDependentM]
    split
    · exact Iff.rfl
    · show x ∈ removeFirstEq m.dependents rp ↔ _
      exact removeFirstEq_mem_ne hx _
  · exact Iff.rfl

theorem foldUpdM_remDependent_char (rp : String) (ds : List String) (m : FileMeta) :
    (foldUpdM (remDependentM rp) ds m).path = m.path ∧
    (foldUpdM (remDependentM rp) ds m).isDirectory = m.isDirectory ∧
    (foldUpdM (remDependentM rp) ds m).dependencies = m.dependencies ∧
    ∀ x, x ≠ rp → (x ∈ (foldUpdM (remDependentM rp) ds m).dependents ↔
      x ∈ m.dependents) := by
  induction ds generalizing m with
  | nil => exact ⟨rfl, rfl, rfl, fun x _ => Iff.rfl⟩
  | cons d ds ih =>
    obtain ⟨h1, h2, h3, h4⟩ := ih (applyAtM (normalizePath d) (remDependentM rp) m)
    have hfold : foldUpdM (remDependentM rp) (d :: ds) m =
        foldUpdM (remDependentM rp) ds
          (applyAtM (normalizePath d) (remDependentM rp) m) := rfl
    refine ⟨?_, ?_, ?_, fun x hx => ?_⟩
    · rw [hfold, h1, applyAtM_path (remDependentM_path rp)]
    · rw [hfold, h2, applyAtM_isDir (remDependentM_isDir rp)]
    · rw [hfold, h3, applyAtM_dependencies (remDependentM_dependencies rp)]
    · rw [hfold, h4 x hx, applyAtM_remDependent_dependents _ _ hx]

theorem applyAtM_remDependency_dependencies (tgt nr : String) {x : String}
    (hx : normalizePath x ≠ nr) (m : FileMeta) :
    x ∈ (applyAtM tgt (remDependencyM nr) m).dependencies ↔ x ∈ m.dependencies := by
  rw [applyAtM]
  split
  · rw [remDependencyM]
    split
    · exact Iff.rfl
    · show x ∈ removeFirstNormEq m.dependencies nr ↔ _
      exact removeFirstNormEq_mem_ne hx _
  · exact Iff.rfl

theorem foldUpdM_remDependency_char (nr : String) (ps : List String) (m : FileMeta) :
    (foldUpdM (remDependencyM nr) ps m).path = m.path ∧
    (foldUpdM (remDependencyM nr) ps m).isDirectory = m.isDirectory ∧
    (foldUpdM (remDependencyM nr) ps m).dependents = m.dependents ∧
    ∀ x, normalizePath x ≠ nr →
      (x ∈ (foldUpdM (remDependencyM nr) ps m).dependencies ↔ x ∈ m.dependencies) := by
  induction ps generalizing m with
  | nil => exact ⟨rfl, rfl, rfl, fun x _ => Iff.rfl⟩
  | cons p ps ih =>
    obtain ⟨h1, h2, h3, h4⟩ := ih (applyAtM (normalizePath p) (remDependencyM nr) m)
    have hfold : foldUpdM (remDependencyM nr) (p :: ps) m =
        foldUpdM (remDependencyM nr) ps
          (applyAtM (normalizePath p) (remDependencyM nr) m) := rfl
    refine ⟨?_, ?_, ?_, fun x hx => ?_⟩
    · rw [hfold, h1, applyAtM_path (remDependencyM_path nr)]
    · rw [hfold, h2, applyAtM_isDir (remDependencyM_isDir nr)]
    · rw [hfold, h3, applyAtM_dependents (remDependencyM_dependents nr)]
    · rw [hfold, h4 x hx, applyAtM_remDependency_dependencies _ _ hx]

theorem foldUpdM_recalc_char (root : String) (ps : List String) (m : FileMeta) :
    (foldUpdM (recalcM root) ps m).path = m.path ∧
    (foldUpdM (recalcM root) ps m).isDirectory = m.isDirectory ∧
    (foldUpdM (recalcM root) ps m).dependencies = m.dependencies ∧
    (foldUpdM (recalcM root) ps m).dependents = m.dependents := by
  induction ps generalizing m with
  | nil => exact ⟨rfl, rfl, rfl, rfl⟩
  | cons p ps ih =>
    obtain ⟨h1, h2, h3, h4⟩ := ih (applyAtM (normalizePath p) (recalcM root) m)
    have hfold : foldUpdM (recalcM root) (p :: ps) m =
        foldUpdM (recalcM root) ps (applyAtM (normalizePath p) (recalcM root) m) := rfl
    refine ⟨?_, ?_, ?_, ?_⟩
    · rw [hfold, h1, applyAtM_path (recalcM_path root)]
    · rw [hfold, h2, applyAtM_isDir (recalcM_isDir root)]
    · rw [hfold, h3, applyAtM_dependencies (recalcM_dependencies root)]
    · rw [hfold, h4, applyAtM_dependents (recalcM_dependents root)]

/-! ## `buildDependentMap`: state characterization -/

theorem findIdx?_some_spec {α : Type} {p : α → Bool} {l : List α} {i : Nat}
    (h : l.findIdx? p = some i) : ∃ h2 : i < l.length, p (l.get ⟨i, h2⟩) = true := by
  rw [List.findIdx?_eq_some_iff_findIdx_eq] at h
  obtain ⟨hlen, hidx⟩ := h
  have h2 := (List.findIdx_eq hlen).mp hidx
  exact ⟨hlen, by simpa [List.get_eq_getElem] using h2.1⟩

theorem findIdx?_none_spec {α : Type} {p : α → Bool} {l : List α}
    (h : l.findIdx? p = none) : ∀ x ∈ l, p x = false :=
  List.findIdx?_eq_none_iff.mp h

theorem nodup_get_inj {α : Type} {l : List α} (hnd : l.Nodup) {i j : Nat}
    {hi : i < l.length} {hj : j < l.length} (h : l.get ⟨i, hi⟩ = l.get ⟨j, hj⟩) :
    i = j := by
  rw [List.get_eq_getElem, List.get_eq_getElem] at h
  exact (List.Nodup.getElem_inj_iff hnd).mp h

theorem path_index_inj {files : List FileNode} (hnd : (files.map FileNode.path).Nodup)
    {i j : Nat} {hi : i < files.length} {hj : j < files.length}
    (h : (files.get ⟨i, hi⟩).path = (files.get ⟨j, hj⟩).path) : i = j := by
  have hm : (files.map FileNode.path).get ⟨i, by simpa using hi⟩ =
      (files.map FileNode.path).get ⟨j, by simpa using hj⟩ := by
    rw [List.get_eq_getElem, List.get_eq_getElem, List.getElem_map, List.getElem_map]
    rw [List.get_eq_getElem, List.get_eq_getElem] at h
    exact h
  exact nodup_get_inj hnd hm

theorem nodup_map_inj_mem {α β : Type} {f : α → β} {l : List α}
    (hnd : (l.map f).Nodup) {a b : α} (ha : a ∈ l) (hb : b ∈ l) (hf : f a = f b) :
    a = b := by
  induction l with
  | nil => cases ha
  | cons c cs ih =>
    rw [List.map_cons, List.nodup_cons] at hnd
    rcases List.mem_cons.mp ha with rfl | ha2 <;> rcases List.mem_cons.mp hb with rfl | hb2
    · rfl
    · exact absurd (List.mem_map.mpr ⟨b, hb2, hf.symm⟩) hnd.1
    · exact absurd (List.mem_map.mpr ⟨a, ha2, hf⟩) hnd.1
    · exact ih hnd.2 ha2 hb2

theorem lastIdxOfPath_some {files : List FileNode} {d : String} {j : Nat}
    (h : lastIdxOfPath files d = some j) :
    ∃ hj : j < files.length, (files.get ⟨j, hj⟩).path = d := by
  rw [lastIdxOfPath] at h
  cases hf : files.reverse.findIdx? (fun n => n.path = d) with
  | none => rw [hf] at h; cases h
  | some i =>
    rw [hf] at h
    cases h
    obtain ⟨hi, hpi⟩ := findIdx?_some_spec hf
    have hi2 : i < files.length := by simpa using hi
    have hj : files.length - 1 - i < files.length := by omega
    refine ⟨hj, ?_⟩
    have hrev : files.reverse.get ⟨i, hi⟩ = files.get ⟨files.length - 1 - i, hj⟩ := by
      rw [List.get_eq_getElem, List.get_eq_getElem]
      exact List.getElem_reverse _
    rw [hrev] at hpi
    simpa using hpi

theorem lastIdxOfPath_none {files : List FileNode} {d : String}
    (h : lastIdxOfPath files d = none) : ∀ F ∈ files, F.path ≠ d := by
  rw [lastIdxOfPath] at h
  cases hf : files.reverse.findIdx? (fun n => n.path = d) with
  | some i => rw [hf] at h; cases h
  | none =>
    intro F hF
    have h2 := findIdx?_none_spec hf F (List.mem_reverse.mpr hF)
    simpa using h2

theorem getD_set {l : List (List String)} {j : Nat} (hj : j < l.length)
    (v : List String) (i : Nat) :
    (l.set j v).getD i [] = if j = i then v else l.getD i [] := by
  rw [List.getD_eq_getElem?_getD, List.getD_eq_getElem?_getD, List.getElem?_set]
  by_cases hji : j = i
  · subst hji
    simp [hj]
  · simp [hji]

theorem bdmPushDep_length (files : List FileNode) (fp : String)
    (st : List (List String)) (d : String) :
    (bdmPushDep files fp st d).length = st.length := by
  rw [bdmPushDep]
  cases lastIdxOfPath files d with
  | none => rfl
  | some j => simp [modifyIdx]

theorem foldl_bdmPushDep_length (files : List FileNode) (fp : String) :
    ∀ (ds : List String) (st : List (List String)),
      (ds.foldl (bdmPushDep files fp) st).length = st.length := by
  intro ds
  induction ds with
  | nil => intro st; rfl
  | cons d ds ih =>
    intro st
    rw [List.foldl_cons, ih, bdmPushDep_length]

theorem bdmPushDep_getD (files : List FileNode)
    (hnd : (files.map FileNode.path).Nodup) (fp : String) (st : List (List String))
    (hlen : st.length = files.length) (d : String) (i : Nat) (hi : i < files.length)
    (x : String) :
    x ∈ (bdmPushDep files fp st d).getD i [] ↔
      x ∈ st.getD i [] ∨ (x = fp ∧ (files.get ⟨i, hi⟩).path = d) := by
  rw [bdmPushDep]
  cases h : lastIdxOfPath files d with
  | none =>
    simp only
    constructor
    · exact Or.inl
    · rintro (hx | ⟨rfl, hp⟩)
      · exact hx
      · exact absurd hp (lastIdxOfPath_none h _ (List.get_mem _ _ _))
  | some j =>
    obtain ⟨hj, hdj⟩ := lastIdxOfPath_some h
    show x ∈ (modifyIdx st j (fun deps => pushIfAbsent deps fp)).getD i [] ↔ _
    rw [modifyIdx, getD_set (by omega) _ i]
    by_cases hji : j = i
    · subst hji
      rw [if_pos rfl, pushIfAbsent_mem]
      rw [List.get_eq_getElem] at hdj
      simp [hdj]
    · rw [if_neg hji]
      constructor
      · exact Or.inl
      · rintro (hx | ⟨rfl, hp⟩)
        · exact hx
        · exact absurd (@path_index_inj files hnd i j hi hj (by rw [hp, hdj]))
            (fun he => hji he.symm)

theorem bdmProcessFile_fold_getD (files : List FileNode)
    (hnd : (files.map FileNode.path).Nodup) (fp : String) :
    ∀ (ds : List String) (st : List (List String)), st.length = files.length →
      ∀ (i : Nat) (hi : i < files.length) (x : String),
      (x ∈ (ds.foldl (bdmPushDep files fp) st).getD i [] ↔
        x ∈ st.getD i [] ∨ (x = fp ∧ ∃ d ∈ ds, (files.get ⟨i, hi⟩).path = d)) := by
  intro ds
  induction ds with
  | nil =>
    intro st hlen i hi x
    simp
  | cons d ds ih =>
    intro st hlen i hi x
    rw [List.foldl_cons]
    have hlen2 : (bdmPushDep files fp st d).length = files.length := by
      rw [bdmPushDep_length, hlen]
    rw [ih _ hlen2 i hi x, bdmPushDep_getD files hnd fp st hlen d i hi x]
    constructor
    · rintro ((hx | ⟨rfl, hp⟩) | ⟨rfl, d2, hd2, hp2⟩)
      · exact Or.inl hx
      · exact Or.inr ⟨rfl, d, by simp, hp⟩
      · exact Or.inr ⟨rfl, d2, by simp [hd2], hp2⟩
    · rintro (hx | ⟨rfl, d2, hd2, hp2⟩)
      · exact Or.inl (Or.inl hx)
      · rcases List.mem_cons.mp hd2 with rfl | hd2
        · exact Or.inl (Or.inr ⟨rfl, hp2⟩)
        · exact Or.inr ⟨rfl, d2, hd2, hp2⟩

theorem bdmProcessFile_length (files : List FileNode) (st : List (List String))
    (F : FileNode) : (bdmProcessFile files st F).length = st.length := by
  rw [bdmProcessFile]
  rw [foldl_bdmPushDep_length]

theorem buildDependentState_fold_getD (files : List FileNode)
    (hnd : (files.map FileNode.path).Nodup) :
    ∀ (fs : List FileNode) (st : List (List String)), st.length = files.length →
      ∀ (i : Nat) (hi : i < files.length) (x : String),
      (x ∈ (fs.foldl (bdmProcessFile files) st).getD i [] ↔
        x ∈ st.getD i [] ∨
          ∃ F ∈ fs, F.path = x ∧ (files.get ⟨i, hi⟩).path ∈ F.dependencies) := by
  intro fs
  induction fs with
  | nil =>
    intro st hlen i hi x
    simp
  | cons F fs ih =>
    intro st hlen i hi x
    rw [List.foldl_cons]
    have hlen2 : (bdmProcessFile files st F).length = files.length := by
      rw [bdmProcessFile_length, hlen]
    rw [ih _ hlen2 i hi x,
      show bdmProcessFile files st F = F.dependencies.foldl (bdmPushDep files F.path) st
        from rfl,
      bdmProcessFile_fold_getD files hnd F.path F.dependencies st hlen i hi x]
    constructor
    · rintro ((hx | ⟨rfl, d, hd, hp⟩) | ⟨F2, hF2, hp2, hdep⟩)
      · exact Or.inl hx
      · exact Or.inr ⟨F, by simp, rfl, by rw [hp]; exact hd⟩
      · exact Or.inr ⟨F2, by simp [hF2], hp2, hdep⟩
    · rintro (hx | ⟨F2, hF2, hp2, hdep⟩)
      · exact Or.inl (Or.inl hx)
      · rcases List.mem_cons.mp hF2 with rfl | hF2
        · exact Or.inl (Or.inr ⟨hp2.symm, (files.get ⟨i, hi⟩).path, hdep, rfl⟩)
        · exact Or.inr ⟨F2, hF2, hp2, hdep⟩

theorem buildDependentState_getD (files : List FileNode)
    (hnd : (files.map FileNode.path).Nodup)
    (hemp : ∀ F ∈ files, F.dependents = [])
    (i : Nat) (hi : i < files.length) (x : String) :
    x ∈ (buildDependentState files).getD i [] ↔
      ∃ F ∈ files, F.path = x ∧ (files.get ⟨i, hi⟩).path ∈ F.dependencies := by
  rw [buildDependentState,
    buildDependentState_fold_getD files hnd files _ (by simp) i hi x]
  have hinit : (files.map (fun n => n.dependents)).getD i [] = [] := by
    rw [List.getD_eq_getElem?_getD, List.getElem?_map,
      List.getElem?_eq_getElem hi]
    show (files.get ⟨i, hi⟩).dependents = []
    exact hemp _ (List.get_mem _ _ _)
  rw [hinit]
  simp

theorem buildDependentState_length (files : List FileNode) :
    (buildDependentState files).length = files.length := by
  rw [buildDependentState]
  have h : ∀ (fs : List FileNode) (st : List (List String)),
      (fs.foldl (bdmProcessFile files) st).length = st.length := by
    intro fs
    induction fs with
    | nil => intro st; rfl
    | cons F fs ih =>
      intro st
      rw [List.foldl_cons, ih, bdmProcessFile_length]
  rw [h]
  simp

theorem mem_installDependents {files : List FileNode} {st : List (List String)}
    (hlen : st.length = files.length) {A : FileNode} :
    A ∈ installDependents files st ↔
      ∃ i, ∃ hi : i < files.length,
        A = FileNode.mk { (files.get ⟨i, hi⟩).meta with dependents := st.getD i [] }
          (files.get ⟨i, hi⟩).children := by
  rw [installDependents]
  constructor
  · intro hA
    obtain ⟨p, hp, rfl⟩ := List.mem_map.mp hA
    obtain ⟨i, hilen, hpi⟩ := List.mem_iff_getElem.mp hp
    have hi : i < files.length := by
      rw [List.length_zip, hlen] at hilen
      simpa using hilen
    refine ⟨i, hi, ?_⟩
    rw [← hpi, List.getElem_zip]
    rw [List.get_eq_getElem,
      List.getD_eq_getElem?_getD, List.getElem?_eq_getElem (by omega)]
    rfl
  · rintro ⟨i, hi, rfl⟩
    have hilen : i < (files.zip st).length := by
      rw [List.length_zip, hlen]
      simpa using hi
    refine List.mem_map.mpr ⟨(files.get ⟨i, hi⟩, st.getD i []), ?_, rfl⟩
    rw [List.mem_iff_getElem]
    refine ⟨i, hilen, ?_⟩
    rw [List.getElem_zip]
    rw [List.get_eq_getElem, List.getD_eq_getElem?_getD,
      List.getElem?_eq_getElem (by omega)]
    rfl

/-- After `buildDependentMap` on a tree with distinct file paths and
freshly scanned (empty) `dependents` lists, the dependent edges are
exactly the reverse dependency edges: the graph is symmetric. -/
theorem buildDependentMap_symmetric (root : FileNode)
    (hnd : ((getAllFileNodes root).map FileNode.path).Nodup)
    (hemp : ∀ F ∈ getAllFileNodes root, F.dependents = []) :
    SymNodes (buildDependentMap root) := by
  intro a ha hda b hb hdb
  rw [buildDependentMap] at ha hb
  have hlen := buildDependentState_length (getAllFileNodes root)
  obtain ⟨i, hi, rfl⟩ := (mem_installDependents hlen).mp ha
  obtain ⟨j, hj, rfl⟩ := (mem_installDependents hlen).mp hb
  show ((getAllFileNodes root).get ⟨j, hj⟩).path ∈
      (buildDependentState (getAllFileNodes root)).getD i [] ↔
    ((getAllFileNodes root).get ⟨i, hi⟩).path ∈
      ((getAllFileNodes root).get ⟨j, hj⟩).dependencies
  rw [buildDependentState_getD (getAllFileNodes root) hnd hemp i hi]
  constructor
  · rintro ⟨F, hF, hFp, hFd⟩
    have he : F = (getAllFileNodes root).get ⟨j, hj⟩ :=
      nodup_map_inj_mem hnd hF (List.get_mem _ _ _) (by rw [hFp])
    rw [← he]
    exact hFd
  · intro hd
    exact ⟨(getAllFileNodes root).get ⟨j, hj⟩, List.get_mem _ _ _, rfl, hd⟩

theorem foldUpd_wf (g : FileMeta → FileMeta)
    (hgd : ∀ m, (g m).isDirectory = m.isDirectory) (ps : List String) (t : FileNode)
    (hwf : wfNode t = true) :
    wfNode (ps.foldl
      (fun t2 p => (updFirst (normalizePath p) (metaRewrite g) t2).2) t) = true := by
  induction ps generalizing t with
  | nil => exact hwf
  | cons p ps ih =>
    rw [List.foldl_cons]
    exact ih _ (updFirst_wf (normalizePath p) (metaRewrite g)
      (fun n => wf_metaRewrite g hgd n) t hwf)

theorem wf_updateDependentsForNewNode (np : String) (deps : List String)
    (t : FileNode) (hwf : wfNode t = true) :
    wfNode (updateDependentsForNewNode np deps t) = true := by
  rw [updateDependentsForNewNode, pushDep_f_eq np]
  exact foldUpd_wf (pushDepM np) (pushDepM_isDir np) deps t hwf

theorem wf_updateDependentsAfterRemoval (rp : String) (deps : List String)
    (t : FileNode) (hwf : wfNode t = true) :
    wfNode (updateDependentsAfterRemoval rp deps t) = true := by
  rw [updateDependentsAfterRemoval, remDependent_f_eq rp]
  exact foldUpd_wf (remDependentM rp) (remDependentM_isDir rp) deps t hwf

theorem wf_updateDependersAfterRemoval (rp : String) (depnts : List String)
    (t : FileNode) (hwf : wfNode t = true) :
    wfNode (updateDependersAfterRemoval rp depnts t) = true := by
  rw [updateDependersAfterRemoval, remDependency_f_eq (normalizePath rp)]
  exact foldUpd_wf (remDependencyM (normalizePath rp)) (remDependencyM_isDir _)
    depnts t hwf

/-- The flat meta list after the add pipeline: one fresh file meta in
front, and every old meta rewritten by the dependent-push composite.
This list is symmetric whenever the old one was. -/
theorem symMetas_add_final (nrm : String) (deps : List String) (L : List FileMeta)
    (F : FileMeta → FileMeta) (nm : FileMeta)
    (hchar : ∀ m, (F m).path = m.path ∧ (F m).isDirectory = m.isDirectory ∧
      (F m).dependencies = m.dependencies ∧
      ∀ x, (x ∈ (F m).dependents ↔ x ∈ m.dependents ∨
        (x = nrm ∧ m.isDirectory = false ∧
          ∃ d ∈ deps, normalizePath m.path = normalizePath d)))
    (hsym : SymMetas L) (hfix : ∀ m ∈ L, normalizePath m.path = m.path)
    (hdep : ∀ d ∈ deps, normalizePath d = d) (hidem : normalizePath nrm = nrm)
    (hfresh : nrm ∉ L.map FileMeta.path)
    (hnoref : ∀ m ∈ L, nrm ∉ m.dependents ∧ nrm ∉ m.dependencies)
    (hnm_path : nm.path = nrm) (hnm_dir : nm.isDirectory = false)
    (hnm_deps : nm.dependencies = deps) (hnm_dept : nm.dependents = []) :
    SymMetas (F nm :: L.map F) := by
  intro a ha hda b hb hdb
  rcases List.mem_cons.mp ha with rfl | ha2
  · rcases List.mem_cons.mp hb with rfl | hb2
    · obtain ⟨c1, c2, c3, c4⟩ := hchar nm
      rw [c1, c3, hnm_path, hnm_deps, c4 nrm, hnm_dept, hnm_dir, hnm_path]
      constructor
      · rintro (hx | ⟨-, -, d, hd, he⟩)
        · simp at hx
        · rw [hidem, hdep d hd] at he
          rw [he]
          exact hd
      · intro hd
        exact Or.inr ⟨rfl, rfl, nrm, hd, by rw [hidem]⟩
    · obtain ⟨m, hm, rfl⟩ := List.mem_map.mp hb2
      obtain ⟨c1, c2, c3, c4⟩ := hchar nm
      obtain ⟨d1, d2, d3, d4⟩ := hchar m
      rw [d1, c1, hnm_path, d3, c4 m.path, hnm_dept]
      constructor
      · rintro (hx | ⟨hmp, -, -⟩)
        · simp at hx
        · exact absurd (by rw [← hmp]; exact List.mem_map.mpr ⟨m, hm, rfl⟩) hfresh
      · intro hx
        exact absurd hx (hnoref m hm).2
  · obtain ⟨m, hm, rfl⟩ := List.mem_map.mp ha2
    rcases List.mem_cons.mp hb with rfl | hb2
    · obtain ⟨c1, c2, c3, c4⟩ := hchar nm
      obtain ⟨d1, d2, d3, d4⟩ := hchar m
      rw [c1, hnm_path, d1, c3, hnm_deps, d4 nrm]
      have hdir : m.isDirectory = false := by rw [← d2]; exact hda
      constructor
      · rintro (hx | ⟨-, -, d, hd, he⟩)
        · exact absurd hx (hnoref m hm).1
        · rw [hfix m hm, hdep d hd] at he
          rw [he]
          exact hd
      · intro hx
        exact Or.inr ⟨rfl, hdir, m.path, hx, rfl⟩
    · obtain ⟨m2, hm2, rfl⟩ := List.mem_map.mp hb2
      obtain ⟨d1, d2, d3, d4⟩ := hchar m
      obtain ⟨e1, e2, e3, e4⟩ := hchar m2
      rw [e1, d1, e3, d4 m2.path]
      have hdir : m.isDirectory = false := by rw [← d2]; exact hda
      have hdir2 : m2.isDirectory = false := by rw [← e2]; exact hdb
      constructor
      · rintro (hx | ⟨hx, -, -⟩)
        · exact (hsym m hm hdir m2 hm2 hdir2).mp hx
        · exact absurd (by rw [← hx]; exact List.mem_map.mpr ⟨m2, hm2, rfl⟩) hfresh
      · intro hx
        exact Or.inl ((hsym m hm hdir m2 hm2 hdir2).mpr hx)

/-- The add pipeline (insert sorted child, push dependent edges,
recalculate importances) preserves symmetry of the flattened metas. -/
theorem add_pipeline_symmetric (filePath tgt2 : String) (nm : FileMeta)
    (tree parent : FileNode) (deps : List String) (projectRoot : String)
    (hfind : findNodeByPath tgt2 tree = some parent) (hpd : parent.isDirectory = true)
    (hnm_path : nm.path = normalizePath filePath)
    (hnm_dir : nm.isDirectory = false)
    (hnm_deps : nm.dependencies = deps)
    (hnm_dept : nm.dependents = [])
    (hwf : wfNode tree = true)
    (hnd : ((flatMetas tree).map FileMeta.path).Nodup)
    (hfix : ∀ m ∈ flatMetas tree, normalizePath m.path = m.path)
    (hsym : SymMetas (flatMetas tree))
    (hdep : ∀ d ∈ deps, normalizePath d = d)
    (hidem : normalizePath (normalizePath filePath) = normalizePath filePath)
    (hfresh : normalizePath filePath ∉ (flatMetas tree).map FileMeta.path)
    (hnoref : ∀ m ∈ flatMetas tree,
      normalizePath filePath ∉ m.dependents ∧ normalizePath filePath ∉ m.dependencies) :
    SymMetas (flatMetas (recalculateImportanceForAffected
      (normalizePath filePath :: deps.map normalizePath)
      (updateDependentsForNewNode (normalizePath filePath) deps
        ((updFirst tgt2 (insertChildF (FileNode.mk nm [])) tree).2))
      projectRoot)) := by
  have hins := updFirst_insert_char tgt2 (FileNode.mk nm []) hfind hpd
  have hper1 : (flatMetas ((updFirst tgt2 (insertChildF (FileNode.mk nm [])) tree).2)).Perm
      (nm :: flatMetas tree) := hins.1
  have hwfN : wfNode (FileNode.mk nm []) = true := by
    rw [wfNode]
    simp [wfNodeList]
  have hwf1 := updFirst_wf tgt2 (insertChildF (FileNode.mk nm []))
    (fun n hn => wf_insertChildF _ hwfN n hn) tree hwf
  have hnd1 : ((flatMetas ((updFirst tgt2 (insertChildF (FileNode.mk nm []))
      tree).2)).map FileMeta.path).Nodup := by
    rw [(hper1.map FileMeta.path).nodup_iff, List.map_cons]
    exact List.nodup_cons.mpr ⟨by rw [hnm_path]; exact hfresh, hnd⟩
  have hfix1 : ∀ m ∈ flatMetas ((updFirst tgt2 (insertChildF (FileNode.mk nm []))
      tree).2), normalizePath m.path = m.path := by
    intro m hm
    rcases List.mem_cons.mp (hper1.subset hm) with rfl | hm2
    · rw [hnm_path]
      exact hidem
    · exact hfix m hm2
  have h2 := flatMetas_updateDependentsForNewNode (normalizePath filePath) deps
    _ hwf1 hnd1 hfix1
  have hwf2 := wf_updateDependentsForNewNode (normalizePath filePath) deps _ hwf1
  have hpaths2 : (flatMetas (updateDependentsForNewNode (normalizePath filePath) deps
      ((updFirst tgt2 (insertChildF (FileNode.mk nm [])) tree).2))).map FileMeta.path =
      (flatMetas ((updFirst tgt2 (insertChildF (FileNode.mk nm []))
        tree).2)).map FileMeta.path := by
    rw [h2]
    exact map_map_eq _ _ _
      (fun x hx => (foldUpdM_pushDep_char (normalizePath filePath) deps x).1)
  have hnd2 : ((flatMetas (updateDependentsForNewNode (normalizePath filePath) deps
      ((updFirst tgt2 (insertChildF (FileNode.mk nm []))
        tree).2))).map FileMeta.path).Nodup := by
    rw [hpaths2]
    exact hnd1
  have hfix2 : ∀ m ∈ flatMetas (updateDependentsForNewNode (normalizePath filePath)
      deps ((updFirst tgt2 (insertChildF (FileNode.mk nm [])) tree).2)),
      normalizePath m.path = m.path := by
    intro m hm
    rw [h2] at hm
    obtain ⟨m0, hm0, rfl⟩ := List.mem_map.mp hm
    rw [(foldUpdM_pushDep_char (normalizePath filePath) deps m0).1]
    exact hfix1 m0 hm0
  have h3 := flatMetas_recalculateImportanceForAffected
    (normalizePath filePath :: deps.map normalizePath) _ projectRoot hwf2 hnd2 hfix2
  rw [h3, h2, List.map_map]
  rw [symMetas_perm (hper1.map (foldUpdM (recalcM projectRoot)
    (dedupKeepFirst (normalizePath filePath :: deps.map normalizePath)) ∘
    foldUpdM (pushDepM (normalizePath filePath)) deps)), List.map_cons]
  apply symMetas_add_final (normalizePath filePath) deps (flatMetas tree) _ nm
    ?_ hsym hfix hdep hidem hfresh hnoref hnm_path hnm_dir hnm_deps hnm_dept
  intro m
  simp only [Function.comp]
  obtain ⟨r1, r2, r3, r4⟩ := foldUpdM_recalc_char projectRoot
    (dedupKeepFirst (normalizePath filePath :: deps.map normalizePath))
    (foldUpdM (pushDepM (normalizePath filePath)) deps m)
  obtain ⟨p1, p2, p3, p4⟩ := foldUpdM_pushDep_char (normalizePath filePath) deps m
  exact ⟨by rw [r1, p1], by rw [r2, p2], by rw [r3, p3],
    fun x => by rw [r4, p4 x]⟩

/-- `addFileNode` preserves graph symmetry: under distinct
normalize-fixed paths, normalized dependency entries, and a genuinely
fresh new path that no existing node mentions, the new tree's flattened
metas are again symmetric. -/
theorem addFileNode_symmetric (filePath : String) (tree : FileNode)
    (deps : List String) (pkgs : List PackageDependency) (projectRoot : String)
    (hwf : wfNode tree = true)
    (hnd : ((flatMetas tree).map FileMeta.path).Nodup)
    (hfix : ∀ m ∈ flatMetas tree, normalizePath m.path = m.path)
    (hsym : SymMetas (flatMetas tree))
    (hdep : ∀ d ∈ deps, normalizePath d = d)
    (hidem : normalizePath (normalizePath filePath) = normalizePath filePath)
    (hfresh : normalizePath filePath ∉ (flatMetas tree).map FileMeta.path)
    (hnoref : ∀ m ∈ flatMetas tree,
      normalizePath filePath ∉ m.dependents ∧ normalizePath filePath ∉ m.dependencies) :
    SymMetas (flatMetas (addFileNode filePath tree deps pkgs projectRoot)) := by
  cases hfind : findNodeByPath
      (normalizePath (⟨dirnameL (normalizePath filePath).data⟩ : String)) tree with
  | none =>
    have he : addFileNode filePath tree deps pkgs projectRoot = tree := by
      rw [addFileNode]
      simp only [hfind]
    rw [he]
    exact hsym
  | some parent =>
    by_cases hpd : parent.isDirectory = true
    · have hparent := findNodeByPath_sound hfind
      have hany : parent.children.any
          (fun c => normalizePath c.path = normalizePath filePath) = false := by
        rw [List.any_eq_false]
        intro c hc
        have hcm : c.meta ∈ flatMetas tree := by
          rw [flatMetas_eq]
          exact List.mem_map.mpr
            ⟨c, getAllNodes_trans hparent.1 (child_mem_getAllNodes hc), rfl⟩
        have hcp : normalizePath c.path = c.path := hfix c.meta hcm
        simp only [decide_eq_true_eq]
        intro hceq
        exact hfresh (by
          refine List.mem_map.mpr ⟨c.meta, hcm, ?_⟩
          show c.meta.path = normalizePath filePath
          rw [← hceq]
          exact (hfix c.meta hcm).symm)
      have he : addFileNode filePath tree deps pkgs projectRoot =
          recalculateImportanceForAffected
            (normalizePath filePath :: deps.map normalizePath)
            (updateDependentsForNewNode (normalizePath filePath) deps
              ((updFirst
                (normalizePath (⟨dirnameL (normalizePath filePath).data⟩ : String))
                (insertChildF (FileNode.mk
                  { path := normalizePath filePath
                    name := ⟨basenameL (normalizePath filePath).data⟩
                    isDirectory := false
                    dependencies := deps
                    packageDependencies := pkgs
                    dependents := []
                    importance := some (calculateInitialImportance
                      (normalizePath filePath) projectRoot) } [])) tree).2))
            projectRoot := by
        rw [addFileNode]
        simp only [hfind]
        rw [if_neg (by simp [hpd]), if_neg (by simp [hany])]
        rfl
      rw [he]
      exact add_pipeline_symmetric filePath
        (normalizePath (⟨dirnameL (normalizePath filePath).data⟩ : String))
        { path := normalizePath filePath
          name := ⟨basenameL (normalizePath filePath).data⟩
          isDirectory := false
          dependencies := deps
          packageDependencies := pkgs
          dependents := []
          importance := some (calculateInitialImportance
            (normalizePath filePath) projectRoot) }
        tree parent deps projectRoot hfind hpd rfl rfl rfl rfl
        hwf hnd hfix hsym hdep hidem hfresh hnoref
    · have he : addFileNode filePath tree deps pkgs projectRoot = tree := by
        rw [addFileNode]
        simp only [hfind]
        rw [if_pos (by simp [hpd])]
      rw [he]
      exact hsym

/-- The flat meta list after the removal cleanup: every surviving meta
rewritten by the removal composite, which only strips references to the
removed path. Symmetry among survivors is untouched. -/
theorem symMetas_remove_final (rp : String) (L1 : List FileMeta)
    (G : FileMeta → FileMeta)
    (hGchar : ∀ m, (G m).path = m.path ∧ (G m).isDirectory = m.isDirectory ∧
      (∀ x, x ≠ rp → (x ∈ (G m).dependents ↔ x ∈ m.dependents)) ∧
      (∀ x, normalizePath x ≠ normalizePath rp →
        (x ∈ (G m).dependencies ↔ x ∈ m.dependencies)))
    (L : List FileMeta) (hsub : ∀ m ∈ L1, m ∈ L) (hsym : SymMetas L)
    (hfix1 : ∀ m ∈ L1, normalizePath m.path = m.path)
    (hnotrp : ∀ m ∈ L1, m.path ≠ rp)
    (hrpfix : normalizePath rp = rp) :
    SymMetas (L1.map G) := by
  intro a ha hda b hb hdb
  obtain ⟨m, hm, rfl⟩ := List.mem_map.mp ha
  obtain ⟨m2, hm2, rfl⟩ := List.mem_map.mp hb
  obtain ⟨d1, d2, d3, d4⟩ := hGchar m
  obtain ⟨e1, e2, e3, e4⟩ := hGchar m2
  rw [e1, d1, d3 m2.path (hnotrp m2 hm2),
    e4 m.path (by rw [hfix1 m hm, hrpfix]; exact hnotrp m hm)]
  have hdir : m.isDirectory = false := by rw [← d2]; exact hda
  have hdir2 : m2.isDirectory = false := by rw [← e2]; exact hdb
  exact hsym m (hsub m hm) hdir m2 (hsub m2 hm2) hdir2

/-- `removeFileNode` preserves graph symmetry, provided the removed node
really is the child of the node found at its dirname (as in every tree
built by the scanner and incremental updater). -/
theorem removeFileNode_symmetric (filePath : String) (tree : FileNode)
    (projectRoot : String)
    (hwf : wfNode tree = true)
    (hnd : ((flatMetas tree).map FileMeta.path).Nodup)
    (hfix : ∀ m ∈ flatMetas tree, normalizePath m.path = m.path)
    (hsym : SymMetas (flatMetas tree))
    (R P : FileNode)
    (hR : findNodeByPath (normalizePath filePath) tree = some R)
    (hRfile : R.isDirectory = false)
    (hP : findNodeByPath
      (normalizePath (⟨dirnameL (normalizePath filePath).data⟩ : String)) tree = some P)
    (hPdir : P.isDirectory = true)
    (hchild : R ∈ P.children) :
    SymMetas (flatMetas (removeFileNode filePath tree projectRoot)) := by
  have hRsound := findNodeByPath_sound hR
  have hRm : R.meta ∈ flatMetas tree := by
    rw [flatMetas_eq]
    exact List.mem_map.mpr ⟨R, hRsound.1, rfl⟩
  have hRpath : R.path = normalizePath filePath := by
    have h := hfix R.meta hRm
    rw [show R.path = R.meta.path from rfl, ← h]
    exact hRsound.2
  have he : removeFileNode filePath tree projectRoot =
      recalculateImportanceForAffected
        (R.dependencies.map normalizePath ++ R.dependents.map normalizePath)
        (updateDependersAfterRemoval R.path R.dependents
          (updateDependentsAfterRemoval R.path R.dependencies
            ((updFirst
              (normalizePath (⟨dirnameL (normalizePath filePath).data⟩ : String))
              (removeChildF (normalizePath filePath)) tree).2)))
        projectRoot := by
    rw [removeFileNode]
    simp only [hR]
    rw [if_neg (by simp [hRfile])]
    simp only [hP]
    rw [if_neg (by simp [hPdir])]
    rfl
  rw [he]
  have hex : ∃ x ∈ P.children, normalizePath x.path = normalizePath filePath :=
    ⟨R, hchild, hRsound.2⟩
  obtain ⟨x0, hx0c, hx0n, hperm0⟩ := updFirst_removeChild_char
    (normalizePath (⟨dirnameL (normalizePath filePath).data⟩ : String))
    (normalizePath filePath) hP hPdir hex
  have hPsound := findNodeByPath_sound hP
  have hx0mem : x0 ∈ getAllNodes tree :=
    getAllNodes_trans hPsound.1 (child_mem_getAllNodes hx0c)
  have hx0m : x0.meta ∈ flatMetas tree := by
    rw [flatMetas_eq]
    exact List.mem_map.mpr ⟨x0, hx0mem, rfl⟩
  have hx0path : x0.path = normalizePath filePath := by
    have h := hfix x0.meta hx0m
    rw [show x0.path = x0.meta.path from rfl, ← h]
    exact hx0n
  have hx0meta : x0.meta = R.meta :=
    nodup_map_inj_mem hnd hx0m hRm (by show x0.path = R.path; rw [hx0path, hRpath])
  have hx0dir : x0.isDirectory = false := by
    show x0.meta.isDirectory = false
    rw [hx0meta]
    exact hRfile
  have hx0flat : flatMetas x0 = [R.meta] := by
    have hsplit : flatMetas x0 = x0.meta :: flatMetasList x0.children := by
      cases x0
      rfl
    rw [hsplit, wfNode_mem hwf hx0mem hx0dir, hx0meta]
    rfl
  have hperm : (flatMetas tree).Perm (R.meta ::
      flatMetas ((updFirst
        (normalizePath (⟨dirnameL (normalizePath filePath).data⟩ : String))
        (removeChildF (normalizePath filePath)) tree).2)) := by
    have h2 := hperm0
    rw [hx0flat] at h2
    exact h2
  have hwf1 := updFirst_wf
    (normalizePath (⟨dirnameL (normalizePath filePath).data⟩ : String))
    (removeChildF (normalizePath filePath))
    (fun n hn => wf_removeChildF _ n hn) tree hwf
  have hpaths1 : ((flatMetas tree).map FileMeta.path).Perm (R.path ::
      (flatMetas ((updFirst
        (normalizePath (⟨dirnameL (normalizePath filePath).data⟩ : String))
        (removeChildF (normalizePath filePath)) tree).2)).map FileMeta.path) := by
    have h2 := hperm.map FileMeta.path
    simpa using h2
  have hnodup1 := (hpaths1.nodup_iff).mp hnd
  rw [List.nodup_cons] at hnodup1
  have hnd1 := hnodup1.2
  have hRnot1 := hnodup1.1
  have hsub1 : ∀ m ∈ flatMetas ((updFirst
      (normalizePath (⟨dirnameL (normalizePath filePath).data⟩ : String))
      (removeChildF (normalizePath filePath)) tree).2), m ∈ flatMetas tree := by
    intro m hm
    exact hperm.symm.subset (List.mem_cons_of_mem _ hm)
  have hfix1 : ∀ m ∈ flatMetas ((updFirst
      (normalizePath (⟨dirnameL (normalizePath filePath).data⟩ : String))
      (removeChildF (normalizePath filePath)) tree).2),
      normalizePath m.path = m.path :=
    fun m hm => hfix m (hsub1 m hm)
  have h2 := flatMetas_updateDependentsAfterRemoval R.path R.dependencies
    _ hwf1 hnd1 hfix1
  have hwf2 := wf_updateDependentsAfterRemoval R.path R.dependencies _ hwf1
  have hpaths2 : (flatMetas (updateDependentsAfterRemoval R.path R.dependencies
      ((updFirst
        (normalizePath (⟨dirnameL (normalizePath filePath).data⟩ : String))
        (removeChildF (normalizePath filePath)) tree).2))).map FileMeta.path =
      (flatMetas ((updFirst
        (normalizePath (⟨dirnameL (normalizePath filePath).data⟩ : String))
        (removeChildF (normalizePath filePath)) tree).2)).map FileMeta.path := by
    rw [h2]
    exact map_map_eq _ _ _
      (fun x hx => (foldUpdM_remDependent_char R.path R.dependencies x).1)
  have hnd2 : ((flatMetas (updateDependentsAfterRemoval R.path R.dependencies
      ((updFirst
        (normalizePath (⟨dirnameL (normalizePath filePath).data⟩ : String))
        (removeChildF (normalizePath filePath)) tree).2))).map FileMeta.path).Nodup := by
    rw [hpaths2]
    exact hnd1
  have hfix2 : ∀ m ∈ flatMetas (updateDependentsAfterRemoval R.path R.dependencies
      ((updFirst
        (normalizePath (⟨dirnameL (normalizePath filePath).data⟩ : String))
        (removeChildF (normalizePath filePath)) tree).2)),
      normalizePath m.path = m.path := by
    intro m hm
    rw [h2] at hm
    obtain ⟨m0, hm0, rfl⟩ := List.mem_map.mp hm
    rw [(foldUpdM_remDependent_char R.path R.dependencies m0).1]
    exact hfix1 m0 hm0
  have h3 := flatMetas_updateDependersAfterRemoval R.path R.dependents _ hwf2 hnd2 hfix2
  have hwf3 := wf_updateDependersAfterRemoval R.path R.dependents _ hwf2
  have hpaths3 : (flatMetas (updateDependersAfterRemoval R.path R.dependents
      (updateDependentsAfterRemoval R.path R.dependencies
        ((updFirst
          (normalizePath (⟨dirnameL (normalizePath filePath).data⟩ : String))
          (removeChildF (normalizePath filePath)) tree).2)))).map FileMeta.path =
      (flatMetas (updateDependentsAfterRemoval R.path R.dependencies
        ((updFirst
          (normalizePath (⟨dirnameL (normalizePath filePath).data⟩ : String))
          (removeChildF (normalizePath filePath)) tree).2))).map FileMeta.path := by
    rw [h3]
    exact map_map_eq _ _ _
      (fun x hx => (foldUpdM_remDependency_char (normalizePath R.path) R.dependents x).1)
  have hnd3 : ((flatMetas (updateDependersAfterRemoval R.path R.dependents
      (updateDependentsAfterRemoval R.path R.dependencies
        ((updFirst
          (normalizePath (⟨dirnameL (normalizePath filePath).data⟩ : String))
          (removeChildF (normalizePath filePath)) tree).2)))).map FileMeta.path).Nodup := by
    rw [hpaths3, hpaths2]
    exact hnd1
  have hfix3 : ∀ m ∈ flatMetas (updateDependersAfterRemoval R.path R.dependents
      (updateDependentsAfterRemoval R.path R.dependencies
        ((updFirst
          (normalizePath (⟨dirnameL (normalizePath filePath).data⟩ : String))
          (removeChildF (normalizePath filePath)) tree).2))),
      normalizePath m.path = m.path := by
    intro m hm
    rw [h3] at hm
    obtain ⟨m0, hm0, rfl⟩ := List.mem_map.mp hm
    rw [(foldUpdM_remDependency_char (normalizePath R.path) R.dependents m0).1]
    exact hfix2 m0 hm0
  have h4 := flatMetas_recalculateImportanceForAffected
    (R.dependencies.map normalizePath ++ R.dependents.map normalizePath)
    _ projectRoot hwf3 hnd3 hfix3
  rw [h4, h3, h2, List.map_map, List.map_map]
  have hrpfix : normalizePath R.path = R.path := hfix R.meta hRm
  apply symMetas_remove_final R.path _ _ ?_ (flatMetas tree) hsub1 hsym hfix1
    (fun m hm => fun hcon =>
      hRnot1 (by rw [← hcon]; exact List.mem_map.mpr ⟨m, hm, rfl⟩))
    hrpfix
  intro m
  simp only [Function.comp]
  obtain ⟨r1, r2, r3, r4⟩ := foldUpdM_recalc_char projectRoot
    (dedupKeepFirst (R.dependencies.map normalizePath ++ R.dependents.map normalizePath))
    (foldUpdM (remDependencyM (normalizePath R.path)) R.dependents
      (foldUpdM (remDependentM R.path) R.dependencies m))
  obtain ⟨q1, q2, q3, q4⟩ := foldUpdM_remDependency_char (normalizePath R.path)
    R.dependents (foldUpdM (remDependentM R.path) R.dependencies m)
  obtain ⟨p1, p2, p3, p4⟩ := foldUpdM_remDependent_char R.path R.dependencies m
  refine ⟨by rw [r1, q1, p1], by rw [r2, q2, p2], fun x hx => ?_, fun x hx => ?_⟩
  · rw [r4, q3, p4 x hx]
  · rw [r3, q4 x hx, p3]


/-- Claim C1: graph symmetry. (i) After a full scan (fresh empty
`dependents` lists, distinct file paths) followed by
`buildDependentMap`, any two file nodes A, B of the resulting list
satisfy `B.path ∈ A.dependents` iff `A.path ∈ B.dependencies`.
(ii) The invariant is preserved by the incremental `addFileNode` on a
well-formed tree with distinct normalize-fixed paths, normalized
dependency entries, and a fresh new path that no existing node mentions.
(iii) It is preserved by the incremental `removeFileNode` when the
removed file node is a child of the directory node found at its dirname
(as in every tree the scanner and updater build). -/
theorem graph_symmetry
    (root : FileNode)
    (hnd0 : ((getAllFileNodes root).map FileNode.path).Nodup)
    (hemp : ∀ F ∈ getAllFileNodes root, F.dependents = [])
    (tree : FileNode) (filePath : String) (deps : List String)
    (pkgs : List PackageDependency) (projectRoot : String)
    (hwf : wfNode tree = true)
    (hnd : ((flatMetas tree).map FileMeta.path).Nodup)
    (hfix : ∀ m ∈ flatMetas tree, normalizePath m.path = m.path)
    (hsym : SymNodes (getAllNodes tree))
    (hdep : ∀ d ∈ deps, normalizePath d = d)
    (hidem : normalizePath (normalizePath filePath) = normalizePath filePath)
    (hfresh : normalizePath filePath ∉ (flatMetas tree).map FileMeta.path)
    (hnoref : ∀ m ∈ flatMetas tree,
      normalizePath filePath ∉ m.dependents ∧ normalizePath filePath ∉ m.dependencies)
    (tree2 : FileNode) (filePath2 : String) (projectRoot2 : String) (R P : FileNode)
    (hwf2 : wfNode tree2 = true)
    (hnd2 : ((flatMetas tree2).map FileMeta.path).Nodup)
    (hfix2 : ∀ m ∈ flatMetas tree2, normalizePath m.path = m.path)
    (hsym2 : SymNodes (getAllNodes tree2))
    (hR : findNodeByPath (normalizePath filePath2) tree2 = some R)
    (hRfile : R.isDirectory = false)
    (hP : findNodeByPath
      (normalizePath (⟨dirnameL (normalizePath filePath2).data⟩ : String)) tree2 =
      some P)
    (hPdir : P.isDirectory = true)
    (hchild : R ∈ P.children) :
    SymNodes (buildDependentMap root) ∧
    SymNodes (getAllNodes (addFileNode filePath tree deps pkgs projectRoot)) ∧
    SymNodes (getAllNodes (removeFileNode filePath2 tree2 projectRoot2)) := by
  refine ⟨buildDependentMap_symmetric root hnd0 hemp, ?_, ?_⟩
  · rw [symNodes_iff] at hsym ⊢
    rw [← flatMetas_eq] at hsym ⊢
    exact addFileNode_symmetric filePath tree deps pkgs projectRoot hwf hnd hfix
      hsym hdep hidem hfresh hnoref
  · rw [symNodes_iff] at hsym2 ⊢
    rw [← flatMetas_eq] at hsym2 ⊢
    exact removeFileNode_symmetric filePath2 tree2 projectRoot2 hwf2 hnd2 hfix2
      hsym2 R P hR hRfile hP hPdir hchild

theorem graph_symmetry_witness :
    SymNodes (buildDependentMap c1Root) ∧
    SymNodes (getAllNodes (addFileNode "/r/b.ts" c1Tree ["/r/a.ts"] [] "/r")) ∧
    SymNodes (getAllNodes (removeFileNode "/r/a.ts" c1Tree2 "/r")) :=
  graph_symmetry c1Root (by decide) (by decide)
    c1Tree "/r/b.ts" ["/r/a.ts"] [] "/r"
    (by decide) (by decide) (by decide)
    (by unfold SymNodes; decide)
    (by decide) (by decide) (by decide) (by decide)
    c1Tree2 "/r/a.ts" "/r" c1FileA2 c1Tree2
    (by decide) (by decide) (by decide)
    (by unfold SymNodes; decide)
    rfl (by decide) rfl (by decide)
    (List.mem_singleton.mpr rfl)

/-! ## Claim C5 groundwork: add/remove round-trip -/

theorem wf_recalculateImportanceForAffected (paths : List String) (t : FileNode)
    (root : String) (hwf : wfNode t = true) :
    wfNode (recalculateImportanceForAffected paths t root) = true := by
  rw [recalculateImportanceForAffected, recalc_f_eq root]
  exact foldUpd_wf (recalcM root) (recalcM_isDir root) (dedupKeepFirst paths) t hwf

theorem findNodeByPath_none_of_not_mem (tgt : String) (t : FileNode)
    (hfix : ∀ m ∈ flatMetas t, normalizePath m.path = m.path)
    (h : tgt ∉ (flatMetas t).map FileMeta.path) :
    findNodeByPath tgt t = none := by
  cases hf : findNodeByPath tgt t with
  | none => rfl
  | some r =>
    obtain ⟨hmem, hnorm⟩ := findNodeByPath_sound hf
    have hrm : r.meta ∈ flatMetas t := by
      rw [flatMetas_eq]
      exact List.mem_map.mpr ⟨r, hmem, rfl⟩
    exact absurd (List.mem_map.mpr ⟨r.meta, hrm, by
      show r.meta.path = tgt
      have h2 := hfix r.meta hrm
      rw [← h2]
      exact hnorm⟩) h

theorem removeFileNode_eq_of_not_found (filePath : String) (t : FileNode)
    (root : String)
    (hnone : findNodeByPath (normalizePath filePath) t = none) :
    removeFileNode filePath t root = t := by
  rw [removeFileNode]
  simp only [hnone]

/-- After adding a file with no dependencies at a fresh path and then
removing that same path, the flattened metas are a permutation of the
original ones: the two incremental operations cancel exactly. `T1` is
the tree after the sorted child insert, `A` the full post-add tree. -/
theorem roundtrip_pipeline (filePath tgt2 : String) (nm : FileMeta)
    (tree parent T1 A : FileNode) (projectRoot : String)
    (htgt2 : tgt2 =
      normalizePath (⟨dirnameL (normalizePath filePath).data⟩ : String))
    (hfind : findNodeByPath tgt2 tree = some parent)
    (hpd : parent.isDirectory = true)
    (hnm_path : nm.path = normalizePath filePath)
    (hnm_dir : nm.isDirectory = false)
    (hnm_deps : nm.dependencies = [])
    (hnm_dept : nm.dependents = [])
    (hT1 : T1 = (updFirst tgt2 (insertChildF (FileNode.mk nm [])) tree).2)
    (hAdef : A = recalculateImportanceForAffected [normalizePath filePath] T1
      projectRoot)
    (hwf : wfNode tree = true)
    (hnd : ((flatMetas tree).map FileMeta.path).Nodup)
    (hfix : ∀ m ∈ flatMetas tree, normalizePath m.path = m.path)
    (hidem : normalizePath (normalizePath filePath) = normalizePath filePath)
    (hfresh : normalizePath filePath ∉ (flatMetas tree).map FileMeta.path) :
    (flatMetas (removeFileNode filePath A projectRoot)).Perm (flatMetas tree) := by
  have hins := updFirst_insert_char tgt2 (FileNode.mk nm []) hfind hpd
  have hper1 : (flatMetas T1).Perm (nm :: flatMetas tree) := by
    rw [hT1]
    exact hins.1
  have hwfN : wfNode (FileNode.mk nm []) = true := by
    rw [wfNode]
    simp [wfNodeList]
  have hwf1 : wfNode T1 = true := by
    rw [hT1]
    exact updFirst_wf tgt2 (insertChildF (FileNode.mk nm []))
      (fun n hn => wf_insertChildF _ hwfN n hn) tree hwf
  have hnd1 : ((flatMetas T1).map FileMeta.path).Nodup := by
    rw [(hper1.map FileMeta.path).nodup_iff, List.map_cons]
    exact List.nodup_cons.mpr ⟨by rw [hnm_path]; exact hfresh, hnd⟩
  have hfix1 : ∀ m ∈ flatMetas T1, normalizePath m.path = m.path := by
    intro m hm
    rcases List.mem_cons.mp (hper1.subset hm) with rfl | hm2
    · rw [hnm_path]
      exact hidem
    · exact hfix m hm2
  have hA : flatMetas A = (flatMetas T1).map
      (foldUpdM (recalcM projectRoot) (dedupKeepFirst [normalizePath filePath])) := by
    rw [hAdef]
    exact flatMetas_recalculateImportanceForAffected [normalizePath filePath]
      T1 projectRoot hwf1 hnd1 hfix1
  have hmapid : (flatMetas tree).map
      (foldUpdM (recalcM projectRoot) (dedupKeepFirst [normalizePath filePath])) =
      flatMetas tree := by
    apply map_eq_self_of
    intro m hm
    show applyAtM (normalizePath (normalizePath filePath)) (recalcM projectRoot) m = m
    rw [applyAtM, if_neg]
    rw [hfix m hm, hidem]
    intro hc
    exact hfresh (List.mem_map.mpr ⟨m, hm, hc⟩)
  have hAperm : (flatMetas A).Perm
      (foldUpdM (recalcM projectRoot) (dedupKeepFirst [normalizePath filePath]) nm ::
        flatMetas tree) := by
    rw [hA]
    refine (hper1.map _).trans ?_
    rw [List.map_cons, hmapid]
  obtain ⟨r1, r2, r3, r4⟩ := foldUpdM_recalc_char projectRoot
    (dedupKeepFirst [normalizePath filePath]) nm
  have hwfA : wfNode A = true := by
    rw [hAdef]
    exact wf_recalculateImportanceForAffected [normalizePath filePath] T1
      projectRoot hwf1
  have hfixA : ∀ m ∈ flatMetas A, normalizePath m.path = m.path := by
    intro m hm
    rw [hA] at hm
    obtain ⟨m0, hm0, rfl⟩ := List.mem_map.mp hm
    rw [(foldUpdM_recalc_char projectRoot _ m0).1]
    exact hfix1 m0 hm0
  have hNmem : foldUpdM (recalcM projectRoot)
      (dedupKeepFirst [normalizePath filePath]) nm ∈ flatMetas A := by
    rw [hA]
    exact List.mem_map.mpr ⟨nm, hper1.symm.subset (List.mem_cons_self _ _), rfl⟩
  obtain ⟨nNode, hnNode, hnNmeta⟩ : ∃ n ∈ getAllNodes A,
      n.meta = foldUpdM (recalcM projectRoot)
        (dedupKeepFirst [normalizePath filePath]) nm := by
    have h2 := hNmem
    rw [flatMetas_eq] at h2
    obtain ⟨n, hn, he2⟩ := List.mem_map.mp h2
    exact ⟨n, hn, he2⟩
  have hfindRA : (findNodeByPath (normalizePath filePath) A).isSome = true := by
    apply findNodeByPath_complete hwfA hnNode
    show normalizePath nNode.path = normalizePath filePath
    rw [show nNode.path = nNode.meta.path from rfl, hnNmeta, r1, hnm_path]
    exact hidem
  cases hRA : findNodeByPath (normalizePath filePath) A with
  | none =>
    rw [hRA] at hfindRA
    simp at hfindRA
  | some RA =>
    have hRAsound := findNodeByPath_sound hRA
    have hRAm : RA.meta ∈ flatMetas A := by
      rw [flatMetas_eq]
      exact List.mem_map.mpr ⟨RA, hRAsound.1, rfl⟩
    have hRAmeta : RA.meta = foldUpdM (recalcM projectRoot)
        (dedupKeepFirst [normalizePath filePath]) nm := by
      rcases List.mem_cons.mp (hAperm.subset hRAm) with he2 | hmem2
      · exact he2
      · exfalso
        apply hfresh
        refine List.mem_map.mpr ⟨RA.meta, hmem2, ?_⟩
        show RA.meta.path = normalizePath filePath
        have h3 := hfix RA.meta hmem2
        rw [← h3]
        exact hRAsound.2
    have hRAfile : RA.isDirectory = false := by
      show RA.meta.isDirectory = false
      rw [hRAmeta, r2]
      exact hnm_dir
    have hRAdeps : RA.dependencies = [] := by
      show RA.meta.dependencies = []
      rw [hRAmeta, r3]
      exact hnm_deps
    have hRAdept : RA.dependents = [] := by
      show RA.meta.dependents = []
      rw [hRAmeta, r4]
      exact hnm_dept
    have hAeq : A = (updFirst (normalizePath (normalizePath filePath))
        (metaRewrite (recalcM projectRoot)) T1).2 := by
      rw [hAdef, recalculateImportanceForAffected, recalc_f_eq projectRoot]
      rfl
    obtain ⟨ch2, hfindT1, hN0mem⟩ := hins.2
    have hfindT1b : findNodeByPath tgt2 T1 = some (.mk parent.meta ch2) := by
      rw [hT1]
      exact hfindT1
    have hL11 := findNodeByPath_updFirst_meta (normalizePath (normalizePath filePath))
      tgt2 (recalcM projectRoot) (recalcM_path projectRoot) (recalcM_isDir projectRoot) T1
    rcases hL11 with ⟨hnone2, hnone1⟩ | ⟨r, r2A, hr, hr2A, hm12, hch⟩
    · rw [hfindT1b] at hnone1
      cases hnone1
    · rw [hfindT1b] at hr
      cases hr
      have hfindPA : findNodeByPath tgt2 A = some r2A := by
        rw [hAeq]
        exact hr2A
      have hPAdir : r2A.isDirectory = true := by
        show r2A.meta.isDirectory = true
        rcases hm12 with he2 | he2
        · rw [he2]
          exact hpd
        · rw [he2, recalcM_isDir]
          exact hpd
      have hchildex : ∃ x ∈ r2A.children,
          normalizePath x.path = normalizePath filePath := by
        have hmm : normalizePath filePath ∈
            r2A.children.map (fun c => normalizePath c.path) := by
          rw [hch]
          refine List.mem_map.mpr ⟨FileNode.mk nm [], hN0mem, ?_⟩
          show normalizePath nm.path = normalizePath filePath
          rw [hnm_path]
          exact hidem
        obtain ⟨x, hx, hxe⟩ := List.mem_map.mp hmm
        exact ⟨x, hx, hxe⟩
      have he2 : removeFileNode filePath A projectRoot =
          (updFirst (normalizePath (⟨dirnameL (normalizePath filePath).data⟩ : String))
            (removeChildF (normalizePath filePath)) A).2 := by
        rw [removeFileNode]
        simp only [hRA]
        rw [if_neg (by simp [hRAfile])]
        rw [← htgt2]
        simp only [hfindPA]
        rw [if_neg (by simp [hPAdir])]
        rw [hRAdeps, hRAdept]
        rfl
      rw [he2, ← htgt2]
      obtain ⟨x0, hx0c, hx0n, hperm2⟩ := updFirst_removeChild_char tgt2
        (normalizePath filePath) hfindPA hPAdir hchildex
      have hPAsound := findNodeByPath_sound hfindPA
      have hx0mem : x0 ∈ getAllNodes A :=
        getAllNodes_trans hPAsound.1 (child_mem_getAllNodes hx0c)
      have hx0m : x0.meta ∈ flatMetas A := by
        rw [flatMetas_eq]
        exact List.mem_map.mpr ⟨x0, hx0mem, rfl⟩
      have hx0meta : x0.meta = foldUpdM (recalcM projectRoot)
          (dedupKeepFirst [normalizePath filePath]) nm := by
        rcases List.mem_cons.mp (hAperm.subset hx0m) with he3 | hmem3
        · exact he3
        · exfalso
          apply hfresh
          refine List.mem_map.mpr ⟨x0.meta, hmem3, ?_⟩
          show x0.meta.path = normalizePath filePath
          have h3 := hfix x0.meta hmem3
          rw [← h3]
          exact hx0n
      have hx0dir : x0.isDirectory = false := by
        show x0.meta.isDirectory = false
        rw [hx0meta, r2]
        exact hnm_dir
      have hx0flat : flatMetas x0 = [foldUpdM (recalcM projectRoot)
          (dedupKeepFirst [normalizePath filePath]) nm] := by
        have hsplit : flatMetas x0 = x0.meta :: flatMetasList x0.children := by
          cases x0
          rfl
        rw [hsplit, wfNode_mem hwfA hx0mem hx0dir, hx0meta]
        rfl
      rw [hx0flat] at hperm2
      exact List.Perm.cons_inv (hperm2.symm.trans hAperm)

/-- Claim C5: add/remove round-trip. Adding a new file with no local
imports (`deps = []`) at a fresh path that no importer mentions, then
removing that same path, returns a tree whose flattened metas — in
particular every surviving node's `dependencies` and `dependents`
lists — are a permutation of the original ones. -/
theorem add_remove_roundtrip (filePath : String) (tree : FileNode)
    (pkgs : List PackageDependency) (projectRoot : String)
    (hwf : wfNode tree = true)
    (hnd : ((flatMetas tree).map FileMeta.path).Nodup)
    (hfix : ∀ m ∈ flatMetas tree, normalizePath m.path = m.path)
    (hidem : normalizePath (normalizePath filePath) = normalizePath filePath)
    (hfresh : normalizePath filePath ∉ (flatMetas tree).map FileMeta.path) :
    (flatMetas (removeFileNode filePath
      (addFileNode filePath tree [] pkgs projectRoot) projectRoot)).Perm
      (flatMetas tree) := by
  cases hfind : findNodeByPath
      (normalizePath (⟨dirnameL (normalizePath filePath).data⟩ : String)) tree with
  | none =>
    have he : addFileNode filePath tree [] pkgs projectRoot = tree := by
      rw [addFileNode]
      simp only [hfind]
    rw [he, removeFileNode_eq_of_not_found filePath tree projectRoot
      (findNodeByPath_none_of_not_mem _ tree hfix hfresh)]
  | some parent =>
    by_cases hpd : parent.isDirectory = true
    · have hparent := findNodeByPath_sound hfind
      have hany : parent.children.any
          (fun c => normalizePath c.path = normalizePath filePath) = false := by
        rw [List.any_eq_false]
        intro c hc
        have hcm : c.meta ∈ flatMetas tree := by
          rw [flatMetas_eq]
          exact List.mem_map.mpr
            ⟨c, getAllNodes_trans hparent.1 (child_mem_getAllNodes hc), rfl⟩
        have hcp : normalizePath c.path = c.path := hfix c.meta hcm
        simp only [decide_eq_true_eq]
        intro hceq
        exact hfresh (by
          refine List.mem_map.mpr ⟨c.meta, hcm, ?_⟩
          show c.meta.path = normalizePath filePath
          rw [← hceq]
          exact hcp.symm)
      have he : addFileNode filePath tree [] pkgs projectRoot =
          recalculateImportanceForAffected [normalizePath filePath]
            ((updFirst
              (normalizePath (⟨dirnameL (normalizePath filePath).data⟩ : String))
              (insertChildF (FileNode.mk
                { path := normalizePath filePath
                  name := ⟨basenameL (normalizePath filePath).data⟩
                  isDirectory := false
                  dependencies := []
                  packageDependencies := pkgs
                  dependents := []
                  importance := some (calculateInitialImportance
                    (normalizePath filePath) projectRoot) } [])) tree).2)
            projectRoot := by
        rw [addFileNode]
        simp only [hfind]
        rw [if_neg (by simp [hpd]), if_neg (by simp [hany])]
        rfl
      rw [he]
      exact roundtrip_pipeline filePath
        (normalizePath (⟨dirnameL (normalizePath filePath).data⟩ : String))
        { path := normalizePath filePath
          name := ⟨basenameL (normalizePath filePath).data⟩
          isDirectory := false
          dependencies := []
          packageDependencies := pkgs
          dependents := []
          importance := some (calculateInitialImportance
            (normalizePath filePath) projectRoot) }
        tree parent _ _ projectRoot rfl hfind hpd rfl rfl rfl rfl rfl rfl
        hwf hnd hfix hidem hfresh
    · have he : addFileNode filePath tree [] pkgs projectRoot = tree := by
        rw [addFileNode]
        simp only [hfind]
        rw [if_pos (by simp [hpd])]
      rw [he, removeFileNode_eq_of_not_found filePath tree projectRoot
        (findNodeByPath_none_of_not_mem _ tree hfix hfresh)]

theorem add_remove_roundtrip_witness :
    (flatMetas (removeFileNode "/p/b.ts"
      (addFileNode "/p/b.ts" c5Tree [] [] "/p") "/p")).Perm (flatMetas c5Tree) :=
  add_remove_roundtrip "/p/b.ts" c5Tree [] "/p" (by decide) (by decide) (by decide)
    (by decide) (by decide)

end FileScope
